import Mathlib

/-!
# Gummi editing core: a shallow embedding

Strings are lists of Unicode characters (`List Char`); a `gchar*` that may be
`NULL` is an `Option`.  GLib, GTK and libc functions called by the sources are
modelled by small executable functions that follow their documented behaviour
on POSIX systems.  The three source files are `editor.c`, `utils.c` and
`iofunctions.c`.
-/

namespace Gummi

/-- Text: a list of Unicode characters. -/
abbrev Str := List Char

/-! ## Definitions -/

/-! ### libc and GLib string and path helpers -/

/-- The path separator `G_DIR_SEPARATOR` on POSIX. -/
def G_DIR_SEPARATOR : Char := '/'

/-- What `printf ("%s", p)` prints: glibc prints `(null)` for a `NULL` pointer. -/
def fmt_s : Option Str → Str
  | some s => s
  | none => "(null)".toList

/-- Remove the trailing path separators of a string. -/
def strip_trailing_seps (s : Str) : Str :=
  (s.reverse.dropWhile (· == G_DIR_SEPARATOR)).reverse

/-- GLib `g_path_is_absolute` on POSIX: the name starts with the separator. -/
def g_path_is_absolute (file_name : Str) : Bool :=
  match file_name with
  | c :: _ => c == G_DIR_SEPARATOR
  | [] => false

/-- GLib `g_path_get_dirname` on POSIX: `"."` when the name has no separator;
otherwise everything before the last separator, without the separators that end
it, and `"/"` when nothing else is left. -/
def g_path_get_dirname (file_name : Str) : Str :=
  if file_name.any (· == G_DIR_SEPARATOR) then
    let upto := (file_name.reverse.dropWhile (· != G_DIR_SEPARATOR)).reverse
    let q := strip_trailing_seps upto
    if q.isEmpty then [G_DIR_SEPARATOR] else q
  else ['.']

/-- GLib `g_path_get_basename` on POSIX: `"."` for the empty name, `"/"` for a
name made of separators only; otherwise the last component, trailing separators
removed. -/
def g_path_get_basename (file_name : Str) : Str :=
  if file_name.isEmpty then ['.']
  else
    let t := strip_trailing_seps file_name
    if t.isEmpty then [G_DIR_SEPARATOR]
    else (t.reverse.takeWhile (· != G_DIR_SEPARATOR)).reverse

/-- Loop state of GLib `g_build_path_va`. -/
structure BuildPath where
  result : Str
  is_first : Bool
  have_leading : Bool
  single_element : Option Str
  last_trailing : Option Str

/-- One iteration of the element loop of GLib `g_build_path_va` for the
one-character separator `/`. -/
def g_build_path_step (st : BuildPath) (element : Str) : BuildPath :=
  if element.isEmpty then st
  else
    let lead := element.takeWhile (· == G_DIR_SEPARATOR)
    let mid := strip_trailing_seps (element.dropWhile (· == G_DIR_SEPARATOR))
    let trail := element.drop (strip_trailing_seps element).length
    let st1 : BuildPath :=
      if !st.have_leading then
        { st with
          single_element := if mid.isEmpty then some element else st.single_element
          result := st.result ++ lead
          have_leading := true
          last_trailing := some trail }
      else { st with single_element := none, last_trailing := some trail }
    if mid.isEmpty then st1
    else
      { st1 with
        result := (if !st1.is_first then st1.result ++ [G_DIR_SEPARATOR] else st1.result) ++ mid
        is_first := false }

/-- GLib `g_build_filename` on POSIX: the elements joined by single separators;
empty elements are skipped, the separators leading the first element and
trailing the last one are kept. -/
def g_build_filename (elements : List Str) : Str :=
  let st := elements.foldl g_build_path_step
    { result := [], is_first := true, have_leading := false,
      single_element := none, last_trailing := none }
  match st.single_element with
  | some e => e
  | none => st.result ++ (st.last_trailing.getD [])

/-- What the operating system answers to one `g_mkstemp` call: the descriptor
(`-1` on failure) and the six characters written over the `XXXXXX` that ends
the template. -/
structure Mkstemp where
  fd : Int
  chars : Str

/-- GLib `g_mkstemp` for a template that ends in `XXXXXX`: the template is
rewritten in place and the descriptor returned. -/
def g_mkstemp (tmpl : Str) (mk : Mkstemp) : Int × Str :=
  (mk.fd, tmpl.take (tmpl.length - 6) ++ mk.chars)

/-! ### The editor state (`GuEditor`, editor.h) -/

/-- Values the sources take from their environment: the cache directory
`C_TMPDIR` (constants.h, not part of the three files) and the current
directory returned by `g_get_current_dir`. -/
structure Env where
  C_TMPDIR : Str
  current_dir : Str

/-- The fields of `GuEditor` used by the modelled functions.  The text buffer is
its character content together with the offsets of the two marks `insert`
(the cursor) and `selection_bound`. -/
structure GuEditor where
  workfd : Int
  fdname : Option Str
  filename : Option Str
  basename : Option Str
  pdffile : Option Str
  workfile : Option Str
  bibfile : Option Str
  text : Str
  insert : Nat
  selection_bound : Nat
  replace_activated : Bool
  term : Option Str
  backwards : Bool
  wholeword : Bool
  matchcase : Bool

/-- The editor as `editor_new` leaves its file fields and search state, with a
given buffer content and the cursor at the start. -/
def editor_new (text : Str) : GuEditor :=
  { workfd := -1, fdname := none, filename := none, basename := none,
    pdffile := none, workfile := none, bibfile := none,
    text := text, insert := 0, selection_bound := 0,
    replace_activated := false, term := none,
    backwards := false, wholeword := false, matchcase := false }

/-! ### File identity (editor.c) -/

/-- The three paths `auxfile`, `logfile`, `syncfile` computed at the start of
`editor_fileinfo_cleanup`. -/
def editor_fileinfo_cleanup_paths (env : Env) (ec : GuEditor) : Str × Str × Str :=
  match ec.filename with
  | some filename =>
    let basename := g_path_get_basename filename
    (env.C_TMPDIR ++ [G_DIR_SEPARATOR] ++ ['.'] ++ basename ++ ".aux".toList,
     env.C_TMPDIR ++ [G_DIR_SEPARATOR] ++ ['.'] ++ basename ++ ".log".toList,
     env.C_TMPDIR ++ [G_DIR_SEPARATOR] ++ ['.'] ++ basename ++ ".synctex.gz".toList)
  | none =>
    (fmt_s ec.fdname ++ ".aux".toList,
     fmt_s ec.fdname ++ ".log".toList,
     fmt_s ec.fdname ++ ".synctex.gz".toList)

/-- `editor_fileinfo_cleanup`: returns the editor with its file fields reset and
the arguments of the seven `g_remove` calls, in order. -/
def editor_fileinfo_cleanup (env : Env) (ec : GuEditor) : GuEditor × List (Option Str) :=
  let (auxfile, logfile, syncfile) := editor_fileinfo_cleanup_paths env ec
  ({ ec with
     workfd := -1, fdname := none, filename := none, workfile := none,
     pdffile := none, basename := none },
   [some auxfile, some logfile, some syncfile,
    ec.fdname, ec.workfile, ec.pdffile, ec.basename])

/-- `editor_fileinfo_update`: returns the updated editor and the paths removed
by the clean-up it runs first when a work file is open. -/
def editor_fileinfo_update (env : Env) (mk : Mkstemp) (ec : GuEditor)
    (filename : Option Str) : GuEditor × List (Option Str) :=
  let (ec, removed) :=
    if ec.workfd != -1 then editor_fileinfo_cleanup env ec else (ec, [])
  let (workfd, fdname) :=
    g_mkstemp (g_build_filename [env.C_TMPDIR, "gummi_XXXXXX".toList]) mk
  let ec := { ec with fdname := some fdname, workfd := workfd }
  match filename with
  | some filename =>
    let fname :=
      if !g_path_is_absolute filename then
        env.current_dir ++ [G_DIR_SEPARATOR] ++ filename
      else filename
    let base := g_path_get_basename fname
    let dir := g_path_get_dirname fname
    let basename := dir ++ [G_DIR_SEPARATOR] ++ ['.'] ++ base
    ({ ec with
       filename := some fname
       basename := some basename
       workfile := some (basename ++ ".swp".toList)
       pdffile := some (env.C_TMPDIR ++ [G_DIR_SEPARATOR] ++ ['.'] ++ base ++ ".pdf".toList) },
     removed)
  | none =>
    ({ ec with
       workfile := some fdname
       basename := some fdname
       pdffile := some (fdname ++ ".pdf".toList) },
     removed)

/-! ### The GTK text buffer -/

/-- Text between two offsets of the buffer (`gtk_text_iter_get_text`). -/
def buffer_slice (text : Str) (s e : Nat) : Str :=
  (text.drop s).take (e - s)

/-- Offset of a mark after the range `[s, e)` was deleted. -/
def mark_after_delete (m s e : Nat) : Nat :=
  if m ≤ s then m else if m ≤ e then s else m - (e - s)

/-- Offset of a mark after `n` characters were inserted at `pos`; the marks
`insert` and `selection_bound` have right gravity, so a mark at `pos` ends up
behind the inserted text. -/
def mark_after_insert (m pos n : Nat) : Nat :=
  if m < pos then m else m + n

/-- GTK `gtk_text_buffer_delete` of the range `[s, e)`; both iterators are left
at offset `s`. -/
def gtk_text_buffer_delete (ec : GuEditor) (s e : Nat) : GuEditor :=
  { ec with
    text := ec.text.take s ++ ec.text.drop e
    insert := mark_after_delete ec.insert s e
    selection_bound := mark_after_delete ec.selection_bound s e }

/-- GTK `gtk_text_buffer_insert` at offset `pos`; returns the buffer and the
offset of the iterator, which GTK revalidates to the end of the inserted
text. -/
def gtk_text_buffer_insert (ec : GuEditor) (pos : Nat) (str : Str) : GuEditor × Nat :=
  ({ ec with
     text := ec.text.take pos ++ str ++ ec.text.drop pos
     insert := mark_after_insert ec.insert pos str.length
     selection_bound := mark_after_insert ec.selection_bound pos str.length },
   pos + str.length)

/-- Whether `str` occurs at the head of `s`; when `case_insensitive` is set the
characters are compared after lower-casing (the model of
`GTK_TEXT_SEARCH_CASE_INSENSITIVE`). -/
def matches_at (str : Str) (case_insensitive : Bool) (s : Str) : Bool :=
  match str, s with
  | [], _ => true
  | _ :: _, [] => false
  | a :: as, b :: bs =>
    (if case_insensitive then a.toLower == b.toLower else a == b)
      && matches_at as case_insensitive bs

/-- First offset, counted from `pos` at the head of `s`, at which `str` occurs. -/
def find_from (str : Str) (case_insensitive : Bool) : Str → Nat → Option Nat
  | [], _ => none
  | c :: cs, pos =>
    if matches_at str case_insensitive (c :: cs) then some pos
    else find_from str case_insensitive cs (pos + 1)

/-- GTK `gtk_text_iter_forward_search` without limit on a plain-text buffer: the
bounds of the first occurrence of `str` that starts at or after `start`.  For
the empty string GTK answers the empty range one character further, provided
that position is not the end of the buffer. -/
def gtk_text_iter_forward_search (text : Str) (start : Nat) (str : Str)
    (case_insensitive : Bool) : Option (Nat × Nat) :=
  if str.isEmpty then
    if start + 1 < text.length then some (start + 1, start + 1) else none
  else
    (find_from str case_insensitive (text.drop start) start).map
      fun i => (i, i + str.length)

/-- Characters that make up words for the word-boundary tests: letters and
digits. -/
def is_word_char (c : Char) : Bool := c.isAlphanum

/-- Whether the character at offset `i` exists and is a word character. -/
def word_char_at (text : Str) (i : Nat) : Bool :=
  match text.get? i with
  | some c => is_word_char c
  | none => false

/-- GTK `gtk_text_iter_starts_word`: a word character stands at the offset and
none stands before it. -/
def gtk_text_iter_starts_word (text : Str) (i : Nat) : Bool :=
  word_char_at text i && (i == 0 || !word_char_at text (i - 1))

/-- GTK `gtk_text_iter_ends_word`: a word character stands before the offset and
none stands at it. -/
def gtk_text_iter_ends_word (text : Str) (i : Nat) : Bool :=
  i != 0 && word_char_at text (i - 1) && !word_char_at text i

/-! ### Search and replace (editor.c) -/

/-- The loop of `editor_apply_searchtag`, the inner `do … while` and the outer
`while (TRUE)` taken together: `start` is the search position, `acc` the ranges
tagged so far.  `none` means the iteration budget `fuel` ran out. -/
def editor_apply_searchtag_loop (text term : Str) (wholeword matchcase : Bool) :
    Nat → Nat → List (Nat × Nat) → Option (List (Nat × Nat))
  | 0, _, _ => none
  | fuel + 1, start, acc =>
    match gtk_text_iter_forward_search text start term (!matchcase) with
    | none => some acc.reverse
    | some (mstart, mend) =>
      if wholeword && (!gtk_text_iter_starts_word text mstart
          || !gtk_text_iter_ends_word text mend) then
        editor_apply_searchtag_loop text term wholeword matchcase fuel mend acc
      else
        editor_apply_searchtag_loop text term wholeword matchcase fuel mend
          ((mstart, mend) :: acc)

/-- `editor_apply_searchtag`: the ranges that receive the search tag, for the
term and options stored in the editor. -/
def editor_apply_searchtag (ec : GuEditor) : Option (List (Nat × Nat)) :=
  editor_apply_searchtag_loop ec.text (ec.term.getD []) ec.wholeword ec.matchcase
    (ec.text.length + 1) 0 []

/-- The `while (TRUE)` loop of `editor_start_replace_all`; `start` is the search
position.  `none` means the iteration budget `fuel` ran out. -/
def editor_start_replace_all_loop (term rterm : Str) (wholeword matchcase : Bool) :
    Nat → GuEditor → Nat → Option GuEditor
  | 0, _, _ => none
  | fuel + 1, ec, start =>
    match gtk_text_iter_forward_search ec.text start term (!matchcase) with
    | some (mstart, mend) =>
      if !wholeword || (wholeword
          && gtk_text_iter_starts_word ec.text mstart
          && gtk_text_iter_ends_word ec.text mend) then
        let ec1 := gtk_text_buffer_delete ec mstart mend
        let (ec2, mstart) := gtk_text_buffer_insert ec1 mstart rterm
        editor_start_replace_all_loop term rterm wholeword matchcase fuel ec2 mstart
      else some ec
    | none => some ec

/-- `editor_start_replace_all`; the loop gets one iteration per character of the
buffer and one more. -/
def editor_start_replace_all (ec : GuEditor) (term rterm : Str)
    (_backwards wholeword matchcase : Bool) : Option GuEditor :=
  editor_start_replace_all_loop term rterm wholeword matchcase
    (ec.text.length + 1) ec 0

/-- The text in which every occurrence of `term`, found scanning from left to
right and never overlapping an earlier one, is replaced by `rterm`. -/
def replace_all_spec (term rterm : Str) : Str → Str
  | [] => []
  | c :: cs =>
    if term ≠ [] ∧ term <+: c :: cs then
      rterm ++ replace_all_spec term rterm ((c :: cs).drop term.length)
    else c :: replace_all_spec term rterm cs
termination_by s => s.length
decreasing_by
  · rename_i h
    have : 0 < term.length := List.length_pos.mpr h.1
    simp only [List.length_drop, List.length_cons]
    omega
  · simp

/-! ### GRegex: the fragment of PCRE used by the patterns of the sources -/

/-- PCRE `\s` as GRegex compiles it, in UTF-8 mode with Unicode properties
(`PCRE2_UTF`, `PCRE2_UCP`): the horizontal white space U+0009, U+0020, U+00A0,
U+1680, U+180E, U+2000 to U+200A, U+202F, U+205F, U+3000, the vertical white
space U+000A to U+000D, U+0085, U+2028, U+2029, and the characters of general
category Z, which are among these. -/
def is_space (c : Char) : Bool :=
  (0x09 ≤ c.toNat && c.toNat ≤ 0x0d) || c.toNat == 0x20 || c.toNat == 0x85
    || c.toNat == 0xa0 || c.toNat == 0x1680 || c.toNat == 0x180e
    || (0x2000 ≤ c.toNat && c.toNat ≤ 0x200a) || c.toNat == 0x2028 || c.toNat == 0x2029
    || c.toNat == 0x202f || c.toNat == 0x205f || c.toNat == 0x3000

/-- The code point of the digit zero of each run of ten decimal digits of
Unicode 14.0 (general category Nd); the five runs from U+1D7CE are the
mathematical digits. -/
def decimal_digit_zeros : List Nat :=
  [0x30, 0x660, 0x6f0, 0x7c0, 0x966, 0x9e6, 0xa66, 0xae6, 0xb66, 0xbe6, 0xc66, 0xce6,
   0xd66, 0xde6, 0xe50, 0xed0, 0xf20, 0x1040, 0x1090, 0x17e0, 0x1810, 0x1946, 0x19d0,
   0x1a80, 0x1a90, 0x1b50, 0x1bb0, 0x1c40, 0x1c50, 0xa620, 0xa8d0, 0xa900, 0xa9d0,
   0xa9f0, 0xaa50, 0xabf0, 0xff10, 0x104a0, 0x10d30, 0x11066, 0x110f0, 0x11136,
   0x111d0, 0x112f0, 0x11450, 0x114d0, 0x11650, 0x116c0, 0x11730, 0x118e0, 0x11950,
   0x11c50, 0x11d50, 0x11da0, 0x16a60, 0x16ac0, 0x16b50, 0x1d7ce, 0x1d7d8, 0x1d7e2,
   0x1d7ec, 0x1d7f6, 0x1e140, 0x1e2f0, 0x1e950, 0x1fbf0]

/-- PCRE `\d` as GRegex compiles it, with Unicode properties: a character of
general category Nd. -/
def is_digit (c : Char) : Bool :=
  decimal_digit_zeros.any fun z => z ≤ c.toNat && c.toNat < z + 10

/-- libc `isspace` in the C locale, on the bytes of a UTF-8 text: space, tab,
line feed, vertical tab, form feed, carriage return. -/
def isspace (c : Char) : Bool :=
  c == ' ' || c == '\t' || c == '\n' || c == '\x0b' || c == '\x0c' || c == '\r'

/-- libc `isdigit`: an ASCII digit. -/
def isdigit (c : Char) : Bool := '0' ≤ c && c ≤ '9'

/-- PCRE `.` under `G_REGEX_DOTALL`: any character. -/
def is_any (_ : Char) : Bool := true

/-- The class `[^{}\s]`. -/
def is_key_char (c : Char) : Bool :=
  !(c == '{' || c == '}' || is_space c)

/-- The class `[^{}\[\]\s]`. -/
def is_cmd_char (c : Char) : Bool :=
  !(c == '{' || c == '}' || c == '[' || c == ']' || is_space c)

/-- Regular expressions: a literal string, one character of a class, the greedy
star of a class, sequence, the greedy optional group and the capturing group
with its number. -/
inductive Regex where
  | lit (s : Str)
  | chr (p : Char → Bool)
  | star (p : Char → Bool)
  | seq (a b : Regex)
  | opt (a : Regex)
  | group (n : Nat) (a : Regex)

/-- The captured substrings, by group number; `none` for a group that is not
set. -/
abbrev Caps := List (Option Str)

/-- Greedy `c*` followed by the continuation `k`: the longest run is tried
first, then each shorter one (backtracking). -/
def star_run (p : Char → Bool) (k : Str → Caps → Option (Caps × Str)) :
    Str → Caps → Option (Caps × Str)
  | [], caps => k [] caps
  | c :: cs, caps =>
    if p c then
      match star_run p k cs caps with
      | some r => some r
      | none => k (c :: cs) caps
    else k (c :: cs) caps

/-- Backtracking matcher in continuation-passing style: `run re inp caps k`
matches `re` at the head of `inp` and hands the rest of the input and the
captures to `k`; the first alternative for which `k` succeeds wins. -/
def Regex.run : Regex → Str → Caps → (Str → Caps → Option (Caps × Str)) →
    Option (Caps × Str)
  | .lit s, inp, caps, k =>
    if matches_at s false inp then k (inp.drop s.length) caps else none
  | .chr p, inp, caps, k =>
    match inp with
    | c :: cs => if p c then k cs caps else none
    | [] => none
  | .star p, inp, caps, k => star_run p k inp caps
  | .seq a b, inp, caps, k =>
    a.run inp caps (fun inp1 caps1 => b.run inp1 caps1 k)
  | .opt a, inp, caps, k =>
    match a.run inp caps k with
    | some r => some r
    | none => k inp caps
  | .group n a, inp, caps, k =>
    a.run inp caps (fun inp1 caps1 =>
      k inp1 (caps1.set n (some (inp.take (inp.length - inp1.length)))))

/-- A sequence of regular expressions. -/
def Regex.seqs : List Regex → Regex
  | [] => .lit []
  | [a] => a
  | a :: as => .seq a (Regex.seqs as)

/-- Match anchored at the head of `inp`, for a pattern with `ngroups` capturing
groups: the captures (group 0 is the whole match) and the input left. -/
def regex_match_at (re : Regex) (ngroups : Nat) (inp : Str) : Option (Caps × Str) :=
  re.run inp (List.replicate (ngroups + 1) none)
    (fun rest caps =>
      some (caps.set 0 (some (inp.take (inp.length - rest.length))), rest))

/-- The leftmost match in `inp` (`pcre_exec` without anchoring). -/
def regex_search (re : Regex) (ngroups : Nat) : Str → Option (Caps × Str)
  | [] => regex_match_at re ngroups []
  | c :: cs =>
    match regex_match_at re ngroups (c :: cs) with
    | some r => some r
    | none => regex_search re ngroups cs

/-- The successive matches delivered by `g_regex_match` and `g_match_info_next`:
each search starts where the previous match ended, one character further when
the match consumed nothing.  `fuel` bounds the number of matches. -/
def regex_match_all (re : Regex) (ngroups : Nat) : Nat → Str → List Caps
  | 0, _ => []
  | fuel + 1, inp =>
    match regex_search re ngroups inp with
    | none => []
    | some (caps, rest) =>
      caps :: regex_match_all re ngroups fuel
        (if rest.length < inp.length then rest else inp.drop 1)

/-- GLib `g_match_info_fetch_all`: one string per group up to the highest group
that is set, the empty string for an unset group in between.  The C array ends
with `NULL`, read here as `none` by `List.get?`. -/
def g_match_info_fetch_all : Caps → List Str
  | [] => []
  | c :: cs =>
    if c.isSome || cs.any Option.isSome then c.getD [] :: g_match_info_fetch_all cs
    else []

/-! ### The LaTeX scanners (utils.c) -/

/-- The pattern `\\label{\s*([^{}\s]*)\s*}` of `scan_for_labels`. -/
def labels_regex : Regex :=
  Regex.seqs [.lit "\\label\x7b".toList, .star is_space, .group 1 (.star is_key_char),
    .star is_space, .lit "\x7d".toList]

/-- The pattern `\\bibitem{\s*([^{}\s]*)\s*}` of `scan_for_bibitems`. -/
def bibitems_regex : Regex :=
  Regex.seqs [.lit "\\bibitem\x7b".toList, .star is_space, .group 1 (.star is_key_char),
    .star is_space, .lit "\x7d".toList]

/-- The pattern `\\newenvironment\*?{\s*([^{}\s]*)\s*}` of `scan_for_new_envs`. -/
def new_envs_regex : Regex :=
  Regex.seqs [.lit "\\newenvironment".toList, .opt (.lit "*".toList), .lit "\x7b".toList,
    .star is_space, .group 1 (.star is_key_char), .star is_space, .lit "\x7d".toList]

/-- The pattern
`\\(?:re)?newcommand\*?{\s*([^{}\[\]\s]*)\s*}\s*(?:\[\s*(\d)\s*\])?\s*(?:\[\s*([^{}\[\]\s]*)\s*\])?`
of `scan_for_new_cmds`. -/
def new_cmds_regex : Regex :=
  Regex.seqs [.lit "\\".toList, .opt (.lit "re".toList), .lit "newcommand".toList,
    .opt (.lit "*".toList), .lit "\x7b".toList,
    .star is_space, .group 1 (.star is_cmd_char), .star is_space, .lit "\x7d".toList,
    .star is_space,
    .opt (Regex.seqs [.lit "[".toList, .star is_space, .group 2 (.chr is_digit),
      .star is_space, .lit "]".toList]),
    .star is_space,
    .opt (Regex.seqs [.lit "[".toList, .star is_space, .group 3 (.star is_cmd_char),
      .star is_space, .lit "]".toList])]

/-- `scan_for_labels`: the arguments of the successive
`gu_completion_add_ref_choice` calls. -/
def scan_for_labels (content : Str) : List Str :=
  (regex_match_all labels_regex 1 (content.length + 1) content).filterMap
    fun caps => (g_match_info_fetch_all caps).get? 1

/-- `scan_for_bibitems`: the arguments of the successive
`gu_completion_add_citation_choice` calls. -/
def scan_for_bibitems (content : Str) : List Str :=
  (regex_match_all bibitems_regex 1 (content.length + 1) content).filterMap
    fun caps => (g_match_info_fetch_all caps).get? 1

/-- `scan_for_new_envs`: the arguments (name, package) of the successive
`gu_completion_add_environment` calls. -/
def scan_for_new_envs (content : Str) (package : Option Str) :
    List (Str × Option Str) :=
  (regex_match_all new_envs_regex 1 (content.length + 1) content).filterMap
    fun caps => ((g_match_info_fetch_all caps).get? 1).map fun name => (name, package)

/-- libc `atoi`: leading white space, an optional sign, then decimal digits. -/
def atoi (s : Str) : Int :=
  let digits (t : Str) : Int :=
    ((t.takeWhile isdigit).foldl (fun n c => 10 * n + (c.toNat - '0'.toNat)) 0 : Nat)
  match s.dropWhile isspace with
  | '-' :: t => - digits t
  | '+' :: t => digits t
  | t => digits t

/-- The arguments of one `gu_completion_add_command` call. -/
structure Command where
  name : Str
  arg_names : Option (List Str)
  n_arg : Int
  optional : Bool
  package : Option Str
deriving DecidableEq

/-- The body of the `while` loop of `scan_for_new_cmds` for one match. `none`
is the `continue` taken when `result[1]` is `NULL`, which skips
`g_match_info_next`. -/
def scan_for_new_cmds_body (caps : Caps) (package : Option Str) : Option Command :=
  let result := g_match_info_fetch_all caps
  match result.get? 1 with
  | none => none
  | some name =>
    let n_arg : Int := match result.get? 2 with
      | some r2 => atoi r2
      | none => 0
    let arg_names : Option (List Str) :=
      if n_arg != 0 then
        some ((List.range n_arg.toNat).map fun i => "arg".toList ++ (Nat.repr i).toList)
      else none
    some { name := name, arg_names := arg_names, n_arg := n_arg,
           optional := (result.get? 2).isSome && (result.get? 3).isSome,
           package := package }

/-- `scan_for_new_cmds`: the arguments of the successive
`gu_completion_add_command` calls; `none` when the loop does not end (a match
whose `result[1]` is `NULL` is never left). -/
def scan_for_new_cmds (content : Str) (package : Option Str) : Option (List Command) :=
  (regex_match_all new_cmds_regex 3 (content.length + 1) content).mapM
    fun caps => scan_for_new_cmds_body caps package

/-- Declarative meaning of the regular expressions: `Matches re inp caps rest
caps1` says that `re` can consume `inp` down to `rest`, turning the captures
`caps` into `caps1`. -/
inductive Regex.Matches : Regex → Str → Caps → Str → Caps → Prop
  | lit (s rest : Str) (caps : Caps) : Matches (.lit s) (s ++ rest) caps rest caps
  | chr (p : Char → Bool) (c : Char) (rest : Str) (caps : Caps) (h : p c = true) :
      Matches (.chr p) (c :: rest) caps rest caps
  | star (p : Char → Bool) (w rest : Str) (caps : Caps) (h : ∀ c ∈ w, p c = true) :
      Matches (.star p) (w ++ rest) caps rest caps
  | seq {a b : Regex} {inp mid rest : Str} {caps caps1 caps2 : Caps}
      (ha : Matches a inp caps mid caps1) (hb : Matches b mid caps1 rest caps2) :
      Matches (.seq a b) inp caps rest caps2
  | optSome {a : Regex} {inp rest : Str} {caps caps1 : Caps}
      (ha : Matches a inp caps rest caps1) : Matches (.opt a) inp caps rest caps1
  | optNone (a : Regex) (inp : Str) (caps : Caps) : Matches (.opt a) inp caps inp caps
  | group {a : Regex} {inp rest : Str} {caps caps1 : Caps} (n : Nat)
      (ha : Matches a inp caps rest caps1) :
      Matches (.group n a) inp caps rest
        (caps1.set n (some (inp.take (inp.length - rest.length))))

/-- The part `\s*(…*)\s*}` shared by the patterns, for a key class `is_key`;
the key is group 1. -/
def key_tail_regex (is_key : Char → Bool) : Regex :=
  .seq (.star is_space) (.seq (.group 1 (.star is_key))
    (.seq (.star is_space) (.lit ['}'])))

/-! ### What the scanners are to find -/

/-- The text behind an opening brace reads: white space, `key`, white space, a
closing brace, `rest`; the key is made of characters of the class `is_key`. -/
def IsBracedKey (is_key : Char → Bool) (inp key rest : Str) : Prop :=
  ∃ ws1 ws2 : Str, inp = ws1 ++ key ++ ws2 ++ '}' :: rest ∧
    (∀ c ∈ ws1, is_space c = true) ∧ (∀ c ∈ ws2, is_space c = true) ∧
    (∀ c ∈ key, is_key c = true)

/-- Executable form of `IsBracedKey`: the key and the text behind the closing
brace. -/
def braced_key (is_key : Char → Bool) (inp : Str) : Option (Str × Str) :=
  let s1 := inp.dropWhile is_space
  match (s1.dropWhile is_key).dropWhile is_space with
  | '}' :: rest => some (s1.takeWhile is_key, rest)
  | _ => none

/-- An occurrence of `cmd{ key }` at the head of `inp`: the key, without the
white space around it, and the text behind the occurrence. -/
def braced_occurrence_at (cmd : Str) (inp : Str) : Option (Str × Str) :=
  if matches_at (cmd ++ ['{']) false inp then
    braced_key is_key_char (inp.drop (cmd.length + 1))
  else none

/-- An occurrence of `\newenvironment{ name }` or `\newenvironment*{ name }` at
the head of `inp`. -/
def new_env_occurrence_at (inp : Str) : Option (Str × Str) :=
  if matches_at "\\newenvironment".toList false inp then
    match inp.drop "\\newenvironment".toList.length with
    | '*' :: '{' :: s => braced_key is_key_char s
    | '{' :: s => braced_key is_key_char s
    | _ => none
  else none

/-- The occurrences in a text, in document order and without overlap: `occ`
recognises an occurrence at the head of its argument and returns what it
denotes together with the text behind it; `skip` counts the characters still
covered by the occurrence found last, at which no new one may start. -/
def scan_occurrences {α : Type} (occ : Str → Option (α × Str)) : Nat → Str → List α
  | _, [] => []
  | skip + 1, _ :: cs => scan_occurrences occ skip cs
  | 0, c :: cs =>
    match occ (c :: cs) with
    | some (a, rest) =>
      a :: scan_occurrences occ ((c :: cs).length - rest.length - 1) cs
    | none => scan_occurrences occ 0 cs

/-- The captures and the rest of the input for a match of a pattern with the
single group `key`: group 0 is the text consumed. -/
def key_caps (inp : Str) (kr : Str × Str) : Caps × Str :=
  ([some (inp.take (inp.length - kr.2.length)), some kr.1], kr.2)

/-- The scans that `iofunctions_real_load_file` and `iofunctions_real_save_file`
run on the text of the document: labels, bibliography items, environments and
commands, the last two with package `NULL`. -/
def document_scans (text : Str) :
    List Str × List Str × List (Str × Option Str) × Option (List Command) :=
  (scan_for_labels text, scan_for_bibitems text, scan_for_new_envs text none,
   scan_for_new_cmds text none)

/-! ### Text styles (editor.c) -/

/-- The table `style`: tool name, opening string, closing string. -/
def style : List (Str × Str × Str) :=
  [("tool_bold".toList, "\\textbf\x7b".toList, "\x7d".toList),
   ("tool_italic".toList, "\\emph\x7b".toList, "\x7d".toList),
   ("tool_unline".toList, "\\underline\x7b".toList, "\x7d".toList),
   ("tool_left".toList, "\\begin\x7bflushleft\x7d".toList, "\\end\x7bflushleft\x7d".toList),
   ("tool_center".toList, "\\begin\x7bcenter\x7d".toList, "\\end\x7bcenter\x7d".toList),
   ("tool_right".toList, "\\begin\x7bflushright\x7d".toList, "\\end\x7bflushright\x7d".toList)]

/-- The `select style` loop of `editor_set_selection_textstyle`: the opening
and closing strings of the first entry named `type`, those of entry 0 when
there is none. -/
def select_style (type : Str) : Str × Str :=
  match style.find? (fun e => e.1 == type) with
  | some e => e.2
  | none => ("\\textbf\x7b".toList, "\x7d".toList)

/-- The pattern `(.*)OPEN(.*)CLOSE(.*)` that `editor_set_selection_textstyle`
builds, compiled with `G_REGEX_DOTALL`; the backslash that starts an opening or
closing string is escaped there, and no other character of the table has a
special meaning, so both strings are matched literally. -/
def style_regex (opening closing : Str) : Regex :=
  Regex.seqs [.group 1 (.star is_any), .lit opening, .group 2 (.star is_any),
    .lit closing, .group 3 (.star is_any)]

/-- C `strlen` of the UTF-8 encoding of a text: its number of bytes. -/
def strlen (s : Str) : Nat := (s.map Char.utf8Size).sum

/-- The text `outtext` that `editor_set_selection_textstyle` puts in place of
the selected text. -/
def textstyle_outtext (opening closing selected_text : Str) : Str :=
  match regex_search (style_regex opening closing) 3 selected_text with
  | some (caps, _) =>
    let result := g_match_info_fetch_all caps
    let r1 := (result.get? 1).getD []
    let r2 := (result.get? 2).getD []
    let r3 := (result.get? 3).getD []
    if strlen r1 == 0 && strlen r3 == 0 then r2
    else opening ++ r1 ++ r2 ++ r3 ++ closing
  | none => opening ++ selected_text ++ closing

/-- `editor_set_selection_textstyle`: the selected text is replaced by
`outtext`; the iterator `start`, left behind the inserted text, becomes `end`
and is moved back by `strlen (outtext)` characters (stopping at the start of
the buffer) to give the new selection. -/
def editor_set_selection_textstyle (ec : GuEditor) (type : Str) : GuEditor :=
  let start := min ec.insert ec.selection_bound
  let end_ := max ec.insert ec.selection_bound
  let selected_text := buffer_slice ec.text start end_
  let (opening, closing) := select_style type
  let outtext := textstyle_outtext opening closing selected_text
  let ec1 := gtk_text_buffer_delete ec start end_
  let (ec2, start) := gtk_text_buffer_insert ec1 start outtext
  let end_ := start
  let start := start - strlen outtext
  { ec2 with insert := start, selection_bound := end_ }

/-- The selected text of the buffer. -/
def selected_text (ec : GuEditor) : Str :=
  buffer_slice ec.text (min ec.insert ec.selection_bound)
    (max ec.insert ec.selection_bound)

/-- A property of every pair of the style table: the first character of the
opening string occurs nowhere else in it, the first character of the closing
string does not occur behind the first character of the opening string, and
the closing string is the shorter one. -/
def well_separated (opening closing : Str) : Bool :=
  match opening, closing with
  | h :: tl, c0 :: cl =>
    !tl.contains h && !tl.contains c0 && decide (cl.length < tl.length)
  | _, _ => false

/-! ### Style colours (editor.c) -/

/-- GDK `GdkRGBA`: the four channels, taken as exact rationals. -/
structure GdkRGBA where
  red : ℚ
  green : ℚ
  blue : ℚ
  alpha : ℚ
deriving DecidableEq

/-- The colour `gdk_rgba_parse` gives for the name `black`. -/
def black : GdkRGBA := { red := 0, green := 0, blue := 0, alpha := 1 }

/-- The colour `gdk_rgba_parse` gives for the name `white`. -/
def white : GdkRGBA := { red := 1, green := 1, blue := 1, alpha := 1 }

/-- `gdk_rgba_luminance`. -/
def gdk_rgba_luminance (c : GdkRGBA) : ℚ :=
  2126 / 10000 * c.red + 7152 / 10000 * c.green + 722 / 10000 * c.blue

/-- The two GDK functions on colour strings used by `set_style_fg_bg`:
`gdk_rgba_parse` (which fails on a string that is no colour) and
`gdk_rgba_to_string`. -/
structure Gdk where
  gdk_rgba_parse : Str → Option GdkRGBA
  gdk_rgba_to_string : GdkRGBA → Str

/-- The four properties of a `GtkSourceStyle` read by `set_style_fg_bg`. -/
structure GtkSourceStyle where
  foreground_set : Bool
  foreground : Option Str
  background_set : Bool
  background : Option Str

/-- A style scheme, seen through `gtk_source_style_scheme_get_style`. -/
abbrev GtkSourceStyleScheme := Str → Option GtkSourceStyle

/-- A value handed to `g_object_set` after a property name: a string or a
pointer to a `GdkRGBA`. -/
inductive GValue where
  | string (s : Str)
  | rgba (c : GdkRGBA)
deriving DecidableEq

/-- The macro `ABS` of GLib. -/
def ABS (x : ℚ) : ℚ := if x < 0 then -x else x

/-- The colour of black and white chosen against a background: black on a
background of luminance above one half, white otherwise. -/
def contrast_color (background : GdkRGBA) : GdkRGBA :=
  if gdk_rgba_luminance background > 1 / 2 then black else white

/-- The label `set_style_fg_bg_return_defaults` of `set_style_fg_bg`: the pairs
of property name and value handed to `g_object_set`.  `none` stands for the
read of a colour that was never written, when `defaultBG` does not parse. -/
def set_style_fg_bg_return_defaults (gdk : Gdk) (defaultBG : Str) :
    Option (List (Str × GValue)) :=
  match gdk.gdk_rgba_parse defaultBG with
  | none => none
  | some background =>
    let foreground := contrast_color background
    some [("foreground-gdk".toList, .rgba foreground),
          ("background-gdk".toList, .rgba background)]

/-- `set_style_fg_bg`: the pairs of property name and value handed to
`g_object_set` for the object.  `none` stands for the read of a colour that was
never written, when `defaultBG` does not parse. -/
def set_style_fg_bg (gdk : Gdk) (scheme : Option GtkSourceStyleScheme)
    (styleName defaultBG : Str) : Option (List (Str × GValue)) :=
  match scheme with
  | none => set_style_fg_bg_return_defaults gdk defaultBG
  | some scheme =>
    match scheme styleName with
    | none => set_style_fg_bg_return_defaults gdk defaultBG
    | some style =>
      let foreground : Option GdkRGBA :=
        if style.foreground_set then style.foreground.bind gdk.gdk_rgba_parse else none
      let background : Option GdkRGBA :=
        if style.background_set then style.background.bind gdk.gdk_rgba_parse else none
      match background, foreground with
      | some background, some foreground =>
        some [("foreground".toList, .string (gdk.gdk_rgba_to_string foreground)),
              ("background".toList, .string (gdk.gdk_rgba_to_string background))]
      | none, some foreground =>
        match gdk.gdk_rgba_parse defaultBG with
        | none => none
        | some background =>
          let diff := ABS (gdk_rgba_luminance foreground - gdk_rgba_luminance background)
          let foreground := if diff < 1 / 2 then contrast_color background else foreground
          some [("foreground".toList, .string (gdk.gdk_rgba_to_string foreground)),
                ("background".toList, .string (gdk.gdk_rgba_to_string background))]
      | some background, none =>
        let foreground := contrast_color background
        some [("foreground".toList, .string (gdk.gdk_rgba_to_string foreground)),
              ("background".toList, .string (gdk.gdk_rgba_to_string background))]
      | none, none => set_style_fg_bg_return_defaults gdk defaultBG

/-- The colours of a `GtkTextTag`. -/
structure TagColors where
  foreground : Option GdkRGBA
  background : Option GdkRGBA
deriving DecidableEq

/-- One property assignment of `g_object_set` on a `GtkTextTag`.  The
properties `foreground` and `background` take a colour string, which the tag
parses; `foreground-rgba` and `background-rgba` take a `GdkRGBA`;
`foreground-gdk` and `background-gdk` take a `GdkColor`, a structure of a pixel
value and three 16-bit channels.  `none` stands for a value that does not have
the type of the property: the tag then reads the memory behind the pointer as
what it is not. -/
def gtk_text_tag_set_property (gdk : Gdk) (tag : TagColors) :
    Str × GValue → Option TagColors
  | (name, .string s) =>
    if name = "foreground".toList then
      some { tag with foreground := (gdk.gdk_rgba_parse s).orElse fun _ => tag.foreground }
    else if name = "background".toList then
      some { tag with background := (gdk.gdk_rgba_parse s).orElse fun _ => tag.background }
    else none
  | (name, .rgba c) =>
    if name = "foreground-rgba".toList then some { tag with foreground := some c }
    else if name = "background-rgba".toList then some { tag with background := some c }
    else none

/-- `g_object_set` on a `GtkTextTag`: the assignments in order. -/
def g_object_set (gdk : Gdk) (tag : TagColors) : List (Str × GValue) → Option TagColors
  | [] => some tag
  | p :: ps =>
    match gtk_text_tag_set_property gdk tag p with
    | some tag1 => g_object_set gdk tag1 ps
    | none => none

/-- A colour source for examples: it knows the names `yellow` and `orange`, and
prints black, white and, for every other colour, yellow. -/
def test_gdk : Gdk :=
  { gdk_rgba_parse := fun s =>
      if s = "yellow".toList then some { red := 1, green := 1, blue := 0, alpha := 1 }
      else if s = "orange".toList then some { red := 1, green := 1 / 2, blue := 0, alpha := 1 }
      else none
    gdk_rgba_to_string := fun c =>
      if c = black then "rgb(0,0,0)".toList
      else if c = white then "rgb(255,255,255)".toList
      else "rgb(255,255,0)".toList }

/-! ### Font description to CSS (utils.c) -/

/-- Pango `PangoStyle`. -/
inductive PangoStyle where
  | NORMAL | OBLIQUE | ITALIC
deriving DecidableEq

/-- Pango `PangoVariant` (Pango 1.50); the source has cases for the first two
values only. -/
inductive PangoVariant where
  | NORMAL | SMALL_CAPS | ALL_SMALL_CAPS | PETITE_CAPS | ALL_PETITE_CAPS | UNICASE
  | TITLE_CAPS
deriving DecidableEq

/-- Pango `PangoStretch`. -/
inductive PangoStretch where
  | ULTRA_CONDENSED | EXTRA_CONDENSED | CONDENSED | SEMI_CONDENSED | NORMAL
  | SEMI_EXPANDED | EXPANDED | EXTRA_EXPANDED | ULTRA_EXPANDED
deriving DecidableEq

/-- Pango `PANGO_SCALE`. -/
def PANGO_SCALE : Int := 1024

/-- A `PangoFontDescription`: the bits of `pango_font_description_get_set_fields`
tested by the source and the values of the fields. -/
structure PangoFontDescription where
  mask_family : Bool
  mask_style : Bool
  mask_variant : Bool
  mask_weight : Bool
  mask_stretch : Bool
  mask_size : Bool
  family : Str
  style : PangoStyle
  variant : PangoVariant
  weight : Int
  stretch : PangoStretch
  size : Int
  size_is_absolute : Bool

/-- `printf ("%d", n)`. -/
def fmt_d (n : Int) : Str := (toString n).toList

/-- `css_add`: `g_strconcat (base, property, ": ", value, "; ", NULL)`; the
argument list of `g_strconcat` ends at the first `NULL`, so a `NULL` value cuts
the result behind the colon. -/
def css_add (base property : Str) (value : Option Str) : Str :=
  match value with
  | some value => base ++ property ++ ": ".toList ++ value ++ "; ".toList
  | none => base ++ property ++ ": ".toList

/-- `utils_pango_font_desc_to_css`; the variable `val` keeps its value from one
`switch` to the next, and a `switch` without a case for the value leaves it as
it is (`NULL` at the start). -/
def utils_pango_font_desc_to_css (font_desc : PangoFontDescription) : Str :=
  let val : Option Str := none
  let result := "* \x7b ".toList
  let result :=
    if font_desc.mask_family then css_add result "font-family".toList (some font_desc.family)
    else result
  let (result, val) :=
    if font_desc.mask_style then
      let val := match font_desc.style with
        | .NORMAL => some "normal".toList
        | .OBLIQUE => some "oblique".toList
        | .ITALIC => some "italic".toList
      (css_add result "font-style".toList val, val)
    else (result, val)
  let (result, val) :=
    if font_desc.mask_variant then
      let val := match font_desc.variant with
        | .NORMAL => some "normal".toList
        | .SMALL_CAPS => some "small-caps".toList
        | _ => val
      (css_add result "font-variant".toList val, val)
    else (result, val)
  let result :=
    if font_desc.mask_weight then
      css_add result "font-weight".toList (some (fmt_d font_desc.weight))
    else result
  let (result, _) :=
    if font_desc.mask_stretch then
      let val := match font_desc.stretch with
        | .ULTRA_CONDENSED => some "ultra-condensed".toList
        | .EXTRA_CONDENSED => some "extra-condensed".toList
        | .CONDENSED => some "condensed".toList
        | .SEMI_CONDENSED => some "semi-condensed".toList
        | .NORMAL => some "normal".toList
        | .SEMI_EXPANDED => some "semi-expanded".toList
        | .EXPANDED => some "expanded".toList
        | .EXTRA_EXPANDED => some "extra-expanded".toList
        | .ULTRA_EXPANDED => some "ultra-expanded".toList
      (css_add result "font-stretch".toList val, val)
    else (result, val)
  let result :=
    if font_desc.mask_size then
      let size := font_desc.size
      let size := if !font_desc.size_is_absolute then Int.tdiv size PANGO_SCALE else size
      css_add result "font-size".toList (some (fmt_d size ++ "px".toList))
    else result
  result ++ "\x7d".toList

/-- The value printed for a style. -/
def css_style_value : PangoStyle → Str
  | .NORMAL => "normal".toList
  | .OBLIQUE => "oblique".toList
  | .ITALIC => "italic".toList

/-- The CSS value of a variant; the source prints it for the first two. -/
def css_variant_value : PangoVariant → Str
  | .NORMAL => "normal".toList
  | .SMALL_CAPS => "small-caps".toList
  | .ALL_SMALL_CAPS => "all-small-caps".toList
  | .PETITE_CAPS => "petite-caps".toList
  | .ALL_PETITE_CAPS => "all-petite-caps".toList
  | .UNICASE => "unicase".toList
  | .TITLE_CAPS => "titling-caps".toList

/-- The value printed for a stretch. -/
def css_stretch_value : PangoStretch → Str
  | .ULTRA_CONDENSED => "ultra-condensed".toList
  | .EXTRA_CONDENSED => "extra-condensed".toList
  | .CONDENSED => "condensed".toList
  | .SEMI_CONDENSED => "semi-condensed".toList
  | .NORMAL => "normal".toList
  | .SEMI_EXPANDED => "semi-expanded".toList
  | .EXPANDED => "expanded".toList
  | .EXTRA_EXPANDED => "extra-expanded".toList
  | .ULTRA_EXPANDED => "ultra-expanded".toList

/-- The six properties in their fixed order, each with the bit of the mask that
asks for it and the value printed for it. -/
def css_fields (fd : PangoFontDescription) : List (Bool × Str × Str) :=
  [(fd.mask_family, "font-family".toList, fd.family),
   (fd.mask_style, "font-style".toList, css_style_value fd.style),
   (fd.mask_variant, "font-variant".toList, css_variant_value fd.variant),
   (fd.mask_weight, "font-weight".toList, fmt_d fd.weight),
   (fd.mask_stretch, "font-stretch".toList, css_stretch_value fd.stretch),
   (fd.mask_size, "font-size".toList,
     fmt_d (if fd.size_is_absolute then fd.size else Int.tdiv fd.size PANGO_SCALE)
       ++ "px".toList)]

/-- The selector, one `property: value; ` pair for each field whose bit is set,
in the order of `css_fields`, and the closing brace. -/
def css_of_fields (fields : List (Bool × Str × Str)) : Str :=
  "* \x7b ".toList
    ++ ((fields.filter fun f => f.1).map fun f =>
          f.2.1 ++ ": ".toList ++ f.2.2 ++ "; ".toList).flatten
    ++ "\x7d".toList

/-! ### Bibliography file, swap file, relative paths (editor.c, iofunctions.c, utils.c) -/

/-- `utils_path_exists`: `FALSE` for `NULL`, otherwise what
`g_file_query_exists` answers, given here by `fs`. -/
def utils_path_exists (fs : Str → Bool) (path : Option Str) : Bool :=
  match path with
  | none => false
  | some p => fs p

/-- `editor_fileinfo_update_biblio`: the editor and the return value. -/
def editor_fileinfo_update_biblio (fs : Str → Bool) (ec : GuEditor) (filename : Str) :
    GuEditor × Bool :=
  let bibfile : Str :=
    match ec.filename with
    | some ec_filename =>
      if !g_path_is_absolute filename then
        let dirname := g_path_get_dirname ec_filename
        g_build_filename [dirname, filename]
      else filename
    | none => filename
  ({ ec with bibfile := some bibfile }, utils_path_exists fs (some bibfile))

/-- `iofunctions_get_swapfile`. -/
def iofunctions_get_swapfile (filename : Str) : Str :=
  let basename := g_path_get_basename filename
  let dirname := g_path_get_dirname filename
  dirname ++ [G_DIR_SEPARATOR] ++ ['.'] ++ basename ++ ".swp".toList

/-- `iofunctions_has_swapfile`. -/
def iofunctions_has_swapfile (fs : Str → Bool) (filename : Option Str) : Bool :=
  match filename with
  | none => false
  | some filename =>
    let swapfile := iofunctions_get_swapfile filename
    if utils_path_exists fs (some swapfile) then true else false

/-- `utils_path_to_relative`, for C strings over any type of characters (bytes
in C).  `strncmp (target, root, strlen (root)) == 0` holds when `root` is a
prefix of `target`; the result is the string at `target + strlen (root) + 1`.
`none` stands for a pointer behind the terminating NUL of `target`, the case
`strlen (target) < strlen (root) + 1`. -/
def utils_path_to_relative {α : Type} [DecidableEq α] (root : Option (List α))
    (target : List α) : Option (List α) :=
  match root with
  | some r =>
    if r.isPrefixOf target then
      if r.length + 1 ≤ target.length then some (target.drop (r.length + 1)) else none
    else some target
  | none => some target

/-! ### Reading the output of a command (utils.c) -/

/-- The C string that starts at the head of a byte buffer: the bytes before the
first NUL. -/
def c_string (buf : List Nat) : List Nat := buf.takeWhile (· != 0)

/-- One turn of the `while` loop of `utils_popen_r`, for a chunk of `len` bytes
delivered by `read` into `buf`: the buffer and `ret` afterwards. -/
def utils_popen_r_step (BUFSIZ : Nat) (st : List Nat × Option (List Nat))
    (chunk : List Nat) : List Nat × Option (List Nat) :=
  let (buf, ret) := st
  let len := chunk.length
  let buf := chunk ++ buf.drop len
  let buf := buf.set (len - (if len = BUFSIZ then 1 else 0)) 0
  let ret := match ret with
    | some rot => some (rot ++ c_string buf)
    | none => some (c_string buf)
  (buf, ret)

/-- The `while` loop of `utils_popen_r`: the text `ret` accumulated from the
chunks that the successive `read` calls deliver, starting from the buffer
content `buf0`. -/
def utils_popen_r_accumulate (BUFSIZ : Nat) (buf0 : List Nat) (chunks : List (List Nat)) :
    Option (List Nat) :=
  (chunks.foldl (utils_popen_r_step BUFSIZ) (buf0, none)).2

/-! ### Saving a file (iofunctions.c) -/

/-- The states of the pointer `err` of `iofunctions_real_save_file`: `NULL`, a
live `GError` with its message, a `GError` that was freed. -/
inductive GErrorPtr where
  | null
  | live (message : Str)
  | freed
deriving DecidableEq

/-- Faults of a read through a pointer. -/
inductive Fault where
  | null_dereference
  | use_after_free
deriving DecidableEq

/-- The read of `err->message`. -/
def error_message (err : GErrorPtr) : Except Fault Str :=
  match err with
  | .null => .error .null_dereference
  | .live message => .ok message
  | .freed => .error .use_after_free

/-- `iofunctions_real_save_file` up to the scans of the text: `set_contents` is
the outcome of `g_file_set_contents`, `none` for success and the message of the
error it sets otherwise.  The result is the list of messages passed to `slog`,
or the fault of a read of `err->message`. -/
def iofunctions_real_save_file (filename : Option Str) (set_contents : Option Str) :
    Except Fault (List Str) :=
  let err : GErrorPtr := .null
  let result := false
  let step1 : Except Fault (Bool × GErrorPtr × List Str) :=
    match filename with
    | some _ =>
      match set_contents with
      | none => .ok (true, err, [])
      | some message =>
        let err := GErrorPtr.live message
        match error_message err with
        | .ok m =>
          .ok (false, GErrorPtr.freed, ["g_file_set_contents (): ".toList ++ m ++ ['\n']])
        | .error f => .error f
    | none => .ok (result, err, [])
  match step1 with
  | .error f => .error f
  | .ok (result, err, log) =>
    if result == false then
      match error_message err with
      | .ok m => .ok (log ++ [m ++ "\nPlease try again later.".toList])
      | .error f => .error f
    else .ok log


/-! ### Searching for the next occurrence (editor.c) -/

/-- GTK `gtk_text_iter_backward_search` without limit on a plain-text buffer: the
bounds of the last occurrence of `str` that ends at or before `start`.  For the
empty string GTK answers the empty range one character back, provided `start`
is not the start of the buffer. -/
def gtk_text_iter_backward_search (text : Str) (start : Nat) (str : Str)
    (case_insensitive : Bool) : Option (Nat × Nat) :=
  if str.isEmpty then
    if 0 < start then some (start - 1, start - 1) else none
  else if str.length ≤ start then
    ((List.range (start - str.length + 1)).reverse.find?
        fun i => matches_at str case_insensitive (text.drop i)).map
      fun i => (i, i + str.length)
  else none

/-- GTK `gtk_text_iter_forward_chars`: the offset `count` characters further,
at most the end of the buffer. -/
def gtk_text_iter_forward_chars (text : Str) (pos count : Nat) : Nat :=
  min (pos + count) text.length

/-- The `do … while` loop of `editor_search_next`: `current` is the search
position, `backward` the value of `ec->backwards ^ inverse`.  The result is the
value of `ret` with the bounds `mstart`, `mend`; `none` means the iteration
budget `fuel` ran out. -/
def editor_search_next_loop (text term : Str) (backward wholeword matchcase : Bool) :
    Nat → Nat → Option (Option (Nat × Nat))
  | 0, _ => none
  | fuel + 1, current =>
    let ret :=
      if backward then
        gtk_text_iter_backward_search text current term (!matchcase)
      else
        let current := gtk_text_iter_forward_chars text current (strlen term)
        gtk_text_iter_forward_search text current term (!matchcase)
    match ret with
    | none => some none
    | some (mstart, mend) =>
      if wholeword && (!gtk_text_iter_starts_word text mstart
          || !gtk_text_iter_ends_word text mend) then
        editor_search_next_loop text term backward wholeword matchcase fuel mend
      else some (some (mstart, mend))

/-- `editor_search_next`.  `responses` holds the answers to the dialogs
"Bottom reached, search from top?" and "Top reached, search from bottom?" in
the order in which they are asked, `true` for `GTK_RESPONSE_YES`.  The loop gets
one iteration per character of the buffer and two more; `none` means that this
budget ran out or that a dialog was left without answer. -/
def editor_search_next (inverse : Bool) : GuEditor → List Bool → Option GuEditor
  | ec, responses =>
    let term := ec.term.getD []
    let backward := xor ec.backwards inverse
    match editor_search_next_loop ec.text term backward ec.wholeword ec.matchcase
        (ec.text.length + 2) ec.insert with
    | none => none
    | some (some (mstart, mend)) =>
      some { ec with insert := mstart, selection_bound := mend }
    | some none =>
      match responses with
      | [] => none
      | false :: _ => some ec
      | true :: responses =>
        if backward then
          editor_search_next inverse
            { ec with insert := ec.text.length, selection_bound := ec.text.length }
            responses
        else
          editor_search_next inverse { ec with insert := 0, selection_bound := 0 }
            responses

/-! ### Replacing the next occurrence (editor.c) -/

/-- Specification of "the next occurrence from the cursor in the given
direction": `term` occurs at offset `i`; forwards the occurrence starts at or
after `cursor` and none starts between `cursor` and `i`; backwards it ends at
or before `cursor` and none that ends at or before `cursor` starts after `i`.
Characters are compared without case when `case_insensitive` is set. -/
def next_occurrence (text term : Str) (case_insensitive backwards : Bool)
    (cursor i : Nat) : Prop :=
  matches_at term case_insensitive (text.drop i) = true ∧
  if backwards then
    i + term.length ≤ cursor ∧
      ∀ j, j < cursor → i < j → j + term.length ≤ cursor →
        matches_at term case_insensitive (text.drop j) = false
  else
    cursor ≤ i ∧
      ∀ j, j < i → cursor ≤ j → matches_at term case_insensitive (text.drop j) = false

instance next_occurrence_decidable (text term : Str) (case_insensitive backwards : Bool)
    (cursor i : Nat) :
    Decidable (next_occurrence text term case_insensitive backwards cursor i) := by
  unfold next_occurrence
  infer_instance
/-! ## Theorems -/

/-! ### File identity -/

theorem strip_trailing_seps_getLast (s : Str) :
    (strip_trailing_seps s).getLast? ≠ some G_DIR_SEPARATOR := by
  unfold strip_trailing_seps
  rw [List.getLast?_reverse]
  intro h
  have := List.head?_dropWhile_not (· == G_DIR_SEPARATOR) s.reverse
  rw [h] at this
  simp at this

theorem strip_trailing_seps_id {s : Str} (h : s.getLast? ≠ some G_DIR_SEPARATOR) :
    strip_trailing_seps s = s := by
  unfold strip_trailing_seps
  rw [← List.head?_reverse] at h
  rcases hr : s.reverse with _ | ⟨x, xs⟩
  · simp at hr; simp [hr]
  · rw [hr] at h
    have hx : x ≠ G_DIR_SEPARATOR := by simpa using h
    have : s = (x :: xs).reverse := by rw [← hr, List.reverse_reverse]
    rw [List.dropWhile_cons_of_neg (by simpa using hx), this]

theorem dropWhile_ne_sep_of_not_mem {B : Str} (hB : G_DIR_SEPARATOR ∉ B) (l : Str) :
    (B.reverse ++ G_DIR_SEPARATOR :: l).dropWhile (· != G_DIR_SEPARATOR)
      = G_DIR_SEPARATOR :: l := by
  have h : ∀ x ∈ B.reverse, (x != G_DIR_SEPARATOR) = true := by
    intro x hx
    have : x ≠ G_DIR_SEPARATOR := fun e => hB (e ▸ List.mem_reverse.mp hx)
    simpa using this
  rw [List.dropWhile_append_of_pos h]
  simp

theorem any_sep_append_cons (D B : Str) :
    (D ++ G_DIR_SEPARATOR :: B).any (· == G_DIR_SEPARATOR) = true := by
  simp

theorem g_path_get_dirname_join {D B : Str} (hne : D ≠ [])
    (hD : D.getLast? ≠ some G_DIR_SEPARATOR) (hB : G_DIR_SEPARATOR ∉ B) :
    g_path_get_dirname (D ++ G_DIR_SEPARATOR :: B) = D := by
  unfold g_path_get_dirname
  rw [if_pos (any_sep_append_cons D B)]
  have hrev : (D ++ G_DIR_SEPARATOR :: B).reverse
      = B.reverse ++ G_DIR_SEPARATOR :: D.reverse := by simp
  simp only [hrev, dropWhile_ne_sep_of_not_mem hB]
  have h1 : (G_DIR_SEPARATOR :: D.reverse).reverse = D ++ [G_DIR_SEPARATOR] := by simp
  have h2 : strip_trailing_seps (D ++ [G_DIR_SEPARATOR]) = D := by
    have h3 : strip_trailing_seps (D ++ [G_DIR_SEPARATOR]) = strip_trailing_seps D := by
      unfold strip_trailing_seps
      simp
    rw [h3, strip_trailing_seps_id hD]
  rw [h1, h2]
  cases D with
  | nil => exact absurd rfl hne
  | cons x xs => simp

theorem g_path_get_dirname_root_join {B : Str} (hB : G_DIR_SEPARATOR ∉ B) :
    g_path_get_dirname (G_DIR_SEPARATOR :: G_DIR_SEPARATOR :: B) = [G_DIR_SEPARATOR] := by
  unfold g_path_get_dirname
  have hrev : (G_DIR_SEPARATOR :: G_DIR_SEPARATOR :: B).reverse
      = B.reverse ++ G_DIR_SEPARATOR :: [G_DIR_SEPARATOR] := by simp
  simp only [hrev, dropWhile_ne_sep_of_not_mem hB]
  simp [strip_trailing_seps]

theorem g_path_get_basename_join (D : Str) {B : Str} (hne : B ≠ [])
    (hB : G_DIR_SEPARATOR ∉ B) :
    g_path_get_basename (D ++ G_DIR_SEPARATOR :: B) = B := by
  unfold g_path_get_basename
  have hall : ∀ x ∈ B.reverse, (x != G_DIR_SEPARATOR) = true := by
    intro x hx
    have : x ≠ G_DIR_SEPARATOR := fun e => hB (e ▸ List.mem_reverse.mp hx)
    simpa using this
  have hrev : (D ++ G_DIR_SEPARATOR :: B).reverse
      = B.reverse ++ G_DIR_SEPARATOR :: D.reverse := by simp
  have hstrip : strip_trailing_seps (D ++ G_DIR_SEPARATOR :: B)
      = D ++ G_DIR_SEPARATOR :: B := by
    unfold strip_trailing_seps
    rcases hr : B.reverse with _ | ⟨b, bs⟩
    · simp at hr; exact absurd hr hne
    · have hb : (b == G_DIR_SEPARATOR) = false := by
        have := hall b (by rw [hr]; simp)
        simpa using this
      rw [hrev, hr, List.cons_append, List.dropWhile_cons_of_neg (by simp [hb]),
        ← List.cons_append, ← hr, ← hrev, List.reverse_reverse]
  simp only [hstrip, hrev]
  rw [List.takeWhile_append_of_pos hall]
  simp

theorem g_path_get_basename_shape (x : Str) :
    g_path_get_basename x = [G_DIR_SEPARATOR] ∨
      (g_path_get_basename x ≠ [] ∧ G_DIR_SEPARATOR ∉ g_path_get_basename x) := by
  unfold g_path_get_basename
  by_cases hx : x.isEmpty = true
  · right; simp [hx, G_DIR_SEPARATOR]
  · rw [if_neg hx]
    by_cases ht : (strip_trailing_seps x).isEmpty = true
    · left; simp [ht]
    · right
      simp only [ht]
      have hlast := strip_trailing_seps_getLast x
      rw [← List.head?_reverse] at hlast
      rcases hr : (strip_trailing_seps x).reverse with _ | ⟨b, bs⟩
      · simp at hr; simp [hr] at ht
      · rw [hr] at hlast
        have hb : b ≠ G_DIR_SEPARATOR := by simpa using hlast
        constructor
        · simp [List.takeWhile_cons, hb]
        · intro hmem
          have := List.mem_takeWhile_imp (List.mem_reverse.mp hmem)
          simp at this

theorem g_path_get_dirname_shape (x : Str) :
    g_path_get_dirname x = [G_DIR_SEPARATOR] ∨
      (g_path_get_dirname x ≠ [] ∧
        (g_path_get_dirname x).getLast? ≠ some G_DIR_SEPARATOR) := by
  unfold g_path_get_dirname
  split
  · simp only []
    split
    · left; rfl
    · rename_i hq
      right
      exact ⟨by simpa using hq, strip_trailing_seps_getLast _⟩
  · right; simp [G_DIR_SEPARATOR]

theorem g_path_get_dirname_child {d n : Str}
    (hd : d = [G_DIR_SEPARATOR] ∨ (d ≠ [] ∧ d.getLast? ≠ some G_DIR_SEPARATOR))
    (hn : G_DIR_SEPARATOR ∉ n) :
    g_path_get_dirname (d ++ G_DIR_SEPARATOR :: n) = d := by
  rcases hd with rfl | ⟨h1, h2⟩
  · exact g_path_get_dirname_root_join hn
  · exact g_path_get_dirname_join h1 h2 hn

theorem getLast?_ne_sep_of_not_mem {b : Str} (hsep : G_DIR_SEPARATOR ∉ b) :
    b.getLast? ≠ some G_DIR_SEPARATOR := by
  intro h
  exact hsep (List.mem_of_getLast?_eq_some h)

theorem dropWhile_sep_getLast {C : Str} (hC : C ≠ [])
    (hlast : C.getLast? ≠ some G_DIR_SEPARATOR) :
    C.dropWhile (· == G_DIR_SEPARATOR) ≠ [] ∧
      (C.dropWhile (· == G_DIR_SEPARATOR)).getLast? ≠ some G_DIR_SEPARATOR := by
  have hsplit := List.takeWhile_append_dropWhile (· == G_DIR_SEPARATOR) C
  have hne : C.dropWhile (· == G_DIR_SEPARATOR) ≠ [] := by
    intro hnil
    rw [hnil, List.append_nil] at hsplit
    obtain ⟨y, hy⟩ : ∃ y, C.getLast? = some y := by
      cases h : C.getLast? with
      | none => exact absurd (List.getLast?_eq_none_iff.mp h) hC
      | some y => exact ⟨y, rfl⟩
    have hmem : y ∈ C.takeWhile (· == G_DIR_SEPARATOR) := by
      rw [hsplit]; exact List.mem_of_getLast?_eq_some hy
    have := List.mem_takeWhile_imp hmem
    simp at this
    exact hlast (by rw [hy, this])
  refine ⟨hne, ?_⟩
  have : C.getLast? = (C.dropWhile (· == G_DIR_SEPARATOR)).getLast? := by
    conv_lhs => rw [← hsplit]
    rw [List.getLast?_append_of_ne_nil _ hne]
  rw [← this]; exact hlast

theorem g_build_filename_pair {C b : Str} (hC : C ≠ [])
    (hlast : C.getLast? ≠ some G_DIR_SEPARATOR) (hb : b ≠ [])
    (hsep : G_DIR_SEPARATOR ∉ b) :
    g_build_filename [C, b] = C ++ G_DIR_SEPARATOR :: b := by
  obtain ⟨hd1, hd2⟩ := dropWhile_sep_getLast hC hlast
  have hmidC : strip_trailing_seps (C.dropWhile (· == G_DIR_SEPARATOR))
      = C.dropWhile (· == G_DIR_SEPARATOR) := strip_trailing_seps_id hd2
  have hbdrop : b.dropWhile (· == G_DIR_SEPARATOR) = b := by
    cases b with
    | nil => rfl
    | cons x xs =>
      have : x ≠ G_DIR_SEPARATOR := fun e => hsep (e ▸ List.mem_cons_self _ _)
      simp [List.dropWhile_cons, this]
  have hbstrip : strip_trailing_seps b = b :=
    strip_trailing_seps_id (getLast?_ne_sep_of_not_mem hsep)
  have hCe : C.isEmpty = false := by cases C <;> simp_all
  have hbe : b.isEmpty = false := by cases b <;> simp_all
  have hde : (C.dropWhile (· == G_DIR_SEPARATOR)).isEmpty = false := by
    cases h : C.dropWhile (· == G_DIR_SEPARATOR) <;> simp_all
  simp only [g_build_filename, List.foldl_cons, List.foldl_nil, g_build_path_step,
    hCe, hbe, hmidC, hbdrop, hbstrip, hde, strip_trailing_seps_id hlast]
  simp [List.takeWhile_append_dropWhile]

theorem editor_fileinfo_update_some (env : Env) (mk : Mkstemp) (ec : GuEditor)
    (f : Str) :
    let fname := if !g_path_is_absolute f then env.current_dir ++ [G_DIR_SEPARATOR] ++ f else f
    let base := g_path_get_basename fname
    let dir := g_path_get_dirname fname
    let ec1 := (editor_fileinfo_update env mk ec (some f)).1
    ec1.filename = some fname ∧
    ec1.basename = some (dir ++ [G_DIR_SEPARATOR] ++ ['.'] ++ base) ∧
    ec1.workfile = some (dir ++ [G_DIR_SEPARATOR] ++ ['.'] ++ base ++ ".swp".toList) ∧
    ec1.pdffile = some (env.C_TMPDIR ++ [G_DIR_SEPARATOR] ++ ['.'] ++ base ++ ".pdf".toList) := by
  unfold editor_fileinfo_update
  by_cases h : (ec.workfd != -1) = true <;> simp [h]

theorem editor_fileinfo_update_none (env : Env) (mk : Mkstemp) (ec : GuEditor) :
    let fdname := (g_mkstemp (g_build_filename [env.C_TMPDIR, "gummi_XXXXXX".toList]) mk).2
    let ec1 := (editor_fileinfo_update env mk ec none).1
    ec1.filename = (if ec.workfd != -1 then none else ec.filename) ∧
    ec1.fdname = some fdname ∧
    ec1.basename = some fdname ∧
    ec1.workfile = some fdname ∧
    ec1.pdffile = some (fdname ++ ".pdf".toList) := by
  unfold editor_fileinfo_update editor_fileinfo_cleanup
  by_cases h : (ec.workfd != -1) = true <;> simp [h]

/-- C1. For an absolute file name `D/B` whose directory part `D` does not end in
a separator (so it is not the root) and whose base name `B` is a non-empty name
without separator, `editor_fileinfo_update` sets `filename` to `D/B`,
`basename` to `D/.B`, `workfile` to `D/.B.swp` and `pdffile` to
`C_TMPDIR/.B.pdf`. -/
theorem editor_fileinfo_update_saved (env : Env) (mk : Mkstemp) (ec : GuEditor)
    (D B : Str) (habs : g_path_is_absolute D = true)
    (hD : D.getLast? ≠ some G_DIR_SEPARATOR) (hB : B ≠ [])
    (hsep : G_DIR_SEPARATOR ∉ B) :
    let ec1 := (editor_fileinfo_update env mk ec (some (D ++ '/' :: B))).1
    ec1.filename = some (D ++ '/' :: B) ∧
    ec1.basename = some (D ++ '/' :: '.' :: B) ∧
    ec1.workfile = some (D ++ '/' :: '.' :: B ++ ".swp".toList) ∧
    ec1.pdffile = some (env.C_TMPDIR ++ '/' :: '.' :: B ++ ".pdf".toList) := by
  have hne : D ≠ [] := by
    intro h; rw [h] at habs; simp [g_path_is_absolute] at habs
  have habs2 : g_path_is_absolute (D ++ '/' :: B) = true := by
    cases D with
    | nil => exact absurd rfl hne
    | cons x xs => simpa [g_path_is_absolute] using habs
  have hdir : g_path_get_dirname (D ++ '/' :: B) = D :=
    g_path_get_dirname_join hne hD hsep
  have hbase : g_path_get_basename (D ++ '/' :: B) = B :=
    g_path_get_basename_join D hB hsep
  have h := editor_fileinfo_update_some env mk ec (D ++ '/' :: B)
  simpa [habs2, hdir, hbase, G_DIR_SEPARATOR] using h

/-- Witness of C1 at `/absolute/path/FILE.tex`. -/
theorem editor_fileinfo_update_saved_witness :
    let ec1 := (editor_fileinfo_update
      { C_TMPDIR := "/home/u/.cache/gummi".toList, current_dir := "/home/u".toList }
      { fd := 5, chars := "AbCdEf".toList } (editor_new [])
      (some "/absolute/path/FILE.tex".toList)).1
    ec1.workfile = some "/absolute/path/.FILE.tex.swp".toList ∧
    ec1.pdffile = some "/home/u/.cache/gummi/.FILE.tex.pdf".toList := by
  have h := editor_fileinfo_update_saved
    { C_TMPDIR := "/home/u/.cache/gummi".toList, current_dir := "/home/u".toList }
    { fd := 5, chars := "AbCdEf".toList } (editor_new [])
    "/absolute/path".toList "FILE.tex".toList (by decide) (by decide) (by decide)
    (by decide)
  exact ⟨h.2.2.1, h.2.2.2⟩

theorem g_mkstemp_gummi (C : Str) (mk : Mkstemp) :
    (g_mkstemp (C ++ '/' :: "gummi_XXXXXX".toList) mk).2
      = C ++ "/gummi_".toList ++ mk.chars := by
  have h : C ++ '/' :: "gummi_XXXXXX".toList = (C ++ "/gummi_".toList) ++ "XXXXXX".toList := by
    simp
  unfold g_mkstemp
  rw [h]
  have hlen : ((C ++ "/gummi_".toList) ++ "XXXXXX".toList).length - 6
      = (C ++ "/gummi_".toList).length := by simp
  rw [hlen, List.take_left']
  rfl

/-- C3. For a new document (`filename` argument `NULL`, editor without file
name), with a cache directory name that does not end in a separator:
`fdname` is `C_TMPDIR/gummi_` followed by the six fresh characters, `workfile`
and `basename` equal it, `pdffile` is `fdname` followed by `.pdf`, `filename`
stays `NULL`, and both paths lie in the cache directory. -/
theorem editor_fileinfo_update_new (env : Env) (mk : Mkstemp) (ec : GuEditor)
    (hfn : ec.filename = none) (hC : env.C_TMPDIR ≠ [])
    (hlast : env.C_TMPDIR.getLast? ≠ some G_DIR_SEPARATOR)
    (hchars : G_DIR_SEPARATOR ∉ mk.chars) :
    let ec1 := (editor_fileinfo_update env mk ec none).1
    let fdname := env.C_TMPDIR ++ "/gummi_".toList ++ mk.chars
    ec1.fdname = some fdname ∧
    ec1.workfile = some fdname ∧
    ec1.basename = some fdname ∧
    ec1.pdffile = some (fdname ++ ".pdf".toList) ∧
    ec1.filename = none ∧
    g_path_get_dirname fdname = env.C_TMPDIR ∧
    g_path_get_dirname (fdname ++ ".pdf".toList) = env.C_TMPDIR := by
  have hb : g_build_filename [env.C_TMPDIR, "gummi_XXXXXX".toList]
      = env.C_TMPDIR ++ '/' :: "gummi_XXXXXX".toList :=
    g_build_filename_pair hC hlast (by decide) (by decide)
  have h := editor_fileinfo_update_none env mk ec
  simp only [hb, g_mkstemp_gummi, hfn, ite_self] at h
  obtain ⟨h1, h2, h3, h4, h5⟩ := h
  have hd1 : g_path_get_dirname (env.C_TMPDIR ++ "/gummi_".toList ++ mk.chars)
      = env.C_TMPDIR := by
    have : env.C_TMPDIR ++ "/gummi_".toList ++ mk.chars
        = env.C_TMPDIR ++ G_DIR_SEPARATOR :: ("gummi_".toList ++ mk.chars) := by
      simp [G_DIR_SEPARATOR]
    rw [this]
    apply g_path_get_dirname_join hC hlast
    simp only [List.mem_append, not_or]
    exact ⟨by decide, hchars⟩
  have hd2 : g_path_get_dirname (env.C_TMPDIR ++ "/gummi_".toList ++ mk.chars ++ ".pdf".toList)
      = env.C_TMPDIR := by
    have : env.C_TMPDIR ++ "/gummi_".toList ++ mk.chars ++ ".pdf".toList
        = env.C_TMPDIR ++ G_DIR_SEPARATOR :: ("gummi_".toList ++ mk.chars ++ ".pdf".toList) := by
      simp [G_DIR_SEPARATOR]
    rw [this]
    apply g_path_get_dirname_join hC hlast
    simp only [List.mem_append, not_or]
    exact ⟨⟨by decide, hchars⟩, by decide⟩
  exact ⟨h2, h4, h3, h5, h1, hd1, hd2⟩

/-- Witness of C3 on a fresh editor. -/
theorem editor_fileinfo_update_new_witness :
    (editor_fileinfo_update
      { C_TMPDIR := "/home/u/.cache/gummi".toList, current_dir := "/home/u".toList }
      { fd := 5, chars := "AbCdEf".toList } (editor_new []) none).1.pdffile
      = some "/home/u/.cache/gummi/gummi_AbCdEf.pdf".toList :=
  (editor_fileinfo_update_new
    { C_TMPDIR := "/home/u/.cache/gummi".toList, current_dir := "/home/u".toList }
    { fd := 5, chars := "AbCdEf".toList } (editor_new []) rfl (by decide) (by decide)
    (by decide)).2.2.2.1

theorem not_mem_dot_name {base ext : Str}
    (hbase : G_DIR_SEPARATOR ∉ base) (hext : G_DIR_SEPARATOR ∉ ext) :
    G_DIR_SEPARATOR ∉ '.' :: (base ++ ext) := by
  simp only [List.mem_cons, List.mem_append, not_or]
  exact ⟨by decide, hbase, hext⟩

/-- C2 (amended). In the state left by `editor_fileinfo_update` for a saved
document, or for a new document on an editor without file name, the aux, log
and synctex.gz paths computed and removed by `editor_fileinfo_cleanup` are
`pdffile` with its final `.pdf` replaced by `.aux`, `.log` and `.synctex.gz`.
For a saved document with a proper base name the four lie in `C_TMPDIR`, the
work file lies in the directory of the document, and none of the four lies
there unless that directory is `C_TMPDIR` itself. -/
theorem editor_fileinfo_cleanup_paths_follow_pdffile (env : Env) (mk : Mkstemp)
    (ec : GuEditor) (filename : Option Str)
    (hnew : filename = none → ec.workfd ≠ -1 ∨ ec.filename = none)
    (hC : env.C_TMPDIR ≠ [])
    (hlast : env.C_TMPDIR.getLast? ≠ some G_DIR_SEPARATOR) :
    let ec1 := (editor_fileinfo_update env mk ec filename).1
    let paths := editor_fileinfo_cleanup_paths env ec1
    (∃ stem, ec1.pdffile = some (stem ++ ".pdf".toList) ∧
      paths = (stem ++ ".aux".toList, stem ++ ".log".toList,
        stem ++ ".synctex.gz".toList)) ∧
    (editor_fileinfo_cleanup env ec1).2.take 3
      = [some paths.1, some paths.2.1, some paths.2.2] ∧
    (∀ f fname pdf work, filename = some f → ec1.filename = some fname →
      ec1.pdffile = some pdf → ec1.workfile = some work →
      g_path_get_basename fname ≠ [G_DIR_SEPARATOR] →
      (∀ p ∈ [pdf, paths.1, paths.2.1, paths.2.2],
        g_path_get_dirname p = env.C_TMPDIR) ∧
      g_path_get_dirname work = g_path_get_dirname fname ∧
      (g_path_get_dirname fname ≠ env.C_TMPDIR →
        ∀ p ∈ [pdf, paths.1, paths.2.1, paths.2.2],
          g_path_get_dirname p ≠ g_path_get_dirname fname)) := by
  intro ec1 paths
  refine ⟨?_, rfl, ?_⟩
  · cases filename with
    | some f =>
      obtain ⟨h1, -, -, h4⟩ := editor_fileinfo_update_some env mk ec f
      refine ⟨_, h4, ?_⟩
      simp only [paths, ec1, editor_fileinfo_cleanup_paths, h1]
    | none =>
      obtain ⟨h1, h2, -, -, h5⟩ := editor_fileinfo_update_none env mk ec
      have hfn : ec1.filename = none := by
        rcases hnew rfl with h | h
        · have : (ec.workfd != -1) = true := by simpa using h
          simpa [this] using h1
        · simpa [h] using h1
      refine ⟨_, h5, ?_⟩
      simp only [paths, ec1, editor_fileinfo_cleanup_paths] at hfn ⊢
      rw [hfn, h2]
      rfl
  · intro f fname pdf work hf hfname hpdf hwork hbase
    subst hf
    obtain ⟨h1, -, h3, h4⟩ := editor_fileinfo_update_some env mk ec f
    have e1 : _ = fname := Option.some.inj (h1.symm.trans hfname)
    have e3 : _ = work := Option.some.inj (h3.symm.trans hwork)
    have e4 : _ = pdf := Option.some.inj (h4.symm.trans hpdf)
    rw [e1] at e3 e4
    have hb : G_DIR_SEPARATOR ∉ g_path_get_basename fname := by
      rcases g_path_get_basename_shape fname with h | h
      · exact absurd h hbase
      · exact h.2
    have hpaths : paths = (env.C_TMPDIR ++ [G_DIR_SEPARATOR] ++ ['.'] ++ g_path_get_basename fname ++ ".aux".toList,
        env.C_TMPDIR ++ [G_DIR_SEPARATOR] ++ ['.'] ++ g_path_get_basename fname ++ ".log".toList,
        env.C_TMPDIR ++ [G_DIR_SEPARATOR] ++ ['.'] ++ g_path_get_basename fname ++ ".synctex.gz".toList) := by
      show editor_fileinfo_cleanup_paths env ec1 = _
      unfold editor_fileinfo_cleanup_paths
      rw [hfname]
    have hin : ∀ ext : Str, G_DIR_SEPARATOR ∉ ext →
        g_path_get_dirname (env.C_TMPDIR ++ [G_DIR_SEPARATOR] ++ ['.']
          ++ g_path_get_basename fname ++ ext) = env.C_TMPDIR := by
      intro ext hext
      have : env.C_TMPDIR ++ [G_DIR_SEPARATOR] ++ ['.'] ++ g_path_get_basename fname ++ ext
          = env.C_TMPDIR ++ G_DIR_SEPARATOR :: ('.' :: (g_path_get_basename fname ++ ext)) := by
        simp
      rw [this]
      exact g_path_get_dirname_join hC hlast (not_mem_dot_name hb hext)
    have hfour : ∀ p ∈ [pdf, paths.1, paths.2.1, paths.2.2],
        g_path_get_dirname p = env.C_TMPDIR := by
      intro p hp
      rw [hpaths, ← e4] at hp
      simp only [List.mem_cons, List.mem_singleton, List.not_mem_nil, or_false] at hp
      rcases hp with rfl | rfl | rfl | rfl
      · exact hin _ (by decide)
      · exact hin _ (by decide)
      · exact hin _ (by decide)
      · exact hin _ (by decide)
    refine ⟨hfour, ?_, ?_⟩
    · rw [← e3]
      have : g_path_get_dirname fname ++ [G_DIR_SEPARATOR] ++ ['.'] ++ g_path_get_basename fname ++ ".swp".toList
          = g_path_get_dirname fname ++ G_DIR_SEPARATOR :: ('.' :: (g_path_get_basename fname ++ ".swp".toList)) := by
        simp
      rw [this]
      exact g_path_get_dirname_child (g_path_get_dirname_shape fname)
        (not_mem_dot_name hb (by decide))
    · intro hne p hp
      rw [hfour p hp]
      exact fun h => hne h.symm

/-- Witness of C2 (amended) at `/absolute/path/FILE.tex`. -/
theorem editor_fileinfo_cleanup_paths_follow_pdffile_witness :
    let env : Env :=
      { C_TMPDIR := "/home/u/.cache/gummi".toList, current_dir := "/home/u".toList }
    let ec1 := (editor_fileinfo_update env { fd := 5, chars := "AbCdEf".toList }
      (editor_new []) (some "/absolute/path/FILE.tex".toList)).1
    ∃ stem, ec1.pdffile = some (stem ++ ".pdf".toList) ∧
      editor_fileinfo_cleanup_paths env ec1 = (stem ++ ".aux".toList,
        stem ++ ".log".toList, stem ++ ".synctex.gz".toList) :=
  (editor_fileinfo_cleanup_paths_follow_pdffile
    { C_TMPDIR := "/home/u/.cache/gummi".toList, current_dir := "/home/u".toList }
    { fd := 5, chars := "AbCdEf".toList } (editor_new [])
    (some "/absolute/path/FILE.tex".toList) (by simp) (by decide) (by decide)).1

/-- C2 as stated fails for a document saved in the cache directory itself: with
`C_TMPDIR = /c` and the document `/c/a.tex`, the pdf file `/c/.a.tex.pdf` lies
in the directory of the document, as the work file does. -/
theorem editor_fileinfo_pdffile_in_document_dir :
    let env : Env := { C_TMPDIR := "/c".toList, current_dir := "/".toList }
    let ec1 := (editor_fileinfo_update env { fd := 5, chars := "AbCdEf".toList }
      (editor_new []) (some "/c/a.tex".toList)).1
    ec1.filename = some "/c/a.tex".toList ∧
    ec1.workfile = some "/c/.a.tex.swp".toList ∧
    ec1.pdffile = some "/c/.a.tex.pdf".toList ∧
    g_path_get_dirname "/c/.a.tex.pdf".toList = g_path_get_dirname "/c/a.tex".toList := by
  decide

/-! ### Search and replace -/

theorem matches_at_iff_isPrefix (str s : Str) :
    matches_at str false s = true ↔ str <+: s := by
  induction str generalizing s with
  | nil => simp [matches_at]
  | cons a as ih =>
    cases s with
    | nil => simp [matches_at]
    | cons b bs =>
      simp only [matches_at, Bool.false_eq_true, if_false, Bool.and_eq_true, beq_iff_eq,
        List.cons_prefix_cons, ih]

theorem find_from_none_spec (term rterm : Str) :
    ∀ (s : Str) (pos : Nat), find_from term false s pos = none →
      replace_all_spec term rterm s = s := by
  intro s
  induction s with
  | nil => intro pos _; simp [replace_all_spec]
  | cons c cs ih =>
    intro pos h
    unfold find_from at h
    split at h
    · simp at h
    · rename_i hm
      rw [matches_at_iff_isPrefix] at hm
      rw [replace_all_spec, if_neg (fun hh => hm hh.2), ih (pos + 1) h]

theorem find_from_some_spec (term rterm : Str) (hterm : term ≠ []) :
    ∀ (s : Str) (pos i : Nat), find_from term false s pos = some i →
      ∃ p rest, s = p ++ term ++ rest ∧ i = pos + p.length ∧
        replace_all_spec term rterm s
          = p ++ rterm ++ replace_all_spec term rterm rest := by
  intro s
  induction s with
  | nil => intro pos i h; simp [find_from] at h
  | cons c cs ih =>
    intro pos i h
    unfold find_from at h
    split at h
    · rename_i hm
      rw [matches_at_iff_isPrefix] at hm
      have hi : pos = i := by simpa using h
      obtain ⟨rest, hrest⟩ := hm
      refine ⟨[], rest, by simpa using hrest.symm, by simp [hi], ?_⟩
      rw [replace_all_spec, if_pos ⟨hterm, ⟨rest, hrest⟩⟩, ← hrest]
      simp
    · rename_i hm
      rw [matches_at_iff_isPrefix] at hm
      obtain ⟨p, rest, hs, hi, hspec⟩ := ih (pos + 1) i h
      refine ⟨c :: p, rest, by simp [hs], by simp [hi]; omega, ?_⟩
      rw [replace_all_spec, if_neg (fun hh => hm hh.2), hspec]
      simp

theorem editor_start_replace_all_loop_spec (term rterm : Str) (hterm : term ≠ []) :
    ∀ (fuel : Nat) (ec : GuEditor) (a s : Str), ec.text = a ++ s → s.length < fuel →
      ∃ ec1, editor_start_replace_all_loop term rterm false true fuel ec a.length = some ec1 ∧
        ec1.text = a ++ replace_all_spec term rterm s := by
  intro fuel
  induction fuel with
  | zero => intro ec a s _ h; exact absurd h (Nat.not_lt_zero _)
  | succ fuel ih =>
    intro ec a s htext hfuel
    have hempty : term.isEmpty = false := by cases term <;> simp_all
    have hdrop : ec.text.drop a.length = s := by rw [htext]; simp
    unfold editor_start_replace_all_loop
    simp only [gtk_text_iter_forward_search, hempty, Bool.false_eq_true, if_false, hdrop,
      Bool.not_true]
    cases hf : find_from term false s a.length with
    | none =>
      simp only [Option.map_none']
      exact ⟨ec, rfl, by rw [find_from_none_spec term rterm s _ hf, htext]⟩
    | some i =>
      obtain ⟨p, rest, hs, hi, hspec⟩ := find_from_some_spec term rterm hterm s _ i hf
      simp only [Option.map_some', Bool.not_false, Bool.true_or, if_true]
      have htake : ec.text.take i = a ++ p := by
        rw [htext, hs, hi]
        rw [show a ++ (p ++ term ++ rest) = (a ++ p) ++ (term ++ rest) by simp]
        rw [show a.length + p.length = (a ++ p).length by simp, List.take_left]
      have hdrop2 : ec.text.drop (i + term.length) = rest := by
        rw [htext, hs, hi]
        rw [show a ++ (p ++ term ++ rest) = (a ++ p ++ term) ++ rest by simp]
        rw [show a.length + p.length + term.length = (a ++ p ++ term).length by
          simp [Nat.add_assoc], List.drop_left]
      have hlen : i ≤ ec.text.length := by
        rw [htext, hs, hi]; simp
      have hlen2 : (a ++ p).length = i := by simp [hi]
      have key : (gtk_text_buffer_insert (gtk_text_buffer_delete ec i (i + term.length)) i rterm).1.text
          = (a ++ p ++ rterm) ++ rest := by
        simp only [gtk_text_buffer_insert, gtk_text_buffer_delete, htake, hdrop2]
        rw [← hlen2, List.take_left, List.drop_left]
      have hpos : (gtk_text_buffer_insert (gtk_text_buffer_delete ec i (i + term.length)) i rterm).2
          = (a ++ p ++ rterm).length := by
        simp [gtk_text_buffer_insert, hi, Nat.add_assoc]
      have hfuel2 : rest.length < fuel := by
        have : 0 < term.length := List.length_pos.mpr hterm
        rw [hs] at hfuel
        simp at hfuel
        omega
      obtain ⟨ec1, h1, h2⟩ := ih _ (a ++ p ++ rterm) rest key hfuel2
      rw [← hpos] at h1
      refine ⟨ec1, h1, ?_⟩
      rw [h2, hspec]
      simp

/-- C4. With `wholeword` off and `matchcase` on, for every buffer, every
non-empty `term` and every `rterm`, the loop of `editor_start_replace_all` ends
within its budget and leaves the buffer text equal to the text in which every
occurrence of `term`, found from left to right without overlap, is replaced by
`rterm`; this holds for every `rterm`, also one that contains `term`. -/
theorem editor_start_replace_all_replaces (ec : GuEditor) (term rterm : Str)
    (backwards : Bool) (hterm : term ≠ []) :
    ∃ ec1, editor_start_replace_all ec term rterm backwards false true = some ec1 ∧
      ec1.text = replace_all_spec term rterm ec.text := by
  have h := editor_start_replace_all_loop_spec term rterm hterm (ec.text.length + 1) ec []
    ec.text rfl (Nat.lt_succ_self _)
  simpa [editor_start_replace_all] using h

/-- Witness of C4: the replacement `xabx` contains the term `ab`. -/
theorem editor_start_replace_all_replaces_witness :
    ∃ ec1, editor_start_replace_all (editor_new "abcab".toList) "ab".toList
        "xabx".toList false false true = some ec1 ∧
      ec1.text = "xabxcxabx".toList := by
  obtain ⟨ec1, h1, h2⟩ := editor_start_replace_all_replaces (editor_new "abcab".toList)
    "ab".toList "xabx".toList false (by decide)
  refine ⟨ec1, h1, ?_⟩
  rw [h2]
  simp [editor_new, replace_all_spec]

/-- C5 fails on the code: in the buffer `foobar foo` with term `foo` and
`wholeword` on, `editor_start_replace_all` stops at the first occurrence, which
is not a whole word, and leaves the whole word at offsets 7 to 10 in place,
although `editor_apply_searchtag` highlights exactly that occurrence. -/
theorem editor_start_replace_all_wholeword_stops :
    (editor_start_replace_all (editor_new "foobar foo".toList) "foo".toList
        "X".toList false true true).map (fun e => e.text) = some "foobar foo".toList ∧
    editor_apply_searchtag
      { editor_new "foobar foo".toList with
        term := some "foo".toList, wholeword := true, matchcase := true }
      = some [(7, 10)] := by
  decide

/-! ### The regular-expression matcher -/

theorem star_run_sound (p : Char → Bool) (k : Str → Caps → Option (Caps × Str)) :
    ∀ (inp : Str) (caps : Caps) (r : Caps × Str), star_run p k inp caps = some r →
      ∃ w rest, inp = w ++ rest ∧ (∀ c ∈ w, p c = true) ∧ k rest caps = some r := by
  intro inp
  induction inp with
  | nil =>
    intro caps r h
    exact ⟨[], [], rfl, by simp, by simpa [star_run] using h⟩
  | cons c cs ih =>
    intro caps r h
    unfold star_run at h
    split at h
    · rename_i hp
      split at h
      · rename_i r1 hr1
        obtain ⟨w, rest, h1, h2, h3⟩ := ih caps r1 hr1
        refine ⟨c :: w, rest, by simp [h1], ?_, ?_⟩
        · intro x hx
          rcases List.mem_cons.mp hx with rfl | hx
          · exact hp
          · exact h2 x hx
        · rw [h3]; exact h
      · exact ⟨[], c :: cs, rfl, by simp, h⟩
    · exact ⟨[], c :: cs, rfl, by simp, h⟩

theorem star_run_complete (p : Char → Bool) (k : Str → Caps → Option (Caps × Str)) :
    ∀ (w rest : Str) (caps : Caps), (∀ c ∈ w, p c = true) → (k rest caps).isSome = true →
      (star_run p k (w ++ rest) caps).isSome = true := by
  intro w
  induction w with
  | nil =>
    intro rest caps _ hk
    cases rest with
    | nil => simpa [star_run] using hk
    | cons c cs =>
      simp only [List.nil_append, star_run]
      split
      · split
        · rfl
        · exact hk
      · exact hk
  | cons x xs ih =>
    intro rest caps hw hk
    have hx : p x = true := hw x (List.mem_cons_self _ _)
    have := ih rest caps (fun c hc => hw c (List.mem_cons_of_mem _ hc)) hk
    simp only [List.cons_append, star_run, hx, if_true]
    cases h : star_run p k (xs ++ rest) caps with
    | none => rw [h] at this; simp at this
    | some r => rfl

theorem Regex.run_sound (re : Regex) :
    ∀ (inp : Str) (caps : Caps) (k : Str → Caps → Option (Caps × Str)) (r : Caps × Str),
      re.run inp caps k = some r →
      ∃ rest caps1, Regex.Matches re inp caps rest caps1 ∧ k rest caps1 = some r := by
  induction re with
  | lit s =>
    intro inp caps k r h
    simp only [Regex.run] at h
    split at h
    · rename_i hm
      obtain ⟨t, ht⟩ := (matches_at_iff_isPrefix s inp).mp hm
      subst ht
      refine ⟨t, caps, Regex.Matches.lit s t caps, ?_⟩
      simpa using h
    · simp at h
  | chr p =>
    intro inp caps k r h
    cases inp with
    | nil => simp [Regex.run] at h
    | cons c cs =>
      simp only [Regex.run] at h
      split at h
      · rename_i hp
        exact ⟨cs, caps, Regex.Matches.chr p c cs caps hp, h⟩
      · simp at h
  | star p =>
    intro inp caps k r h
    obtain ⟨w, rest, h1, h2, h3⟩ := star_run_sound p k inp caps r h
    subst h1
    exact ⟨rest, caps, Regex.Matches.star p w rest caps h2, h3⟩
  | seq a b iha ihb =>
    intro inp caps k r h
    simp only [Regex.run] at h
    obtain ⟨mid, caps1, hm1, hk1⟩ := iha inp caps _ r h
    obtain ⟨rest, caps2, hm2, hk2⟩ := ihb mid caps1 k r hk1
    exact ⟨rest, caps2, Regex.Matches.seq hm1 hm2, hk2⟩
  | opt a iha =>
    intro inp caps k r h
    simp only [Regex.run] at h
    split at h
    · rename_i r1 hr1
      obtain ⟨rest, caps1, hm, hk⟩ := iha inp caps k r1 hr1
      exact ⟨rest, caps1, Regex.Matches.optSome hm, by rw [hk]; exact h⟩
    · exact ⟨inp, caps, Regex.Matches.optNone a inp caps, h⟩
  | group n a iha =>
    intro inp caps k r h
    simp only [Regex.run] at h
    obtain ⟨rest, caps1, hm, hk⟩ := iha inp caps _ r h
    exact ⟨rest, _, Regex.Matches.group n hm, hk⟩

theorem Regex.run_complete {re : Regex} {inp rest : Str} {caps caps1 : Caps}
    (hm : Regex.Matches re inp caps rest caps1) :
    ∀ (k : Str → Caps → Option (Caps × Str)), (k rest caps1).isSome = true →
      (re.run inp caps k).isSome = true := by
  induction hm with
  | lit s rest caps =>
    intro k hk
    have : matches_at s false (s ++ rest) = true :=
      (matches_at_iff_isPrefix s _).mpr ⟨rest, rfl⟩
    simpa [Regex.run, this] using hk
  | chr p c rest caps h =>
    intro k hk
    simpa [Regex.run, h] using hk
  | star p w rest caps h =>
    intro k hk
    exact star_run_complete p k w rest caps h hk
  | seq ha hb iha ihb =>
    intro k hk
    simp only [Regex.run]
    exact iha _ (ihb k hk)
  | optSome ha iha =>
    intro k hk
    simp only [Regex.run]
    have := iha k hk
    cases h : Regex.run _ _ _ k with
    | none => rw [h] at this; simp at this
    | some r => rfl
  | optNone a inp caps =>
    intro k hk
    simp only [Regex.run]
    split
    · rfl
    · exact hk
  | group n ha iha =>
    intro k hk
    simp only [Regex.run]
    exact iha _ hk

/-- When every way of matching leads the continuation to the same answer and
there is at least one way, the backtracking matcher returns that answer. -/
theorem Regex.run_eq_some_of_unique {re : Regex} {inp : Str} {caps : Caps}
    {k : Str → Caps → Option (Caps × Str)} {v : Caps × Str}
    (hex : ∃ rest caps1, Regex.Matches re inp caps rest caps1 ∧ k rest caps1 = some v)
    (huniq : ∀ rest caps1 r, Regex.Matches re inp caps rest caps1 →
      k rest caps1 = some r → r = v) :
    re.run inp caps k = some v := by
  obtain ⟨rest, caps1, hm, hk⟩ := hex
  have hsome := Regex.run_complete hm k (by rw [hk]; rfl)
  cases h : re.run inp caps k with
  | none => rw [h] at hsome; simp at hsome
  | some r =>
    obtain ⟨rest2, caps2, hm2, hk2⟩ := Regex.run_sound re inp caps k r h
    rw [huniq rest2 caps2 r hm2 hk2]

theorem Regex.run_eq_none_of_no_match {re : Regex} {inp : Str} {caps : Caps}
    {k : Str → Caps → Option (Caps × Str)}
    (hno : ∀ rest caps1, Regex.Matches re inp caps rest caps1 → k rest caps1 = none) :
    re.run inp caps k = none := by
  cases h : re.run inp caps k with
  | none => rfl
  | some r =>
    obtain ⟨rest, caps1, hm, hk⟩ := Regex.run_sound re inp caps k r h
    rw [hno rest caps1 hm] at hk
    simp at hk

theorem takeWhile_dropWhile_of_head {p : Char → Bool} {l : Str}
    (h : ∀ c, l.head? = some c → p c = false) :
    l.takeWhile p = [] ∧ l.dropWhile p = l := by
  cases l with
  | nil => simp
  | cons x xs =>
    have hx : p x = false := h x rfl
    simp [List.takeWhile_cons, List.dropWhile_cons, hx]

theorem head?_space_run {ws2 rest : Str} (h2 : ∀ c ∈ ws2, is_space c = true) (c : Char)
    (hc : (ws2 ++ '}' :: rest).head? = some c) : is_space c = true ∨ c = '}' := by
  cases ws2 with
  | nil => right; simpa using hc.symm
  | cons x xs =>
    left
    have : x = c := by simpa using hc
    exact this ▸ h2 x (List.mem_cons_self _ _)

theorem braced_key_of_decomp (is_key : Char → Bool)
    (hk : ∀ c, is_key c = true → is_space c = false ∧ c ≠ '}')
    {ws1 key ws2 rest : Str}
    (h1 : ∀ c ∈ ws1, is_space c = true) (h2 : ∀ c ∈ ws2, is_space c = true)
    (h3 : ∀ c ∈ key, is_key c = true) :
    braced_key is_key (ws1 ++ key ++ ws2 ++ '}' :: rest) = some (key, rest) := by
  have hnk : ∀ c, (ws2 ++ '}' :: rest).head? = some c → is_key c = false := by
    intro c hc
    rcases head?_space_run h2 c hc with h | h
    · cases hkc : is_key c with
      | false => rfl
      | true => rw [(hk c hkc).1] at h; simp at h
    · cases hkc : is_key c with
      | false => rfl
      | true => exact absurd h (hk c hkc).2
  have hbrace : ('}' :: rest).dropWhile is_space = '}' :: rest := by
    simp [List.dropWhile_cons, is_space]
  have htail : (ws2 ++ '}' :: rest).dropWhile is_space = '}' :: rest := by
    rw [List.dropWhile_append_of_pos h2, hbrace]
  obtain ⟨ht, hd⟩ := takeWhile_dropWhile_of_head hnk
  have hkb : is_key '}' = false := by
    cases hkc : is_key '}' with
    | false => rfl
    | true => exact absurd rfl (hk _ hkc).2
  unfold braced_key
  rw [show ws1 ++ key ++ ws2 ++ '}' :: rest = ws1 ++ (key ++ (ws2 ++ '}' :: rest)) by simp,
    List.dropWhile_append_of_pos h1]
  cases key with
  | nil =>
    simp only [List.nil_append, htail]
    simp [List.dropWhile_cons, List.takeWhile_cons, hkb, hbrace]
  | cons x xs =>
    have hx : is_space x = false := (hk x (h3 x (List.mem_cons_self _ _))).1
    have hs1 : ((x :: xs) ++ (ws2 ++ '}' :: rest)).dropWhile is_space
        = (x :: xs) ++ (ws2 ++ '}' :: rest) := by
      simp [List.dropWhile_cons, hx]
    simp only [hs1, List.dropWhile_append_of_pos h3, List.takeWhile_append_of_pos h3, ht, hd,
      htail, List.append_nil]

theorem braced_key_decomp (is_key : Char → Bool) {inp key rest : Str}
    (h : braced_key is_key inp = some (key, rest)) : IsBracedKey is_key inp key rest := by
  unfold braced_key at h
  dsimp only at h
  split at h
  · rename_i rest1 heq
    simp only [Option.some.injEq, Prod.mk.injEq] at h
    obtain ⟨hkey, hrest⟩ := h
    subst hrest
    refine ⟨inp.takeWhile is_space,
      ((inp.dropWhile is_space).dropWhile is_key).takeWhile is_space, ?_, ?_, ?_, ?_⟩
    · rw [← heq, ← hkey]
      simp only [List.append_assoc, List.takeWhile_append_dropWhile]
    · intro c hc; exact List.mem_takeWhile_imp hc
    · intro c hc; exact List.mem_takeWhile_imp hc
    · intro c hc; rw [← hkey] at hc; exact List.mem_takeWhile_imp hc
  · simp at h

theorem braced_key_iff (is_key : Char → Bool)
    (hk : ∀ c, is_key c = true → is_space c = false ∧ c ≠ '}') (inp key rest : Str) :
    braced_key is_key inp = some (key, rest) ↔ IsBracedKey is_key inp key rest := by
  constructor
  · exact braced_key_decomp is_key
  · rintro ⟨ws1, ws2, rfl, h1, h2, h3⟩
    exact braced_key_of_decomp is_key hk h1 h2 h3

theorem is_key_char_spec (c : Char) (h : is_key_char c = true) :
    is_space c = false ∧ c ≠ '}' := by
  simp only [is_key_char, Bool.not_eq_true', Bool.or_eq_false_iff, beq_eq_false_iff_ne] at h
  exact ⟨h.2, h.1.2⟩

theorem key_tail_matches_iff (is_key : Char → Bool) (inp rest : Str) (caps caps1 : Caps) :
    Regex.Matches (key_tail_regex is_key) inp caps rest caps1 ↔
      ∃ key, IsBracedKey is_key inp key rest ∧ caps1 = caps.set 1 (some key) := by
  constructor
  · intro h
    unfold key_tail_regex at h
    cases h with
    | seq ha hb =>
      cases ha with
      | star _ ws1 mid _ h1 =>
        cases hb with
        | seq hg hc =>
          cases hg with
          | group _ hkey =>
            cases hkey with
            | star _ key mid2 _ h3 =>
              cases hc with
              | seq hs hl =>
                cases hs with
                | star _ ws2 mid3 _ h2 =>
                  cases hl with
                  | lit _ rest _ =>
                    refine ⟨key, ⟨ws1, ws2, by simp, h1, h2, h3⟩, ?_⟩
                    simp
  · rintro ⟨key, ⟨ws1, ws2, rfl, h1, h2, h3⟩, rfl⟩
    unfold key_tail_regex
    have e : ws1 ++ key ++ ws2 ++ '}' :: rest = ws1 ++ (key ++ (ws2 ++ (['}'] ++ rest))) := by
      simp
    rw [e]
    refine Regex.Matches.seq (Regex.Matches.star _ ws1 _ caps h1) ?_
    have hstar : Regex.Matches (.star is_key) (key ++ (ws2 ++ (['}'] ++ rest))) caps
        (ws2 ++ (['}'] ++ rest)) caps :=
      Regex.Matches.star is_key key (ws2 ++ (['}'] ++ rest)) caps h3
    have hg := Regex.Matches.group 1 hstar
    have hlen : (key ++ (ws2 ++ (['}'] ++ rest))).take
        ((key ++ (ws2 ++ (['}'] ++ rest))).length - (ws2 ++ (['}'] ++ rest)).length) = key := by
      simp
    rw [hlen] at hg
    exact Regex.Matches.seq hg
      (Regex.Matches.seq (Regex.Matches.star _ ws2 _ _ h2) (Regex.Matches.lit _ rest _))

theorem key_tail_run (is_key : Char → Bool)
    (hk : ∀ c, is_key c = true → is_space c = false ∧ c ≠ '}')
    (inp : Str) (caps : Caps) (k : Str → Caps → Option (Caps × Str)) :
    (key_tail_regex is_key).run inp caps k =
      match braced_key is_key inp with
      | some (key, rest) => k rest (caps.set 1 (some key))
      | none => none := by
  cases hb : braced_key is_key inp with
  | none =>
    apply Regex.run_eq_none_of_no_match
    intro rest caps1 hm
    obtain ⟨key, hkey, -⟩ := (key_tail_matches_iff is_key inp rest caps caps1).mp hm
    rw [(braced_key_iff is_key hk inp key rest).mpr hkey] at hb
    simp at hb
  | some kr =>
    obtain ⟨key, rest⟩ := kr
    have huniq : ∀ rest1 caps1, Regex.Matches (key_tail_regex is_key) inp caps rest1 caps1 →
        rest1 = rest ∧ caps1 = caps.set 1 (some key) := by
      intro rest1 caps1 hm
      obtain ⟨key1, hkey, hc⟩ := (key_tail_matches_iff is_key inp rest1 caps caps1).mp hm
      have := (braced_key_iff is_key hk inp key1 rest1).mpr hkey
      rw [hb] at this
      simp only [Option.some.injEq, Prod.mk.injEq] at this
      exact ⟨this.2.symm, by rw [hc, this.1]⟩
    simp only
    cases hv : k rest (caps.set 1 (some key)) with
    | none =>
      apply Regex.run_eq_none_of_no_match
      intro rest1 caps1 hm
      obtain ⟨h1, h2⟩ := huniq rest1 caps1 hm
      rw [h1, h2, hv]
    | some v =>
      apply Regex.run_eq_some_of_unique
      · refine ⟨rest, caps.set 1 (some key), ?_, hv⟩
        exact (key_tail_matches_iff is_key inp rest caps _).mpr
          ⟨key, (braced_key_iff is_key hk inp key rest).mp hb, rfl⟩
      · intro rest1 caps1 r hm hr
        obtain ⟨h1, h2⟩ := huniq rest1 caps1 hm
        rw [h1, h2, hv] at hr
        exact (Option.some.inj hr).symm

theorem Regex.run_seq (a b : Regex) (inp : Str) (caps : Caps)
    (k : Str → Caps → Option (Caps × Str)) :
    (Regex.seq a b).run inp caps k = a.run inp caps (fun inp1 caps1 => b.run inp1 caps1 k) :=
  rfl

theorem Regex.run_lit (s inp : Str) (caps : Caps) (k : Str → Caps → Option (Caps × Str)) :
    (Regex.lit s).run inp caps k
      = if matches_at s false inp then k (inp.drop s.length) caps else none :=
  rfl

theorem Regex.run_opt (a : Regex) (inp : Str) (caps : Caps)
    (k : Str → Caps → Option (Caps × Str)) :
    (Regex.opt a).run inp caps k
      = match a.run inp caps k with
        | some r => some r
        | none => k inp caps :=
  rfl

theorem braced_regex_match_at (cmd inp : Str) :
    regex_match_at (.seq (.lit (cmd ++ ['{'])) (key_tail_regex is_key_char)) 1 inp
      = (braced_occurrence_at cmd inp).map (key_caps inp) := by
  unfold regex_match_at braced_occurrence_at
  simp only [Regex.run_seq, Regex.run_lit, key_tail_run is_key_char is_key_char_spec]
  split
  · simp only [List.length_append, List.length_singleton]
    cases braced_key is_key_char (inp.drop (cmd.length + 1)) with
    | none => rfl
    | some kr => rfl
  · rfl

theorem new_envs_regex_match_at (inp : Str) :
    regex_match_at new_envs_regex 1 inp = (new_env_occurrence_at inp).map (key_caps inp) := by
  have hre : new_envs_regex = .seq (.lit "\\newenvironment".toList)
      (.seq (.opt (.lit ['*'])) (.seq (.lit ['{']) (key_tail_regex is_key_char))) := rfl
  rw [hre]
  unfold regex_match_at new_env_occurrence_at
  simp only [Regex.run_seq, Regex.run_lit, Regex.run_opt,
    key_tail_run is_key_char is_key_char_spec]
  split
  · generalize inp.drop "\\newenvironment".toList.length = s
    rcases s with _ | ⟨c, s⟩
    · simp [matches_at]
    · by_cases hc : c = '*'
      · subst hc
        rcases s with _ | ⟨d, s⟩
        · simp [matches_at]
        · by_cases hd : d = '{'
          · subst hd
            cases hb : braced_key is_key_char s with
            | none => simp [matches_at, hb]
            | some kr => simp [matches_at, hb, key_caps]
          · have hd2 : ¬ '{' = d := fun h => hd h.symm
            simp [matches_at, hd, hd2]
      · by_cases hd : c = '{'
        · subst hd
          cases hb : braced_key is_key_char s with
          | none => simp [matches_at, hb]
          | some kr => simp [matches_at, hb, key_caps]
        · have hc2 : ¬ '*' = c := fun h => hc h.symm
          have hd2 : ¬ '{' = c := fun h => hd h.symm
          simp [matches_at, hc, hd, hc2, hd2]
  · rfl

theorem scan_occurrences_skip {α : Type} (occ : Str → Option (α × Str)) (pre rest : Str) :
    scan_occurrences occ pre.length (pre ++ rest) = scan_occurrences occ 0 rest := by
  induction pre with
  | nil => rfl
  | cons x xs ih => simpa [scan_occurrences] using ih

theorem scan_occurrences_found {α : Type} (occ : Str → Option (α × Str)) (pre rest : Str)
    (a : α) (hpre : pre ≠ []) (h : occ (pre ++ rest) = some (a, rest)) :
    scan_occurrences occ 0 (pre ++ rest) = a :: scan_occurrences occ 0 rest := by
  cases pre with
  | nil => exact absurd rfl hpre
  | cons x xs =>
    have h2 : occ (x :: (xs ++ rest)) = some (a, rest) := h
    have hlen : (x :: (xs ++ rest)).length - rest.length - 1 = xs.length := by
      simp only [List.length_cons, List.length_append]
      omega
    show scan_occurrences occ 0 (x :: (xs ++ rest)) = _
    rw [scan_occurrences, h2]
    simp only
    rw [hlen, scan_occurrences_skip]

theorem regex_search_scan (re : Regex) (n : Nat) (occ : Str → Option (Str × Str))
    (f : Caps → Option Str)
    (hat : ∀ inp, regex_match_at re n inp = (occ inp).map (key_caps inp))
    (hsuffix : ∀ inp key rest, occ inp = some (key, rest) →
      ∃ pre, pre ≠ [] ∧ inp = pre ++ rest)
    (hf : ∀ inp kr, f (key_caps inp kr).1 = some kr.1) :
    ∀ inp : Str,
      (regex_search re n inp = none → scan_occurrences occ 0 inp = []) ∧
      (∀ caps rest, regex_search re n inp = some (caps, rest) →
        rest.length < inp.length ∧ ∃ key, f caps = some key ∧
          scan_occurrences occ 0 inp = key :: scan_occurrences occ 0 rest) := by
  intro inp
  induction inp with
  | nil =>
    have hnil : occ [] = none := by
      cases h : occ [] with
      | none => rfl
      | some kr =>
        obtain ⟨pre, hpre, hp⟩ := hsuffix [] kr.1 kr.2 h
        have : pre = [] := by
          cases pre with
          | nil => rfl
          | cons x xs => simp at hp
        exact absurd this hpre
    constructor
    · intro _; rfl
    · intro caps rest h
      simp [regex_search, hat, hnil] at h
  | cons c cs ih =>
    cases hocc : occ (c :: cs) with
    | none =>
      have hs : regex_search re n (c :: cs) = regex_search re n cs := by
        simp [regex_search, hat, hocc]
      have hscan : scan_occurrences occ 0 (c :: cs) = scan_occurrences occ 0 cs := by
        simp [scan_occurrences, hocc]
      rw [hs, hscan]
      refine ⟨ih.1, ?_⟩
      intro caps rest h
      obtain ⟨h1, h2⟩ := ih.2 caps rest h
      exact ⟨by simp only [List.length_cons]; omega, h2⟩
    | some kr =>
      obtain ⟨key, rest⟩ := kr
      have hs : regex_search re n (c :: cs) = some (key_caps (c :: cs) (key, rest)) := by
        simp [regex_search, hat, hocc]
      obtain ⟨pre, hpre, hp⟩ := hsuffix (c :: cs) key rest hocc
      constructor
      · intro h; rw [hs] at h; simp at h
      · intro caps rest1 h
        rw [hs] at h
        simp only [Option.some.injEq] at h
        have hc : caps = (key_caps (c :: cs) (key, rest)).1 := by rw [h]
        have hr : rest1 = rest := (congrArg Prod.snd h).symm
        subst hr
        refine ⟨?_, key, ?_, ?_⟩
        · rw [hp]
          have : 0 < pre.length := List.length_pos.mpr hpre
          simp only [List.length_append]; omega
        · rw [hc]; exact hf _ _
        · rw [hp] at hocc ⊢
          exact scan_occurrences_found occ pre rest1 key hpre hocc

theorem regex_match_all_scan (re : Regex) (n : Nat) (occ : Str → Option (Str × Str))
    (f : Caps → Option Str)
    (hat : ∀ inp, regex_match_at re n inp = (occ inp).map (key_caps inp))
    (hsuffix : ∀ inp key rest, occ inp = some (key, rest) →
      ∃ pre, pre ≠ [] ∧ inp = pre ++ rest)
    (hf : ∀ inp kr, f (key_caps inp kr).1 = some kr.1) :
    ∀ (fuel : Nat) (inp : Str), inp.length < fuel →
      (regex_match_all re n fuel inp).filterMap f = scan_occurrences occ 0 inp := by
  intro fuel
  induction fuel with
  | zero => intro inp h; exact absurd h (Nat.not_lt_zero _)
  | succ fuel ih =>
    intro inp hlen
    obtain ⟨h1, h2⟩ := regex_search_scan re n occ f hat hsuffix hf inp
    cases hs : regex_search re n inp with
    | none =>
      simp [regex_match_all, hs, h1 hs]
    | some cr =>
      obtain ⟨caps, rest⟩ := cr
      obtain ⟨hlt, key, hkey, hscan⟩ := h2 caps rest hs
      simp only [regex_match_all, hs, hlt, if_true, List.filterMap_cons, hkey, hscan]
      rw [ih rest (by omega)]

/-! ### The LaTeX scanners -/

theorem matches_at_split {str inp : Str} (h : matches_at str false inp = true) :
    inp = str ++ inp.drop str.length := by
  obtain ⟨t, ht⟩ := (matches_at_iff_isPrefix str inp).mp h
  subst ht
  simp

/-- An occurrence recognised by `braced_occurrence_at` is `cmd`, an opening
brace, white space, the key, white space and a closing brace, and conversely. -/
theorem braced_occurrence_at_iff (cmd inp key rest : Str) :
    braced_occurrence_at cmd inp = some (key, rest) ↔
      ∃ ws1 ws2 : Str, inp = cmd ++ '{' :: (ws1 ++ key ++ ws2 ++ '}' :: rest) ∧
        (∀ c ∈ ws1, is_space c = true) ∧ (∀ c ∈ ws2, is_space c = true) ∧
        (∀ c ∈ key, is_key_char c = true) := by
  unfold braced_occurrence_at
  constructor
  · intro h
    split at h
    · rename_i hm
      obtain ⟨ws1, ws2, h0, h1, h2, h3⟩ := braced_key_decomp is_key_char h
      refine ⟨ws1, ws2, ?_, h1, h2, h3⟩
      have := matches_at_split hm
      rw [List.length_append, List.length_singleton, h0] at this
      simpa using this
    · simp at h
  · rintro ⟨ws1, ws2, rfl, h1, h2, h3⟩
    have hm : matches_at (cmd ++ ['{']) false
        (cmd ++ '{' :: (ws1 ++ key ++ ws2 ++ '}' :: rest)) = true :=
      (matches_at_iff_isPrefix _ _).mpr ⟨ws1 ++ key ++ ws2 ++ '}' :: rest, by simp⟩
    rw [if_pos hm]
    have hd : (cmd ++ '{' :: (ws1 ++ key ++ ws2 ++ '}' :: rest)).drop (cmd.length + 1)
        = ws1 ++ key ++ ws2 ++ '}' :: rest := by
      rw [show cmd ++ '{' :: (ws1 ++ key ++ ws2 ++ '}' :: rest)
        = (cmd ++ ['{']) ++ (ws1 ++ key ++ ws2 ++ '}' :: rest) by simp]
      rw [show cmd.length + 1 = (cmd ++ ['{']).length by simp, List.drop_left]
    rw [hd]
    exact braced_key_of_decomp is_key_char is_key_char_spec h1 h2 h3

theorem braced_key_suffix {is_key : Char → Bool} {inp key rest : Str}
    (h : braced_key is_key inp = some (key, rest)) :
    ∃ pre, pre ≠ [] ∧ inp = pre ++ rest := by
  obtain ⟨ws1, ws2, h0, -, -, -⟩ := braced_key_decomp is_key h
  exact ⟨ws1 ++ key ++ ws2 ++ ['}'], by simp, by simp [h0]⟩

theorem braced_occurrence_at_suffix (cmd inp key rest : Str)
    (h : braced_occurrence_at cmd inp = some (key, rest)) :
    ∃ pre, pre ≠ [] ∧ inp = pre ++ rest := by
  obtain ⟨ws1, ws2, h0, -, -, -⟩ := (braced_occurrence_at_iff cmd inp key rest).mp h
  exact ⟨cmd ++ '{' :: (ws1 ++ key ++ ws2 ++ ['}']), by simp, by simp [h0]⟩

theorem fetch_all_key_caps (inp : Str) (kr : Str × Str) :
    (g_match_info_fetch_all (key_caps inp kr).1).get? 1 = some kr.1 := by
  simp [key_caps, g_match_info_fetch_all]

theorem scan_occurrences_mem {α : Type} (occ : Str → Option (α × Str)) (a : α) :
    ∀ (inp : Str) (skip : Nat), a ∈ scan_occurrences occ skip inp →
      ∃ s rest, occ s = some (a, rest) := by
  intro inp
  induction inp with
  | nil => intro skip h; simp [scan_occurrences] at h
  | cons c cs ih =>
    intro skip h
    cases skip with
    | succ k => exact ih k (by simpa [scan_occurrences] using h)
    | zero =>
      rw [scan_occurrences] at h
      split at h
      · rename_i b rest hocc
        rcases List.mem_cons.mp h with rfl | h
        · exact ⟨_, _, hocc⟩
        · exact ih _ h
      · exact ih _ h

theorem scan_braced (cmd content : Str) :
    (regex_match_all (.seq (.lit (cmd ++ ['{'])) (key_tail_regex is_key_char)) 1
        (content.length + 1) content).filterMap
        (fun caps => (g_match_info_fetch_all caps).get? 1)
      = scan_occurrences (braced_occurrence_at cmd) 0 content :=
  regex_match_all_scan _ 1 (braced_occurrence_at cmd) _ (braced_regex_match_at cmd)
    (braced_occurrence_at_suffix cmd) fetch_all_key_caps _ content (Nat.lt_succ_self _)

theorem is_key_char_no_brace (c : Char) (h : is_key_char c = true) :
    is_space c = false ∧ c ≠ '{' ∧ c ≠ '}' := by
  simp only [is_key_char, Bool.not_eq_true', Bool.or_eq_false_iff, beq_eq_false_iff_ne] at h
  exact ⟨h.2, h.1.1, h.1.2⟩

/-- C6. `scan_for_labels` adds one reference choice for each occurrence of
`\label{ key }` in the text, in document order and without overlap, the choice
being the key without the white space around it; `scan_for_bibitems` does the
same for `\bibitem{ key }`; no key added contains white space or a brace. -/
theorem scan_for_labels_occurrences (content : Str) :
    scan_for_labels content
      = scan_occurrences (braced_occurrence_at "\\label".toList) 0 content ∧
    scan_for_bibitems content
      = scan_occurrences (braced_occurrence_at "\\bibitem".toList) 0 content ∧
    (∀ key ∈ scan_for_labels content ++ scan_for_bibitems content,
      ∀ c ∈ key, is_space c = false ∧ c ≠ '{' ∧ c ≠ '}') := by
  have h1 : scan_for_labels content
      = scan_occurrences (braced_occurrence_at "\\label".toList) 0 content :=
    scan_braced "\\label".toList content
  have h2 : scan_for_bibitems content
      = scan_occurrences (braced_occurrence_at "\\bibitem".toList) 0 content :=
    scan_braced "\\bibitem".toList content
  refine ⟨h1, h2, ?_⟩
  intro key hkey c hc
  rw [h1, h2] at hkey
  rcases List.mem_append.mp hkey with h | h
  · obtain ⟨s, rest, hocc⟩ := scan_occurrences_mem _ key content 0 h
    obtain ⟨-, -, -, -, -, h3⟩ := (braced_occurrence_at_iff _ s key rest).mp hocc
    exact is_key_char_no_brace c (h3 c hc)
  · obtain ⟨s, rest, hocc⟩ := scan_occurrences_mem _ key content 0 h
    obtain ⟨-, -, -, -, -, h3⟩ := (braced_occurrence_at_iff _ s key rest).mp hocc
    exact is_key_char_no_brace c (h3 c hc)

/-- Witness of C6: a key with spaces around it, a key with no-break spaces
around it, and a key with a no-break space inside, which is no occurrence. -/
theorem scan_for_labels_occurrences_witness :
    scan_for_labels
        "\\label\x7b a \x7d x \\label\x7b\u00a0key\u00a0\x7d \\label\x7ba\u00a0b\x7d".toList
      = ["a".toList, "key".toList] ∧
    scan_for_bibitems "\\bibitem\x7b\u2003k1\x7d\\bibitem\x7bk2\n\x7d".toList
      = ["k1".toList, "k2".toList] :=
  ⟨(scan_for_labels_occurrences _).1.trans (by decide),
   (scan_for_labels_occurrences _).2.1.trans (by decide)⟩

/-- C7 fails on the code: for the definition `\newcommand{\foo}[x]`, which has
no `[n]` group, `scan_for_new_cmds` records `\foo` with `n_arg` 0 and the
optional-argument flag set, because `g_match_info_fetch_all` yields the empty
string, not `NULL`, for the unset group 2 in front of the set group 3. -/
theorem scan_for_new_cmds_flag_without_count :
    scan_for_new_cmds "\\newcommand\x7b\\foo\x7d[x]".toList none
      = some [{ name := "\\foo".toList, arg_names := none, n_arg := 0,
                optional := true, package := none }] := by
  decide

theorem braced_occurrence_at_cons (cmd t : Str) :
    braced_occurrence_at cmd (cmd ++ '{' :: t) = braced_key is_key_char t := by
  unfold braced_occurrence_at
  have hm : matches_at (cmd ++ ['{']) false (cmd ++ '{' :: t) = true :=
    (matches_at_iff_isPrefix _ _).mpr ⟨t, by simp⟩
  rw [if_pos hm]
  rw [show cmd ++ '{' :: t = (cmd ++ ['{']) ++ t by simp,
    show cmd.length + 1 = (cmd ++ ['{']).length by simp, List.drop_left]

theorem braced_occurrence_at_shape {cmd inp : Str} {kr : Str × Str}
    (h : braced_occurrence_at cmd inp = some kr) :
    ∃ t, inp = cmd ++ '{' :: t ∧ braced_key is_key_char t = some kr := by
  unfold braced_occurrence_at at h
  split at h
  · rename_i hm
    refine ⟨inp.drop (cmd.length + 1), ?_, h⟩
    have := matches_at_split hm
    rw [List.length_append, List.length_singleton] at this
    simpa using this
  · simp at h

/-- An occurrence recognised by `new_env_occurrence_at` is an occurrence of
`\newenvironment{ name }` or of `\newenvironment*{ name }`. -/
theorem new_env_occurrence_at_iff (inp : Str) (kr : Str × Str) :
    new_env_occurrence_at inp = some kr ↔
      (braced_occurrence_at "\\newenvironment".toList inp = some kr ∨
        braced_occurrence_at "\\newenvironment*".toList inp = some kr) := by
  constructor
  · intro h
    unfold new_env_occurrence_at at h
    split at h
    · rename_i hm
      have hsplit := matches_at_split hm
      split at h
      · rename_i s hd
        right
        rw [hsplit, hd]
        rw [show "\\newenvironment".toList ++ '*' :: '{' :: s
          = "\\newenvironment*".toList ++ '{' :: s by simp]
        rw [braced_occurrence_at_cons]; exact h
      · rename_i s hd
        left
        rw [hsplit, hd, braced_occurrence_at_cons]; exact h
      · simp at h
    · simp at h
  · rintro (h | h)
    · obtain ⟨t, rfl, ht⟩ := braced_occurrence_at_shape h
      simpa [new_env_occurrence_at, matches_at] using ht
    · obtain ⟨t, rfl, ht⟩ := braced_occurrence_at_shape h
      simpa [new_env_occurrence_at, matches_at] using ht

theorem new_env_occurrence_at_suffix (inp key rest : Str)
    (h : new_env_occurrence_at inp = some (key, rest)) :
    ∃ pre, pre ≠ [] ∧ inp = pre ++ rest := by
  rcases (new_env_occurrence_at_iff inp (key, rest)).mp h with h | h
  · exact braced_occurrence_at_suffix _ inp key rest h
  · exact braced_occurrence_at_suffix _ inp key rest h

theorem new_env_occurrence_at_none_of_head {c : Char} (cs : Str) (hc : c ≠ '\\') :
    new_env_occurrence_at (c :: cs) = none := by
  have : ¬ '\\' = c := fun h => hc h.symm
  simp [new_env_occurrence_at, matches_at, this]

theorem scan_new_env_no_backslash :
    ∀ (t : Str) (skip : Nat), '\\' ∉ t → scan_occurrences new_env_occurrence_at skip t = [] := by
  intro t
  induction t with
  | nil => intro skip _; cases skip <;> rfl
  | cons c cs ih =>
    intro skip h
    have hc : c ≠ '\\' := fun e => h (e ▸ List.mem_cons_self _ _)
    have hcs : '\\' ∉ cs := fun e => h (List.mem_cons_of_mem _ e)
    cases skip with
    | succ k => simpa [scan_occurrences] using ih k hcs
    | zero =>
      rw [scan_occurrences, new_env_occurrence_at_none_of_head cs hc]
      exact ih 0 hcs

/-- C8. `scan_for_new_envs` adds one environment for each occurrence of
`\newenvironment{ name }` or `\newenvironment*{ name }`, in document order and
without overlap, with the name free of white space and braces and the package
tag handed on as given (`NULL` in the scans run when a document is loaded or
saved); the pattern does not match at a `\renewenvironment`, and a text made of
one `\renewenvironment{name}` adds nothing. -/
theorem scan_for_new_envs_occurrences (content : Str) (package : Option Str) :
    scan_for_new_envs content package
      = (scan_occurrences new_env_occurrence_at 0 content).map
          (fun name => (name, package)) ∧
    (document_scans content).2.2.1 = scan_for_new_envs content none ∧
    (∀ name ∈ scan_occurrences new_env_occurrence_at 0 content,
      ∀ c ∈ name, is_space c = false ∧ c ≠ '{' ∧ c ≠ '}') ∧
    (∀ rest : Str,
      regex_match_at new_envs_regex 1 ("\\renewenvironment".toList ++ rest) = none) ∧
    (∀ name : Str, '\\' ∉ name →
      scan_for_new_envs ("\\renewenvironment\x7b".toList ++ name ++ "\x7d".toList) package
        = []) := by
  have hscan : ∀ text : Str, scan_for_new_envs text package
      = (scan_occurrences new_env_occurrence_at 0 text).map (fun name => (name, package)) := by
    intro text
    unfold scan_for_new_envs
    rw [← regex_match_all_scan new_envs_regex 1 new_env_occurrence_at
      (fun caps => (g_match_info_fetch_all caps).get? 1) new_envs_regex_match_at
      new_env_occurrence_at_suffix fetch_all_key_caps _ text (Nat.lt_succ_self _)]
    rw [List.map_filterMap]
  refine ⟨hscan content, rfl, ?_, ?_, ?_⟩
  · intro name hname c hc
    obtain ⟨s, rest, hocc⟩ := scan_occurrences_mem _ name content 0 hname
    rcases (new_env_occurrence_at_iff s (name, rest)).mp hocc with h | h
    · obtain ⟨-, -, -, -, -, h3⟩ := (braced_occurrence_at_iff _ s name rest).mp h
      exact is_key_char_no_brace c (h3 c hc)
    · obtain ⟨-, -, -, -, -, h3⟩ := (braced_occurrence_at_iff _ s name rest).mp h
      exact is_key_char_no_brace c (h3 c hc)
  · intro rest
    rw [new_envs_regex_match_at]
    simp [new_env_occurrence_at, matches_at]
  · intro name hname
    rw [hscan]
    have hno : '\\' ∉ "renewenvironment\x7b".toList ++ name ++ "\x7d".toList := by
      simp only [List.mem_append, not_or]
      exact ⟨⟨by decide, hname⟩, by decide⟩
    have h0 : new_env_occurrence_at
        ('\\' :: ("renewenvironment\x7b".toList ++ name ++ "\x7d".toList)) = none := by
      simp [new_env_occurrence_at, matches_at]
    have : "\\renewenvironment\x7b".toList ++ name ++ "\x7d".toList
        = '\\' :: ("renewenvironment\x7b".toList ++ name ++ "\x7d".toList) := by simp
    rw [this, scan_occurrences, h0]
    simp only
    rw [scan_new_env_no_backslash _ 0 hno]
    rfl

/-- Witness of C8: two definitions, one of them starred, a `\renewenvironment`
and a name with a no-break space inside, which is no occurrence. -/
theorem scan_for_new_envs_occurrences_witness :
    scan_for_new_envs
        ("\\newenvironment\x7bfoo\x7d \\newenvironment*\x7b bar\u00a0\x7d ".toList
          ++ "\\renewenvironment\x7bbaz\x7d \\newenvironment\x7ba\u00a0b\x7d".toList)
        (some "pkg".toList)
      = [("foo".toList, some "pkg".toList), ("bar".toList, some "pkg".toList)] ∧
    scan_for_new_envs "\\renewenvironment\x7bfoo\x7d".toList none = [] :=
  ⟨(scan_for_new_envs_occurrences _ (some "pkg".toList)).1.trans (by decide),
   (scan_for_new_envs_occurrences [] none).2.2.2.2 "foo".toList (by decide)⟩

/-! ### Text styles -/

theorem style_regex_matches_decomp {o c inp rest : Str} {caps caps1 : Caps}
    (h : Regex.Matches (style_regex o c) inp caps rest caps1) :
    ∃ g1 g2 g3, inp = g1 ++ o ++ g2 ++ c ++ g3 ++ rest := by
  have hre : style_regex o c = .seq (.group 1 (.star is_any)) (.seq (.lit o)
      (.seq (.group 2 (.star is_any)) (.seq (.lit c) (.group 3 (.star is_any))))) := rfl
  rw [hre] at h
  cases h with
  | seq ha hb =>
    cases ha with
    | group _ h1 =>
      cases h1 with
      | star _ g1 _ _ _ =>
        cases hb with
        | seq ho hb2 =>
          cases ho with
          | lit _ _ _ =>
            cases hb2 with
            | seq h2 hb3 =>
              cases h2 with
              | group _ h2 =>
                cases h2 with
                | star _ g2 _ _ _ =>
                  cases hb3 with
                  | seq hc h3 =>
                    cases hc with
                    | lit _ _ _ =>
                      cases h3 with
                      | group _ h3 =>
                        cases h3 with
                        | star _ g3 _ _ _ =>
                          exact ⟨g1, g2, g3, by simp⟩

theorem regex_search_none_of_suffixes (re : Regex) (n : Nat) :
    ∀ inp : Str, (∀ pre s, inp = pre ++ s → regex_match_at re n s = none) →
      regex_search re n inp = none := by
  intro inp
  induction inp with
  | nil => intro h; simpa [regex_search] using h [] [] rfl
  | cons x xs ih =>
    intro h
    rw [regex_search, h [] (x :: xs) rfl]
    exact ih (fun pre s hs => h (x :: pre) s (by simp [hs]))

/-- A text in which no opening string is followed by a closing string is
wrapped: `outtext` is the opening string, the text and the closing string. -/
theorem textstyle_outtext_unstyled (o c T : Str)
    (hT : ¬ ∃ a b d : Str, T = a ++ o ++ b ++ c ++ d) :
    textstyle_outtext o c T = o ++ T ++ c := by
  have hnone : regex_search (style_regex o c) 3 T = none := by
    apply regex_search_none_of_suffixes
    intro pre s hs
    cases hm : regex_match_at (style_regex o c) 3 s with
    | none => rfl
    | some r =>
      obtain ⟨rest, caps1, hmatch, -⟩ := Regex.run_sound _ _ _ _ _ hm
      obtain ⟨g1, g2, g3, hdec⟩ := style_regex_matches_decomp hmatch
      exact absurd ⟨pre ++ g1, g2, g3 ++ rest, by rw [hs, hdec]; simp⟩ hT
  simp [textstyle_outtext, hnone]

theorem style_well_separated :
    ∀ e ∈ style, well_separated e.2.1 e.2.2 = true := by
  decide

theorem star_run_any_first (k : Str → Caps → Option (Caps × Str)) (caps : Caps)
    (v : Caps × Str) :
    ∀ (w rest : Str), k rest caps = some v →
      (∀ w1 rest1, w1 ++ rest1 = w ++ rest → w.length < w1.length → k rest1 caps = none) →
      star_run is_any k (w ++ rest) caps = some v := by
  intro w
  induction w with
  | nil =>
    intro rest hk hlong
    cases rest with
    | nil => simpa [star_run] using hk
    | cons x xs =>
      have hnone : star_run is_any k xs caps = none := by
        cases hs : star_run is_any k xs caps with
        | none => rfl
        | some r =>
          obtain ⟨w2, rest2, h1, -, h3⟩ := star_run_sound is_any k xs caps r hs
          have := hlong (x :: w2) rest2 (by simp [h1]) (by simp)
          rw [this] at h3
          simp at h3
      simp only [List.nil_append, star_run, is_any, if_true, hnone]
      exact hk
  | cons x xs ih =>
    intro rest hk hlong
    have := ih rest hk (fun w1 rest1 h1 h2 =>
      hlong (x :: w1) rest1 (by simp [h1]) (by simp only [List.length_cons]; omega))
    rw [show (x :: xs) ++ rest = x :: (xs ++ rest) from rfl, star_run]
    simp only [is_any, if_true, this]

theorem opening_only_at_start {o c T : Str} (hw : well_separated o c = true)
    (hT : ¬ o <:+: T) :
    ∀ w r : Str, w ≠ [] → w ++ (o ++ r) ≠ o ++ (T ++ c) := by
  rcases o with _ | ⟨h, tl⟩
  · simp [well_separated] at hw
  rcases c with _ | ⟨c0, cl⟩
  · simp [well_separated] at hw
  simp only [well_separated, Bool.and_eq_true, Bool.not_eq_true', decide_eq_true_eq] at hw
  obtain ⟨⟨hh, hc0⟩, hlen⟩ := hw
  have hh2 : h ∉ tl := by simpa using hh
  have hc2 : c0 ∉ tl := by simpa using hc0
  -- an occurrence of the opening string inside `T ++ c`
  have stage2 : ∀ w2 r : Str, w2 ++ ((h :: tl) ++ r) ≠ T ++ (c0 :: cl) := by
    intro w2 r heq
    rcases List.append_eq_append_iff.mp heq with ⟨a, hTa, hor⟩ | ⟨b, hw2, hc⟩
    · rcases List.append_eq_append_iff.mp hor with ⟨x, ha, -⟩ | ⟨y, ho, hcy⟩
      · exact hT ⟨w2, x, by rw [hTa, ha]; simp⟩
      · rcases y with _ | ⟨y0, ys⟩
        · rw [List.append_nil] at ho
          exact hT ⟨w2, [], by rw [hTa, ← ho]; simp⟩
        · have hy0 : c0 = y0 := by
            have := congrArg List.head? hcy
            simpa using this
          rcases a with _ | ⟨a0, as⟩
          · have h1 := congrArg List.length ho
            have h2 := congrArg List.length hcy
            simp at h1 h2
            omega
          · have htl : tl = as ++ y0 :: ys := by
              have := congrArg List.tail ho
              simpa using this
            exact hc2 (by rw [htl, hy0]; simp)
    · have := congrArg List.length hc
      simp at this
      omega
  intro w r hwne heq
  rcases List.append_eq_append_iff.mp heq with ⟨a, ho, hor⟩ | ⟨b, hwb, hc⟩
  · rcases w with _ | ⟨w0, ws⟩
    · exact hwne rfl
    · have htl : tl = ws ++ a := by
        have := congrArg List.tail ho
        simpa using this
      rcases a with _ | ⟨a0, as⟩
      · exact stage2 [] r (by simpa using hor)
      · have ha0 : h = a0 := by
          have := congrArg List.head? hor
          simpa using this
        exact hh2 (by rw [htl, ha0]; simp)
  · exact stage2 b r hc.symm

theorem Regex.run_group (n : Nat) (a : Regex) (inp : Str) (caps : Caps)
    (k : Str → Caps → Option (Caps × Str)) :
    (Regex.group n a).run inp caps k
      = a.run inp caps (fun inp1 caps1 =>
          k inp1 (caps1.set n (some (inp.take (inp.length - inp1.length))))) :=
  rfl

theorem Regex.run_star (p : Char → Bool) (inp : Str) (caps : Caps)
    (k : Str → Caps → Option (Caps × Str)) :
    (Regex.star p).run inp caps k = star_run p k inp caps :=
  rfl

theorem matches_at_of_shorter {str s : Str} (h : s.length < str.length) :
    matches_at str false s = false := by
  cases hm : matches_at str false s with
  | false => rfl
  | true =>
    obtain ⟨t, ht⟩ := (matches_at_iff_isPrefix str s).mp hm
    have := congrArg List.length ht
    simp at this
    omega

theorem matches_at_append (str t : Str) : matches_at str false (str ++ t) = true :=
  (matches_at_iff_isPrefix str _).mpr ⟨t, rfl⟩

theorem star_run_any_start (k : Str → Caps → Option (Caps × Str)) (caps : Caps)
    (v : Caps × Str) (inp : Str) (hk : k inp caps = some v)
    (hlong : ∀ w1 rest1, w1 ++ rest1 = inp → w1 ≠ [] → k rest1 caps = none) :
    star_run is_any k inp caps = some v :=
  star_run_any_first k caps v [] inp hk (fun w1 rest1 h1 h2 =>
    hlong w1 rest1 h1 (by intro h; rw [h] at h2; simp at h2))

/-- The pattern of a style, matched against a text that carries the style as a
whole: group 1 and group 3 are empty and group 2 is the text inside. -/
theorem style_regex_match_styled (o c T : Str) (hw : well_separated o c = true)
    (hT : ¬ o <:+: T) :
    regex_match_at (style_regex o c) 3 (o ++ (T ++ c))
      = some ([some (o ++ (T ++ c)), some [], some T, some []], []) := by
  have hre : style_regex o c = .seq (.group 1 (.star is_any)) (.seq (.lit o)
      (.seq (.group 2 (.star is_any)) (.seq (.lit c) (.group 3 (.star is_any))))) := rfl
  rw [hre]
  unfold regex_match_at
  simp only [Regex.run_seq, Regex.run_group, Regex.run_star, Regex.run_lit]
  apply star_run_any_start
  · rw [if_pos (matches_at_append o _), List.drop_left]
    apply star_run_any_first
    · have hc : matches_at c false c = true := by
        simpa using matches_at_append c []
      rw [if_pos hc]
      simp [star_run]
    · intro w1 rest1 hsplit hlen
      have : rest1.length < c.length := by
        have := congrArg List.length hsplit
        simp at this
        omega
      rw [matches_at_of_shorter this]
      simp
  · intro w1 rest1 hsplit hw1
    have hno : matches_at o false rest1 = false := by
      cases hm : matches_at o false rest1 with
      | false => rfl
      | true =>
        obtain ⟨r, hr⟩ := (matches_at_iff_isPrefix o rest1).mp hm
        rw [← hr] at hsplit
        exact absurd hsplit (opening_only_at_start hw hT w1 r hw1)
    rw [hno]
    simp

/-- A text that carries the style as a whole, with no further opening string
inside, loses it: `outtext` is the text between the opening and the closing
string. -/
theorem textstyle_outtext_styled (o c T : Str) (hw : well_separated o c = true)
    (hT : ¬ o <:+: T) :
    textstyle_outtext o c (o ++ (T ++ c)) = T := by
  have hne : ∃ x xs, o ++ (T ++ c) = x :: xs := by
    rcases o with _ | ⟨h, tl⟩
    · simp [well_separated] at hw
    · exact ⟨h, _, rfl⟩
  obtain ⟨x, xs, hx⟩ := hne
  have hs : regex_search (style_regex o c) 3 (o ++ (T ++ c))
      = some ([some (o ++ (T ++ c)), some [], some T, some []], []) := by
    have := style_regex_match_styled o c T hw hT
    rw [hx] at this ⊢
    rw [regex_search, this]
  simp [textstyle_outtext, hs, g_match_info_fetch_all, strlen]

theorem buffer_slice_split (text : Str) {s e : Nat} (hse : s ≤ e) :
    text = text.take s ++ buffer_slice text s e ++ text.drop e := by
  unfold buffer_slice
  have h1 : (text.drop s).drop (e - s) = text.drop e := by
    rw [List.drop_drop]; congr 1; omega
  rw [List.append_assoc, ← h1, List.take_append_drop, List.take_append_drop]

theorem buffer_slice_mid (pre mid post : Str) :
    buffer_slice (pre ++ mid ++ post) pre.length (pre.length + mid.length) = mid := by
  unfold buffer_slice
  rw [List.append_assoc, List.drop_left]
  simp

theorem strlen_append (a b : Str) : strlen (a ++ b) = strlen a + strlen b := by
  simp [strlen, List.map_append, List.sum_append]

theorem strlen_eq_length {s : Str} (h : ∀ ch ∈ s, ch.utf8Size = 1) :
    strlen s = s.length := by
  induction s with
  | nil => rfl
  | cons x xs ih =>
    have hx := h x (List.mem_cons_self _ _)
    have := ih (fun ch hch => h ch (List.mem_cons_of_mem _ hch))
    simp only [strlen, List.map_cons, List.sum_cons, List.length_cons] at this ⊢
    omega

theorem select_style_mem (type : Str) : ∃ e ∈ style, select_style type = e.2 := by
  unfold select_style
  split
  · rename_i e he
    exact ⟨e, List.mem_of_find?_eq_some he, rfl⟩
  · exact ⟨_, List.mem_cons_self _ _, rfl⟩

theorem style_single_bytes :
    ∀ e ∈ style, strlen e.2.1 = e.2.1.length ∧ strlen e.2.2 = e.2.2.length := by
  decide

/-- The buffer and the marks after `editor_set_selection_textstyle`, for marks
inside the buffer: the selected text is replaced by `outtext`, the mark
`selection_bound` stands behind it and the mark `insert` stands
`strlen (outtext)` characters before that. -/
theorem editor_set_selection_textstyle_buffer (ec : GuEditor) (type : Str)
    (hi : ec.insert ≤ ec.text.length) (hb : ec.selection_bound ≤ ec.text.length) :
    let s := min ec.insert ec.selection_bound
    let e := max ec.insert ec.selection_bound
    let out := textstyle_outtext (select_style type).1 (select_style type).2 (selected_text ec)
    let ec1 := editor_set_selection_textstyle ec type
    ec1.text = ec.text.take s ++ out ++ ec.text.drop e ∧
    ec1.selection_bound = s + out.length ∧
    ec1.insert = s + out.length - strlen out := by
  intro s e out ec1
  have hs : s ≤ ec.text.length := by simp only [s]; omega
  have hlen : (ec.text.take s).length = s := by simp [hs]
  have htake : (ec.text.take s ++ ec.text.drop e).take s = ec.text.take s := by
    conv_lhs => rw [← hlen]
    rw [hlen]
    exact List.take_left' hlen
  have hdrop : (ec.text.take s ++ ec.text.drop e).drop s = ec.text.drop e :=
    List.drop_left' hlen
  refine ⟨?_, rfl, rfl⟩
  show (ec.text.take s ++ ec.text.drop e).take s ++ out
    ++ (ec.text.take s ++ ec.text.drop e).drop s = _
  rw [htake, hdrop]

theorem buffer_slice_inserted (text : Str) (s e : Nat) (hs : s ≤ text.length) (out : Str) :
    buffer_slice (text.take s ++ out ++ text.drop e) s (s + out.length) = out := by
  have hlen : (text.take s).length = s := by simp [hs]
  have := buffer_slice_mid (text.take s) out (text.drop e)
  rwa [hlen] at this

theorem buffer_slice_length_self (text : Str) (s e : Nat) (hse : s ≤ e)
    (he : e ≤ text.length) :
    buffer_slice text s (s + (buffer_slice text s e).length) = buffer_slice text s e := by
  have := buffer_slice_inserted text s e (by omega) (buffer_slice text s e)
  rwa [← buffer_slice_split text hse] at this

theorem editor_set_selection_textstyle_wraps_core (ec : GuEditor) (type : Str)
    (s e : Nat) (o c T out : Str)
    (hsdef : s = min ec.insert ec.selection_bound)
    (hedef : e = max ec.insert ec.selection_bound)
    (hst : select_style type = (o, c)) (hTdef : T = buffer_slice ec.text s e)
    (hout : out = o ++ T ++ c)
    (hi : ec.insert ≤ ec.text.length) (hb : ec.selection_bound ≤ ec.text.length)
    (hT : ¬ ∃ a b d : Str, T = a ++ o ++ b ++ c ++ d) :
    (editor_set_selection_textstyle ec type).text = ec.text.take s ++ out ++ ec.text.drop e ∧
    (editor_set_selection_textstyle ec type).selection_bound = s + out.length ∧
    (editor_set_selection_textstyle ec type).insert = s + out.length - strlen out ∧
    ((∀ ch ∈ T, ch.utf8Size = 1) →
      (editor_set_selection_textstyle ec type).insert = s ∧
      selected_text (editor_set_selection_textstyle ec type) = out) := by
  obtain ⟨h1, h2, h3⟩ := editor_set_selection_textstyle_buffer ec type hi hb
  have hsel : selected_text ec = T := by rw [hTdef, hsdef, hedef]; rfl
  simp only [hst, hsel, textstyle_outtext_unstyled _ _ _ hT, ← hsdef, ← hedef, ← hout]
    at h1 h2 h3
  refine ⟨h1, h2, h3, ?_⟩
  intro hbytes
  obtain ⟨en, hen, hsel2⟩ := select_style_mem type
  obtain ⟨ho, hc⟩ := style_single_bytes en hen
  rw [← hsel2, hst] at ho hc
  have hstr : strlen out = out.length := by
    simp only [hout, strlen_append, ho, hc, strlen_eq_length hbytes, List.length_append]
  have hs : s ≤ ec.text.length := by omega
  have hins : (editor_set_selection_textstyle ec type).insert = s := by
    rw [h3, hstr]; omega
  refine ⟨hins, ?_⟩
  unfold selected_text
  rw [hins, h2, h1, Nat.min_eq_left (Nat.le_add_right _ _),
    Nat.max_eq_right (Nat.le_add_right _ _)]
  exact buffer_slice_inserted _ _ _ hs _

/-- Apart from the count of bytes: when no opening string of the style is
followed by its closing string in the selected text `T`, the selection is
replaced by `open ++ T ++ close`; the new selection ends behind the inserted
text and starts `strlen` characters before its end, which is the start of the
inserted text whenever every character of `T` is encoded in one byte. -/
theorem editor_set_selection_textstyle_wraps (ec : GuEditor) (type : Str)
    (hi : ec.insert ≤ ec.text.length) (hb : ec.selection_bound ≤ ec.text.length)
    (hT : ¬ ∃ a b d : Str, selected_text ec
      = a ++ (select_style type).1 ++ b ++ (select_style type).2 ++ d) :
    let s := min ec.insert ec.selection_bound
    let e := max ec.insert ec.selection_bound
    let out := (select_style type).1 ++ selected_text ec ++ (select_style type).2
    let ec1 := editor_set_selection_textstyle ec type
    ec1.text = ec.text.take s ++ out ++ ec.text.drop e ∧
    ec1.selection_bound = s + out.length ∧
    ec1.insert = s + out.length - strlen out ∧
    ((∀ ch ∈ selected_text ec, ch.utf8Size = 1) →
      ec1.insert = s ∧ selected_text ec1 = out) :=
  editor_set_selection_textstyle_wraps_core ec type _ _ _ _ _ _ rfl rfl rfl rfl rfl hi hb hT

theorem editor_set_selection_textstyle_twice_core (ec : GuEditor) (type : Str)
    (s e : Nat) (o c T : Str)
    (hsdef : s = min ec.insert ec.selection_bound)
    (hedef : e = max ec.insert ec.selection_bound)
    (hst : select_style type = (o, c)) (hTdef : T = buffer_slice ec.text s e)
    (hi : ec.insert ≤ ec.text.length) (hb : ec.selection_bound ≤ ec.text.length)
    (hT : ¬ o <:+: T) (hbytes : ∀ ch ∈ T, ch.utf8Size = 1) :
    (editor_set_selection_textstyle ec type).text
      = ec.text.take s ++ (o ++ T ++ c) ++ ec.text.drop e ∧
    (editor_set_selection_textstyle (editor_set_selection_textstyle ec type) type).text
      = ec.text ∧
    selected_text (editor_set_selection_textstyle (editor_set_selection_textstyle ec type) type)
      = T := by
  have hun : ¬ ∃ a b d : Str, T = a ++ o ++ b ++ c ++ d := by
    rintro ⟨a, b, d, h⟩
    exact hT ⟨a, b ++ c ++ d, by rw [h]; simp⟩
  obtain ⟨h1, h2, -, h4⟩ := editor_set_selection_textstyle_wraps_core ec type s e o c T _
    hsdef hedef hst hTdef rfl hi hb hun
  obtain ⟨hins, hsel⟩ := h4 hbytes
  refine ⟨h1, ?_⟩
  obtain ⟨en, hen, hst2⟩ := select_style_mem type
  have hw : well_separated o c = true := by
    have := style_well_separated en hen
    rwa [← hst2, hst] at this
  have hs : s ≤ ec.text.length := by omega
  have hse : s ≤ e := by omega
  have he : e ≤ ec.text.length := by omega
  have hlen : (ec.text.take s).length = s := by simp [hs]
  generalize editor_set_selection_textstyle ec type = ec1 at h1 h2 hins hsel ⊢
  have hi1 : ec1.insert ≤ ec1.text.length := by
    rw [hins, h1]; simp only [List.length_append, hlen]; omega
  have hb1 : ec1.selection_bound ≤ ec1.text.length := by
    rw [h2, h1]; simp only [List.length_append, hlen]; omega
  obtain ⟨k1, k2, k3⟩ := editor_set_selection_textstyle_buffer ec1 type hi1 hb1
  have hmin : min ec1.insert ec1.selection_bound = s := by rw [hins, h2]; omega
  have hmax : max ec1.insert ec1.selection_bound = s + (o ++ T ++ c).length := by
    rw [hins, h2]; omega
  have hout2 : textstyle_outtext o c (o ++ T ++ c) = T := by
    rw [List.append_assoc]; exact textstyle_outtext_styled o c T hw hT
  simp only [hst, hsel, hout2, hmin, hmax] at k1 k2 k3
  generalize editor_set_selection_textstyle ec1 type = ec2 at k1 k2 k3 ⊢
  have htext2 : ec2.text = ec.text := by
    rw [k1, h1]
    have e1 : List.take s (ec.text.take s ++ (o ++ T ++ c) ++ ec.text.drop e)
        = ec.text.take s := by
      rw [List.append_assoc]; exact List.take_left' hlen
    have e2 : List.drop (s + (o ++ T ++ c).length)
        (ec.text.take s ++ (o ++ T ++ c) ++ ec.text.drop e) = ec.text.drop e := by
      apply List.drop_left'
      simp only [List.length_append, hlen]
    rw [e1, e2, hTdef]
    exact (buffer_slice_split ec.text hse).symm
  refine ⟨htext2, ?_⟩
  have hins2 : ec2.insert = s := by
    rw [k3, strlen_eq_length hbytes]; omega
  unfold selected_text
  rw [htext2, hins2, k2, Nat.min_eq_left (Nat.le_add_right _ _),
    Nat.max_eq_right (Nat.le_add_right _ _), hTdef]
  exact buffer_slice_length_self ec.text s e hse he

/-- Apart from the count of bytes: when the selected text `T` does not contain
the opening string of the style and every character of `T` is encoded in one
byte, two calls with the same type restore the buffer and the selection. -/
theorem editor_set_selection_textstyle_twice (ec : GuEditor) (type : Str)
    (hi : ec.insert ≤ ec.text.length) (hb : ec.selection_bound ≤ ec.text.length)
    (hT : ¬ (select_style type).1 <:+: selected_text ec)
    (hbytes : ∀ ch ∈ selected_text ec, ch.utf8Size = 1) :
    let ec1 := editor_set_selection_textstyle ec type
    let ec2 := editor_set_selection_textstyle ec1 type
    ec1.text = ec.text.take (min ec.insert ec.selection_bound)
      ++ ((select_style type).1 ++ selected_text ec ++ (select_style type).2)
      ++ ec.text.drop (max ec.insert ec.selection_bound) ∧
    ec2.text = ec.text ∧ selected_text ec2 = selected_text ec :=
  editor_set_selection_textstyle_twice_core ec type _ _ _ _ _ rfl rfl rfl rfl hi hb hT hbytes

/-- C9 fails on the code: in the buffer `xéy` with `é` selected, two calls with
`tool_bold` leave `\textbf{xé}y`, not `xéy`.  The first call selects one
character too many (`strlen` counts the two bytes of `é`), so the second call
finds `x` in front of the styled text and styles the whole selection again. -/
theorem editor_set_selection_textstyle_twice_non_ascii :
    let ec : GuEditor := { editor_new "xéy".toList with insert := 1, selection_bound := 2 }
    let ec1 := editor_set_selection_textstyle ec "tool_bold".toList
    let ec2 := editor_set_selection_textstyle ec1 "tool_bold".toList
    selected_text ec = "é".toList ∧
    ec1.text = "x\\textbf\x7bé\x7dy".toList ∧
    selected_text ec1 = "x\\textbf\x7bé\x7d".toList ∧
    ec2.text = "\\textbf\x7bxé\x7dy".toList := by
  decide

/-- C10 fails on the code: in the buffer `xéy` with `é` selected, `tool_bold`
inserts the ten characters `\textbf{é}` at offsets 1 to 11, but the new
selection runs from offset 0 to offset 11: `strlen (outtext)` is 11, the number
of bytes, and the start of the selection is moved back by that many
characters. -/
theorem editor_set_selection_textstyle_selection_non_ascii :
    let ec : GuEditor := { editor_new "xéy".toList with insert := 1, selection_bound := 2 }
    let ec1 := editor_set_selection_textstyle ec "tool_bold".toList
    ec1.text = "x".toList ++ "\\textbf\x7bé\x7d".toList ++ "y".toList ∧
    "\\textbf\x7bé\x7d".toList.length = 10 ∧
    strlen "\\textbf\x7bé\x7d".toList = 11 ∧
    (ec1.insert, ec1.selection_bound) = (0, 11) := by
  decide


/-! ### Colours of the search tags -/

theorem ABS_eq_abs (x : ℚ) : ABS x = |x| := by
  unfold ABS
  split
  · rename_i h; rw [abs_of_neg h]
  · rename_i h; rw [abs_of_nonneg (not_lt.mp h)]

theorem gdk_rgba_luminance_black : gdk_rgba_luminance black = 0 := by
  simp [gdk_rgba_luminance, black]

theorem gdk_rgba_luminance_white : gdk_rgba_luminance white = 1 := by
  simp [gdk_rgba_luminance, white]; norm_num

/-- Whenever the style has no background that parses, the colour handed to
`g_object_set` for the background is the colour of `defaultBG`: as a string
under the name `background` when the style has a foreground, as a `GdkRGBA`
under the name `background-gdk` otherwise. -/
theorem set_style_fg_bg_background_value (gdk : Gdk) (scheme : Option GtkSourceStyleScheme)
    (styleName defaultBG : Str) (b : GdkRGBA)
    (hb : gdk.gdk_rgba_parse defaultBG = some b)
    (hno : ∀ sch style, scheme = some sch → sch styleName = some style →
      style.background_set = true → style.background.bind gdk.gdk_rgba_parse = none) :
    ∃ fgp, set_style_fg_bg gdk scheme styleName defaultBG
        = some [fgp, ("background".toList, .string (gdk.gdk_rgba_to_string b))] ∨
      set_style_fg_bg gdk scheme styleName defaultBG
        = some [fgp, ("background-gdk".toList, .rgba b)] := by
  have hdef : set_style_fg_bg_return_defaults gdk defaultBG
      = some [("foreground-gdk".toList, .rgba (contrast_color b)),
              ("background-gdk".toList, .rgba b)] := by
    simp [set_style_fg_bg_return_defaults, hb]
  cases scheme with
  | none =>
    exact ⟨("foreground-gdk".toList, .rgba (contrast_color b)),
      Or.inr (by simp [set_style_fg_bg, hdef])⟩
  | some sch =>
    cases hst : sch styleName with
    | none =>
      exact ⟨("foreground-gdk".toList, .rgba (contrast_color b)),
        Or.inr (by simp [set_style_fg_bg, hst, hdef])⟩
    | some style =>
      have hbg : (if style.background_set then style.background.bind gdk.gdk_rgba_parse
          else none) = none := by
        by_cases h : style.background_set = true
        · simp [h, hno sch style rfl hst h]
        · simp [h]
      cases hfg : (if style.foreground_set then style.foreground.bind gdk.gdk_rgba_parse
          else none) with
      | none =>
        exact ⟨("foreground-gdk".toList, .rgba (contrast_color b)),
          Or.inr (by simp [set_style_fg_bg, hst, hbg, hfg, hdef])⟩
      | some f =>
        exact ⟨("foreground".toList, .string (gdk.gdk_rgba_to_string
            (if ABS (gdk_rgba_luminance f - gdk_rgba_luminance b) < 1 / 2
              then contrast_color b else f))),
          Or.inl (by simp [set_style_fg_bg, hst, hbg, hfg, hb])⟩

/-- C11 fails on the code: without a style scheme and with `defaultBG` the
colour `yellow`, `set_style_fg_bg` hands pointers to `GdkRGBA` colours to the
properties `foreground-gdk` and `background-gdk`, which take a `GdkColor`; the
tag does not get the background `yellow`.  The branch for a style with a
foreground only sets the string properties `foreground` and `background`. -/
theorem set_style_fg_bg_defaults_wrong_type :
    set_style_fg_bg test_gdk none "search-match".toList "yellow".toList
      = some [("foreground-gdk".toList, .rgba black),
              ("background-gdk".toList,
                .rgba { red := 1, green := 1, blue := 0, alpha := 1 })] ∧
    (set_style_fg_bg test_gdk none "search-match".toList "yellow".toList).bind
      (g_object_set test_gdk { foreground := none, background := none }) = none ∧
    g_object_set test_gdk { foreground := none, background := none }
      [("foreground".toList, .string "yellow".toList),
       ("background".toList, .string "yellow".toList)]
      = some { foreground := some { red := 1, green := 1, blue := 0, alpha := 1 },
               background := some { red := 1, green := 1, blue := 0, alpha := 1 } } := by
  have hlum : gdk_rgba_luminance { red := 1, green := 1, blue := 0, alpha := 1 } > 1 / 2 := by
    simp [gdk_rgba_luminance]; norm_num
  have h1 : set_style_fg_bg test_gdk none "search-match".toList "yellow".toList
      = some [("foreground-gdk".toList, .rgba black),
              ("background-gdk".toList,
                .rgba { red := 1, green := 1, blue := 0, alpha := 1 })] := by
    have hcc : contrast_color { red := 1, green := 1, blue := 0, alpha := 1 } = black := by
      unfold contrast_color
      rw [if_pos hlum]
    simp [set_style_fg_bg, set_style_fg_bg_return_defaults, test_gdk, hcc]
  refine ⟨h1, ?_, ?_⟩
  · rw [h1]
    simp [g_object_set, gtk_text_tag_set_property]
  · simp [g_object_set, gtk_text_tag_set_property, test_gdk]

theorem contrast_color_farther (b : GdkRGBA) :
    |gdk_rgba_luminance (contrast_color b) - gdk_rgba_luminance b|
      ≥ |gdk_rgba_luminance (if gdk_rgba_luminance b > 1 / 2 then white else black)
          - gdk_rgba_luminance b| := by
  unfold contrast_color
  by_cases h : gdk_rgba_luminance b > 1 / 2
  · simp only [h, if_true, gdk_rgba_luminance_black, gdk_rgba_luminance_white]
    rw [ge_iff_le, abs_le]
    have : |0 - gdk_rgba_luminance b| = gdk_rgba_luminance b := by
      rw [zero_sub, abs_neg, abs_of_pos (by linarith)]
    rw [this]
    constructor <;> linarith
  · simp only [h, if_false, gdk_rgba_luminance_black, gdk_rgba_luminance_white]
    have h2 : gdk_rgba_luminance b ≤ 1 / 2 := not_lt.mp h
    have : |1 - gdk_rgba_luminance b| = 1 - gdk_rgba_luminance b := by
      rw [abs_of_pos (by linarith)]
    rw [this, ge_iff_le, abs_le]
    constructor <;> linarith

/-- C12. For a style that defines a foreground that parses and no background
that parses, and a `defaultBG` that parses: when the luminances of the
foreground and of `defaultBG` differ by less than one half, the foreground
handed to the object is black for a background luminance above one half and
white otherwise, and that colour differs in luminance from the background at
least as much as the other of the two; when they differ by one half or more
the foreground of the style is handed on.  The background handed on is
`defaultBG`. -/
theorem set_style_fg_bg_foreground_only (gdk : Gdk) (scheme : GtkSourceStyleScheme)
    (styleName defaultBG : Str) (style : GtkSourceStyle) (f b : GdkRGBA)
    (hst : scheme styleName = some style)
    (hfs : style.foreground_set = true)
    (hf : style.foreground.bind gdk.gdk_rgba_parse = some f)
    (hbg : style.background_set = false ∨ style.background.bind gdk.gdk_rgba_parse = none)
    (hb : gdk.gdk_rgba_parse defaultBG = some b) :
    let chosen := if gdk_rgba_luminance b > 1 / 2 then black else white
    let other := if gdk_rgba_luminance b > 1 / 2 then white else black
    set_style_fg_bg gdk (some scheme) styleName defaultBG
      = some [("foreground".toList, .string (gdk.gdk_rgba_to_string
                (if |gdk_rgba_luminance f - gdk_rgba_luminance b| < 1 / 2 then chosen else f))),
              ("background".toList, .string (gdk.gdk_rgba_to_string b))] ∧
    |gdk_rgba_luminance chosen - gdk_rgba_luminance b|
      ≥ |gdk_rgba_luminance other - gdk_rgba_luminance b| := by
  intro chosen other
  refine ⟨?_, contrast_color_farther b⟩
  have hbg2 : (if style.background_set then style.background.bind gdk.gdk_rgba_parse
      else none) = none := by
    rcases hbg with h | h
    · simp [h]
    · simp [h]
  have hfg2 : (if style.foreground_set then style.foreground.bind gdk.gdk_rgba_parse
      else none) = some f := by
    simp [hfs, hf]
  simp only [set_style_fg_bg, hst, hbg2, hfg2, hb, ABS_eq_abs]
  rfl

/-- Witness of C12: an orange foreground on the default background yellow is
replaced by black. -/
theorem set_style_fg_bg_foreground_only_witness :
    set_style_fg_bg test_gdk
      (some fun _ => some { foreground_set := true, foreground := some "orange".toList,
                            background_set := false, background := none })
      "def:error".toList "yellow".toList
      = some [("foreground".toList, .string "rgb(0,0,0)".toList),
              ("background".toList, .string "rgb(255,255,0)".toList)] := by
  have h := (set_style_fg_bg_foreground_only test_gdk
    (fun _ => some { foreground_set := true, foreground := some "orange".toList,
                     background_set := false, background := none })
    "def:error".toList "yellow".toList _
    { red := 1, green := 1 / 2, blue := 0, alpha := 1 }
    { red := 1, green := 1, blue := 0, alpha := 1 } rfl rfl
    (by simp [test_gdk]) (Or.inl rfl) (by simp [test_gdk])).1
  rw [h]
  have h1 : |gdk_rgba_luminance { red := 1, green := 1 / 2, blue := 0, alpha := 1 }
      - gdk_rgba_luminance { red := 1, green := 1, blue := 0, alpha := 1 }| < 1 / 2 := by
    simp only [gdk_rgba_luminance]
    rw [abs_lt]
    constructor <;> norm_num
  have h2 : gdk_rgba_luminance { red := 1, green := 1, blue := 0, alpha := 1 } > 1 / 2 := by
    simp only [gdk_rgba_luminance]; norm_num
  rw [if_pos h1, if_pos h2]
  simp [test_gdk]
  decide

/-! ### Font description to CSS -/

theorem css_add_foldl (fields : List (Bool × Str × Str)) :
    ∀ base : Str,
      fields.foldl (fun r f => if f.1 then css_add r f.2.1 (some f.2.2) else r) base
        = base ++ ((fields.filter fun f => f.1).map fun f =>
            f.2.1 ++ ": ".toList ++ f.2.2 ++ "; ".toList).flatten := by
  induction fields with
  | nil => intro base; simp
  | cons f fs ih =>
    intro base
    rw [List.foldl_cons, ih]
    cases hf : f.1
    · simp [hf]
    · simp [hf, css_add]

/-- For a description whose variant, when set, is `PANGO_VARIANT_NORMAL` or
`PANGO_VARIANT_SMALL_CAPS`, `utils_pango_font_desc_to_css` returns `* { `, then
one `property: value; ` pair for each field set in the mask and none for a
field that is not set, in the order font-family, font-style, font-variant,
font-weight, font-stretch, font-size, then `}`; without any field it returns
`* { }`. -/
theorem utils_pango_font_desc_to_css_pairs (fd : PangoFontDescription)
    (hv : fd.mask_variant = true → fd.variant = .NORMAL ∨ fd.variant = .SMALL_CAPS) :
    utils_pango_font_desc_to_css fd = css_of_fields (css_fields fd) ∧
    (css_fields fd).map (fun f => f.2.1)
      = ["font-family".toList, "font-style".toList, "font-variant".toList,
         "font-weight".toList, "font-stretch".toList, "font-size".toList] ∧
    (css_fields fd).map (fun f => f.1)
      = [fd.mask_family, fd.mask_style, fd.mask_variant, fd.mask_weight,
         fd.mask_stretch, fd.mask_size] ∧
    (fd.mask_family = false → fd.mask_style = false → fd.mask_variant = false →
      fd.mask_weight = false → fd.mask_stretch = false → fd.mask_size = false →
      utils_pango_font_desc_to_css fd = "* \x7b \x7d".toList) := by
  have hstyle : ∀ s : PangoStyle, (match s with
      | .NORMAL => some "normal".toList
      | .OBLIQUE => some "oblique".toList
      | .ITALIC => some "italic".toList) = some (css_style_value s) := by
    intro s; cases s <;> rfl
  have hstretch : ∀ s : PangoStretch, (match s with
      | .ULTRA_CONDENSED => some "ultra-condensed".toList
      | .EXTRA_CONDENSED => some "extra-condensed".toList
      | .CONDENSED => some "condensed".toList
      | .SEMI_CONDENSED => some "semi-condensed".toList
      | .NORMAL => some "normal".toList
      | .SEMI_EXPANDED => some "semi-expanded".toList
      | .EXPANDED => some "expanded".toList
      | .EXTRA_EXPANDED => some "extra-expanded".toList
      | .ULTRA_EXPANDED => some "ultra-expanded".toList) = some (css_stretch_value s) := by
    intro s; cases s <;> rfl
  have hsize : (if (!fd.size_is_absolute) = true then Int.tdiv fd.size PANGO_SCALE else fd.size)
      = (if fd.size_is_absolute = true then fd.size else Int.tdiv fd.size PANGO_SCALE) := by
    cases fd.size_is_absolute <;> rfl
  have main : utils_pango_font_desc_to_css fd = css_of_fields (css_fields fd) := by
    have hfold : utils_pango_font_desc_to_css fd
        = (css_fields fd).foldl (fun r f => if f.1 then css_add r f.2.1 (some f.2.2) else r)
            "* \x7b ".toList ++ "\x7d".toList := by
      unfold utils_pango_font_desc_to_css css_fields
      simp only [hstyle, hstretch, hsize, List.foldl_cons, List.foldl_nil]
      cases hmv : fd.mask_variant with
      | false =>
        cases fd.mask_family <;> cases fd.mask_style <;>
          cases fd.mask_weight <;> cases fd.mask_stretch <;> cases fd.mask_size <;> rfl
      | true =>
        rcases hv hmv with h | h <;> rw [h] <;>
          cases fd.mask_family <;> cases fd.mask_style <;>
            cases fd.mask_weight <;> cases fd.mask_stretch <;> cases fd.mask_size <;> rfl
    rw [hfold, css_add_foldl]
    rfl
  refine ⟨main, rfl, rfl, ?_⟩
  intro h1 h2 h3 h4 h5 h6
  rw [main]
  simp [css_of_fields, css_fields, h1, h2, h3, h4, h5, h6]

/-- C13 fails on the code: for a description whose variant is set to a value
the `switch` has no case for, `val` is not assigned.  With the variant
`PANGO_VARIANT_ALL_SMALL_CAPS` alone `val` is `NULL`, which ends the argument
list of `g_strconcat` behind `font-variant: `; with a weight behind it the
property runs into the next one; after a style `italic` the variant
`PANGO_VARIANT_PETITE_CAPS` is printed with the value of the style. -/
theorem utils_pango_font_desc_to_css_variant_without_value :
    utils_pango_font_desc_to_css
      { mask_family := false, mask_style := false, mask_variant := true,
        mask_weight := false, mask_stretch := false, mask_size := false,
        family := [], style := .NORMAL, variant := .ALL_SMALL_CAPS, weight := 400,
        stretch := .NORMAL, size := 0, size_is_absolute := false }
      = "* \x7b font-variant: \x7d".toList ∧
    utils_pango_font_desc_to_css
      { mask_family := false, mask_style := false, mask_variant := true,
        mask_weight := true, mask_stretch := false, mask_size := false,
        family := [], style := .NORMAL, variant := .TITLE_CAPS, weight := 700,
        stretch := .NORMAL, size := 0, size_is_absolute := false }
      = "* \x7b font-variant: font-weight: 700; \x7d".toList ∧
    utils_pango_font_desc_to_css
      { mask_family := false, mask_style := true, mask_variant := true,
        mask_weight := false, mask_stretch := false, mask_size := false,
        family := [], style := .ITALIC, variant := .PETITE_CAPS, weight := 400,
        stretch := .NORMAL, size := 0, size_is_absolute := false }
      = "* \x7b font-style: italic; font-variant: italic; \x7d".toList := by
  decide

/-- A description with family, style, weight and size, and a variant that is
not set. -/
theorem utils_pango_font_desc_to_css_example :
    utils_pango_font_desc_to_css
      { mask_family := true, mask_style := true, mask_variant := false,
        mask_weight := true, mask_stretch := false, mask_size := true,
        family := "Monospace".toList, style := .ITALIC, variant := .NORMAL, weight := 400,
        stretch := .NORMAL, size := 14336, size_is_absolute := false }
      = "* \x7b font-family: Monospace; font-style: italic; font-weight: 400; font-size: 14px; \x7d".toList := by
  have h := (utils_pango_font_desc_to_css_pairs
    { mask_family := true, mask_style := true, mask_variant := false,
      mask_weight := true, mask_stretch := false, mask_size := true,
      family := "Monospace".toList, style := .ITALIC, variant := .NORMAL, weight := 400,
      stretch := .NORMAL, size := 14336, size_is_absolute := false }
    (fun h => absurd h (by decide))).1
  rw [h]
  decide

/-! ### Bibliography file, swap file, relative paths, command output, saving -/

theorem strip_trailing_seps_append_drop (s : Str) :
    strip_trailing_seps s ++ s.drop (strip_trailing_seps s).length = s := by
  have h : s = strip_trailing_seps s
      ++ (s.reverse.takeWhile (· == G_DIR_SEPARATOR)).reverse := by
    unfold strip_trailing_seps
    rw [← List.reverse_append, List.takeWhile_append_dropWhile, List.reverse_reverse]
  have hd : s.drop (strip_trailing_seps s).length
      = (s.reverse.takeWhile (· == G_DIR_SEPARATOR)).reverse := by
    conv_lhs => arg 2; rw [h]
    rw [List.drop_left]
  rw [hd]
  exact h.symm

theorem strip_trailing_seps_ne_nil_of_relative {b : Str} (hb : b ≠ [])
    (hrel : g_path_is_absolute b = false) : strip_trailing_seps b ≠ [] := by
  rcases b with _ | ⟨x, xs⟩
  · exact absurd rfl hb
  · have hx : (x == G_DIR_SEPARATOR) = false := by simpa [g_path_is_absolute] using hrel
    unfold strip_trailing_seps
    intro h
    have h2 : (x :: xs).reverse.dropWhile (· == G_DIR_SEPARATOR) = [] := by
      simpa using h
    rw [List.dropWhile_eq_nil_iff] at h2
    have := h2 x (by simp)
    simp [hx] at this

theorem g_build_path_step_relative (st : BuildPath) {b : Str} (hb : b ≠ [])
    (hrel : g_path_is_absolute b = false) (hl : st.have_leading = true) :
    g_build_path_step st b =
      { result := (if !st.is_first then st.result ++ [G_DIR_SEPARATOR] else st.result)
          ++ strip_trailing_seps b
        is_first := false
        have_leading := true
        single_element := none
        last_trailing := some (b.drop (strip_trailing_seps b).length) } := by
  have hbe : b.isEmpty = false := by cases b <;> simp_all
  have hdrop : b.dropWhile (· == G_DIR_SEPARATOR) = b := by
    rcases b with _ | ⟨x, xs⟩
    · rfl
    · have hx : (x == G_DIR_SEPARATOR) = false := by simpa [g_path_is_absolute] using hrel
      simp [List.dropWhile_cons, hx]
  have hmid : (strip_trailing_seps b).isEmpty = false := by
    have := strip_trailing_seps_ne_nil_of_relative hb hrel
    cases h : strip_trailing_seps b <;> simp_all
  simp [g_build_path_step, hbe, hdrop, hmid, hl]

/-- `g_build_filename` of a directory name that does not end in a separator and
a relative name: the two joined by one separator. -/
theorem g_build_filename_relative {C b : Str} (hC : C ≠ [])
    (hlast : C.getLast? ≠ some G_DIR_SEPARATOR) (hb : b ≠ [])
    (hrel : g_path_is_absolute b = false) :
    g_build_filename [C, b] = C ++ G_DIR_SEPARATOR :: b := by
  obtain ⟨hd1, hd2⟩ := dropWhile_sep_getLast hC hlast
  have hmidC : strip_trailing_seps (C.dropWhile (· == G_DIR_SEPARATOR))
      = C.dropWhile (· == G_DIR_SEPARATOR) := strip_trailing_seps_id hd2
  have hCe : C.isEmpty = false := by cases C <;> simp_all
  have hde : (C.dropWhile (· == G_DIR_SEPARATOR)).isEmpty = false := by
    cases h : C.dropWhile (· == G_DIR_SEPARATOR) <;> simp_all
  have hstep1 : g_build_path_step
      { result := [], is_first := true, have_leading := false,
        single_element := none, last_trailing := none } C
      = { result := C, is_first := false, have_leading := true,
          single_element := none, last_trailing := some [] } := by
    simp [g_build_path_step, hCe, hmidC, hde, strip_trailing_seps_id hlast,
      List.takeWhile_append_dropWhile]
  simp only [g_build_filename, List.foldl_cons, List.foldl_nil, hstep1]
  rw [g_build_path_step_relative _ hb hrel rfl]
  simp only [Bool.not_false, if_true, Option.getD_some]
  rw [List.append_assoc, List.append_assoc, strip_trailing_seps_append_drop]
  simp

/-- `g_build_filename` of the root directory and a relative name. -/
theorem g_build_filename_root {b : Str} (hb : b ≠ [])
    (hrel : g_path_is_absolute b = false) :
    g_build_filename [[G_DIR_SEPARATOR], b] = G_DIR_SEPARATOR :: b := by
  have hstep1 : g_build_path_step
      { result := [], is_first := true, have_leading := false,
        single_element := none, last_trailing := none } [G_DIR_SEPARATOR]
      = { result := [G_DIR_SEPARATOR], is_first := true, have_leading := true,
          single_element := some [G_DIR_SEPARATOR],
          last_trailing := some [G_DIR_SEPARATOR] } := by
    simp [g_build_path_step, strip_trailing_seps]
  simp only [g_build_filename, List.foldl_cons, List.foldl_nil, hstep1]
  rw [g_build_path_step_relative _ hb hrel rfl]
  simp only [Bool.not_true, Bool.false_eq_true, if_false, Option.getD_some]
  rw [List.append_assoc, strip_trailing_seps_append_drop]
  simp

/-- C14. `editor_fileinfo_update_biblio` sets `bibfile` to the given name in the
directory of the document (`dirname/filename`, and `/filename` for the root
directory) when the document has a file name and the given name is relative,
and to the given name when that is absolute or the document has no file name;
it returns `TRUE` exactly when the path in `bibfile` exists; no other field of
the editor changes. -/
theorem editor_fileinfo_update_biblio_sets (fs : Str → Bool) (ec : GuEditor)
    (filename : Str) :
    let r := editor_fileinfo_update_biblio fs ec filename
    (∀ f, ec.filename = some f → filename ≠ [] → g_path_is_absolute filename = false →
      r.1.bibfile = some (g_build_filename [g_path_get_dirname f, filename]) ∧
      r.1.bibfile = some
        (if g_path_get_dirname f = [G_DIR_SEPARATOR] then G_DIR_SEPARATOR :: filename
         else g_path_get_dirname f ++ G_DIR_SEPARATOR :: filename)) ∧
    (g_path_is_absolute filename = true ∨ ec.filename = none →
      r.1.bibfile = some filename) ∧
    (∀ p, r.1.bibfile = some p → (r.2 = true ↔ fs p = true)) ∧
    r.1 = { ec with bibfile := r.1.bibfile } := by
  intro r
  refine ⟨?_, ?_, ?_, rfl⟩
  · intro f hf hne hrel
    have h1 : r.1.bibfile = some (g_build_filename [g_path_get_dirname f, filename]) := by
      simp [r, editor_fileinfo_update_biblio, hf, hrel]
    refine ⟨h1, ?_⟩
    rw [h1]
    rcases g_path_get_dirname_shape f with h | ⟨h2, h3⟩
    · rw [h, if_pos rfl, g_build_filename_root hne hrel]
    · by_cases hroot : g_path_get_dirname f = [G_DIR_SEPARATOR]
      · rw [hroot, if_pos rfl, g_build_filename_root hne hrel]
      · rw [if_neg hroot, g_build_filename_relative h2 h3 hne hrel]
  · rintro (h | h)
    · cases hf : ec.filename <;> simp [r, editor_fileinfo_update_biblio, hf, h]
    · simp [r, editor_fileinfo_update_biblio, h]
  · intro p hp
    have : r.2 = utils_path_exists fs r.1.bibfile := rfl
    rw [this, hp]
    rfl

/-- Witness of C14: `refs.bib` beside `/home/u/doc.tex`. -/
theorem editor_fileinfo_update_biblio_sets_witness :
    (editor_fileinfo_update_biblio (fun _ => true)
      { editor_new [] with filename := some "/home/u/doc.tex".toList }
      "refs.bib".toList).1.bibfile = some "/home/u/refs.bib".toList := by
  have h := ((editor_fileinfo_update_biblio_sets (fun _ => true)
    { editor_new [] with filename := some "/home/u/doc.tex".toList }
    "refs.bib".toList).1 "/home/u/doc.tex".toList rfl (by decide) (by decide)).2
  rw [h]
  decide

/-- C15. For every `root` and `rel`, `utils_path_to_relative` applied to `root`
and to `root`, a separator and `rel` returns `rel`; when `root` is `NULL` or is
not a prefix of `target` it returns `target`. -/
theorem utils_path_to_relative_join {α : Type} [DecidableEq α] (sep : α)
    (root rel target : List α) :
    utils_path_to_relative (some root) (root ++ sep :: rel) = some rel ∧
    utils_path_to_relative none target = some target ∧
    (¬ root <+: target → utils_path_to_relative (some root) target = some target) := by
  refine ⟨?_, rfl, ?_⟩
  · have hp : root.isPrefixOf (root ++ sep :: rel) = true :=
      List.isPrefixOf_iff_prefix.mpr ⟨sep :: rel, rfl⟩
    have hlen : root.length + 1 ≤ (root ++ sep :: rel).length := by simp
    have hdrop : (root ++ sep :: rel).drop (root.length + 1) = rel := by
      rw [show root ++ sep :: rel = (root ++ [sep]) ++ rel by simp,
        show root.length + 1 = (root ++ [sep]).length by simp, List.drop_left]
    simp only [utils_path_to_relative, hp, if_true, hlen, hdrop]
  · intro h
    have hp : root.isPrefixOf target = false := by
      cases hq : root.isPrefixOf target with
      | false => rfl
      | true => exact absurd (List.isPrefixOf_iff_prefix.mp hq) h
    simp [utils_path_to_relative, hp]

/-- Witness of C15: a root that is no prefix of the target. -/
theorem utils_path_to_relative_join_witness :
    utils_path_to_relative (some "/home/u/project".toList) "/home/u/project/ch/a.tex".toList
      = some "ch/a.tex".toList ∧
    utils_path_to_relative (some "/home/v".toList) "/home/u/a.tex".toList
      = some "/home/u/a.tex".toList :=
  ⟨(utils_path_to_relative_join '/' "/home/u/project".toList "ch/a.tex".toList []).1,
   (utils_path_to_relative_join '/' "/home/v".toList [] "/home/u/a.tex".toList).2.2
     (by decide)⟩

/-- C16. For an absolute file name, `iofunctions_get_swapfile` is the work file
that `editor_fileinfo_update` sets for that name, `iofunctions_has_swapfile`
tells whether that file exists, and `iofunctions_has_swapfile (NULL)` is
`FALSE`. -/
theorem iofunctions_get_swapfile_is_workfile (env : Env) (mk : Mkstemp) (ec : GuEditor)
    (fs : Str → Bool) (filename : Str) (habs : g_path_is_absolute filename = true) :
    (editor_fileinfo_update env mk ec (some filename)).1.workfile
      = some (iofunctions_get_swapfile filename) ∧
    iofunctions_get_swapfile filename
      = g_path_get_dirname filename ++ '/' :: '.' :: g_path_get_basename filename
          ++ ".swp".toList ∧
    (∀ w, (editor_fileinfo_update env mk ec (some filename)).1.workfile = some w →
      iofunctions_has_swapfile fs (some filename) = fs w) ∧
    iofunctions_has_swapfile fs none = false := by
  have h := (editor_fileinfo_update_some env mk ec filename).2.2.1
  simp only [habs, Bool.not_true, Bool.false_eq_true, if_false] at h
  have h1 : (editor_fileinfo_update env mk ec (some filename)).1.workfile
      = some (iofunctions_get_swapfile filename) := h
  refine ⟨h1, by simp [iofunctions_get_swapfile, G_DIR_SEPARATOR], ?_, rfl⟩
  intro w hw
  rw [h1] at hw
  have : iofunctions_get_swapfile filename = w := Option.some.inj hw
  rw [← this]
  simp only [iofunctions_has_swapfile, utils_path_exists]
  by_cases hfs : fs (iofunctions_get_swapfile filename) = true
  · rw [if_pos hfs, hfs]
  · rw [if_neg hfs]
    exact (Bool.not_eq_true _ ▸ hfs : fs (iofunctions_get_swapfile filename) = false).symm

/-- Witness of C16 at `/absolute/path/FILE.tex`. -/
theorem iofunctions_get_swapfile_is_workfile_witness :
    iofunctions_get_swapfile "/absolute/path/FILE.tex".toList
      = "/absolute/path/.FILE.tex.swp".toList ∧
    (editor_fileinfo_update
      { C_TMPDIR := "/home/u/.cache/gummi".toList, current_dir := "/home/u".toList }
      { fd := 5, chars := "AbCdEf".toList } (editor_new [])
      (some "/absolute/path/FILE.tex".toList)).1.workfile
      = some (iofunctions_get_swapfile "/absolute/path/FILE.tex".toList) :=
  ⟨by decide,
   (iofunctions_get_swapfile_is_workfile
    { C_TMPDIR := "/home/u/.cache/gummi".toList, current_dir := "/home/u".toList }
    { fd := 5, chars := "AbCdEf".toList } (editor_new []) (fun _ => true)
    "/absolute/path/FILE.tex".toList (by decide)).1⟩

theorem c_string_of_terminated {chunk : List Nat} (h0 : ∀ b ∈ chunk, b ≠ 0) (rest : List Nat) :
    c_string (chunk ++ 0 :: rest) = chunk := by
  unfold c_string
  rw [List.takeWhile_append_of_pos (by intro b hb; simpa using h0 b hb)]
  simp

/-- One turn of the loop for a chunk shorter than the buffer: the whole chunk
is appended. -/
theorem utils_popen_r_step_short (BUFSIZ : Nat) (buf : List Nat) (ret : Option (List Nat))
    (chunk : List Nat) (hlen : chunk.length < BUFSIZ) (hbuf : buf.length = BUFSIZ)
    (h0 : ∀ b ∈ chunk, b ≠ 0) :
    ((utils_popen_r_step BUFSIZ (buf, ret) chunk).2
      = some ((ret.getD []) ++ chunk)) ∧
    (utils_popen_r_step BUFSIZ (buf, ret) chunk).1.length = BUFSIZ := by
  have hne : chunk.length ≠ BUFSIZ := by omega
  obtain ⟨x, xs, hx⟩ : ∃ x xs, buf.drop chunk.length = x :: xs := by
    cases h : buf.drop chunk.length with
    | nil =>
      have := congrArg List.length h
      simp at this
      omega
    | cons x xs => exact ⟨x, xs, rfl⟩
  have hset : (chunk ++ buf.drop chunk.length).set chunk.length 0 = chunk ++ 0 :: xs := by
    rw [hx, List.set_append_right _ _ (Nat.le_refl _)]
    simp
  constructor
  · simp only [utils_popen_r_step, hne, if_false, Nat.sub_zero, hset,
      c_string_of_terminated h0]
    cases ret <;> simp
  · simp only [utils_popen_r_step, List.length_set, List.length_append, List.length_drop]
    omega

/-- One turn of the loop for a chunk that fills the buffer: the last byte of
the chunk is overwritten by the terminating NUL. -/
theorem utils_popen_r_step_full (BUFSIZ : Nat) (buf : List Nat) (ret : Option (List Nat))
    (chunk : List Nat) (hlen : chunk.length = BUFSIZ) (hpos : 0 < BUFSIZ)
    (hbuf : buf.length = BUFSIZ) (h0 : ∀ b ∈ chunk, b ≠ 0) :
    (utils_popen_r_step BUFSIZ (buf, ret) chunk).2
      = some ((ret.getD []) ++ chunk.dropLast) := by
  have hd : buf.drop chunk.length = [] := by
    rw [List.drop_eq_nil_iff]; omega
  obtain ⟨ini, last, hcl⟩ : ∃ ini last, chunk = ini ++ [last] := by
    have hne : chunk ≠ [] := by
      intro h; rw [h] at hlen; simp at hlen; omega
    exact ⟨chunk.dropLast, chunk.getLast hne, (List.dropLast_append_getLast hne).symm⟩
  have hidx : chunk.length - 1 = ini.length := by rw [hcl]; simp
  have hset : (chunk ++ buf.drop chunk.length).set (chunk.length - 1) 0 = ini ++ [0] := by
    rw [hd, List.append_nil, hidx, hcl, List.set_append_right _ _ (Nat.le_refl _)]
    simp
  have hini : ∀ b ∈ ini, b ≠ 0 := fun b hb => h0 b (by rw [hcl]; simp [hb])
  have hdl : chunk.dropLast = ini := by rw [hcl]; simp
  simp only [utils_popen_r_step, hlen, if_true]
  rw [← hlen, hset, c_string_of_terminated hini, hdl]
  cases ret <;> simp

/-- When every chunk is shorter than the buffer and free of NUL bytes, the loop
accumulates the chunks one after the other. -/
theorem utils_popen_r_accumulate_short (BUFSIZ : Nat) (buf0 : List Nat)
    (hbuf : buf0.length = BUFSIZ) (chunks : List (List Nat))
    (hlen : ∀ c ∈ chunks, c.length < BUFSIZ) (h0 : ∀ c ∈ chunks, ∀ b ∈ c, b ≠ 0)
    (hne : chunks ≠ []) :
    utils_popen_r_accumulate BUFSIZ buf0 chunks = some chunks.flatten := by
  have key : ∀ (cs : List (List Nat)) (buf : List Nat) (ret : Option (List Nat)),
      buf.length = BUFSIZ → (∀ c ∈ cs, c.length < BUFSIZ) → (∀ c ∈ cs, ∀ b ∈ c, b ≠ 0) →
      cs ≠ [] →
      (cs.foldl (utils_popen_r_step BUFSIZ) (buf, ret)).2
        = some ((ret.getD []) ++ cs.flatten) := by
    intro cs
    induction cs with
    | nil => intro buf ret _ _ _ h; exact absurd rfl h
    | cons c cs ih =>
      intro buf ret hb hl hz _
      obtain ⟨h1, h2⟩ := utils_popen_r_step_short BUFSIZ buf ret c
        (hl c (List.mem_cons_self _ _)) hb (hz c (List.mem_cons_self _ _))
      rw [List.foldl_cons]
      generalize hst : utils_popen_r_step BUFSIZ (buf, ret) c = st at h1 h2
      obtain ⟨buf1, ret1⟩ := st
      simp only at h1 h2
      by_cases hcs : cs = []
      · subst hcs
        simp [h1]
      · rw [ih buf1 ret1 h2 (fun x hx => hl x (List.mem_cons_of_mem _ hx))
          (fun x hx => hz x (List.mem_cons_of_mem _ hx)) hcs, h1]
        simp
  have := key chunks buf0 none hbuf hlen h0 hne
  simpa [utils_popen_r_accumulate] using this

/-- C17 fails on the code: for every buffer size `BUFSIZ = n + 1` (8192 with
glibc), one chunk of `BUFSIZ` bytes `a` is accumulated as `BUFSIZ - 1` bytes,
because the terminating NUL is written over the last byte of a chunk that fills
the buffer. -/
theorem utils_popen_r_accumulate_full_chunk (n : Nat) :
    utils_popen_r_accumulate (n + 1) (List.replicate (n + 1) 0) [List.replicate (n + 1) 97]
      = some (List.replicate n 97) ∧
    (List.replicate n 97 : List Nat) ≠ [List.replicate (n + 1) 97].flatten := by
  have h := utils_popen_r_step_full (n + 1) (List.replicate (n + 1) 0) none
    (List.replicate (n + 1) 97) (List.length_replicate _ _) (Nat.succ_pos n)
    (List.length_replicate _ _)
    (by intro b hb; rw [List.eq_of_mem_replicate hb]; decide)
  constructor
  · simp only [utils_popen_r_accumulate, List.foldl_cons, List.foldl_nil, h]
    simp [List.dropLast_replicate]
  · intro hcontra
    have := congrArg List.length hcontra
    simp at this

/-- C18 fails on the code: whenever `result` is `FALSE` the read of
`err->message` in the failure report faults.  Without file name `err` is still
`NULL`; after a failed write `err` was freed by the branch that logged the
failure.  After a successful write the report is not reached. -/
theorem iofunctions_real_save_file_report_faults (filename message : Str)
    (set_contents : Option Str) :
    iofunctions_real_save_file none set_contents = .error .null_dereference ∧
    iofunctions_real_save_file (some filename) (some message) = .error .use_after_free ∧
    iofunctions_real_save_file (some filename) none = .ok [] :=
  ⟨rfl, rfl, rfl⟩

/-- C19 fails on the code: for `target` equal to `root` the offset
`strlen (root) + 1` lies behind the terminating NUL of `target`, and for the
root `/home/u` and the target `/home/user/x`, of which the root is a prefix
that does not end at a path component, the part skipped is `/home/us`. -/
theorem utils_path_to_relative_not_suffix :
    utils_path_to_relative (some "/home/u".toList) "/home/u".toList = none ∧
    utils_path_to_relative (some "/home/u".toList) "/home/user/x".toList
      = some "er/x".toList := by
  decide

/-! ### Searching for the next occurrence -/

theorem find_from_first (str : Str) (ci : Bool) :
    ∀ (s : Str) (pos k : Nat), k < s.length →
      matches_at str ci (s.drop k) = true →
      (∀ j, j < k → matches_at str ci (s.drop j) = false) →
      find_from str ci s pos = some (pos + k) := by
  intro s
  induction s with
  | nil => intro pos k hk; simp at hk
  | cons c cs ih =>
    intro pos k hk hm hmin
    cases k with
    | zero =>
      rw [List.drop_zero] at hm
      simp [find_from, hm]
    | succ k =>
      have h0 : matches_at str ci (c :: cs) = false := by
        simpa using hmin 0 (Nat.succ_pos k)
      have hk1 : k < cs.length := by simpa using hk
      have hrec := ih (pos + 1) k hk1 (by simpa using hm)
        (fun j hj => by simpa using hmin (j + 1) (Nat.succ_lt_succ hj))
      rw [find_from, h0, hrec]
      simp only [Bool.false_eq_true, if_false]
      congr 1
      omega

theorem find_from_none_of (str : Str) (ci : Bool) :
    ∀ (s : Str) (pos : Nat),
      (∀ k, k < s.length → matches_at str ci (s.drop k) = false) →
      find_from str ci s pos = none := by
  intro s
  induction s with
  | nil => intro pos _; rfl
  | cons c cs ih =>
    intro pos h
    have h0 : matches_at str ci (c :: cs) = false := by
      simpa using h 0 (by simp)
    rw [find_from, h0]
    simp only [Bool.false_eq_true, if_false]
    exact ih (pos + 1) (fun k hk => by simpa using h (k + 1) (by simpa using hk))

theorem matches_at_nil_of_ne_nil {str : Str} (ci : Bool) (h : str ≠ []) :
    matches_at str ci [] = false := by
  cases str with
  | nil => exact absurd rfl h
  | cons a as => rfl

/-- With `wholeword` off the loop of `editor_search_next` makes one forward
search, from the position `strlen (term)` characters past `current`. -/
theorem editor_search_next_loop_forward (text term : Str) (matchcase : Bool)
    (fuel current : Nat) :
    editor_search_next_loop text term false false matchcase (fuel + 1) current
      = some (gtk_text_iter_forward_search text
          (gtk_text_iter_forward_chars text current (strlen term)) term (!matchcase)) := by
  simp only [editor_search_next_loop, Bool.false_eq_true, if_false, Bool.false_and]
  cases gtk_text_iter_forward_search text
      (gtk_text_iter_forward_chars text current (strlen term)) term (!matchcase) with
  | none => rfl
  | some r => rfl

theorem gtk_text_iter_forward_search_first (text term : Str) (ci : Bool) (hne : term ≠ [])
    (cur i : Nat) (hi : cur + term.length ≤ i)
    (hm : matches_at term ci (text.drop i) = true)
    (hmin : ∀ j, cur + term.length ≤ j → j < i → matches_at term ci (text.drop j) = false) :
    gtk_text_iter_forward_search text
        (gtk_text_iter_forward_chars text cur term.length) term ci
      = some (i, i + term.length) := by
  have hlt : i < text.length := by
    by_contra hcon
    rw [List.drop_eq_nil_of_le (by omega), matches_at_nil_of_ne_nil ci hne] at hm
    exact Bool.false_ne_true hm
  have hp : gtk_text_iter_forward_chars text cur term.length = cur + term.length := by
    unfold gtk_text_iter_forward_chars
    omega
  have hempty : term.isEmpty = false := by
    cases term with
    | nil => exact absurd rfl hne
    | cons a as => rfl
  have hf := find_from_first term ci (text.drop (cur + term.length)) (cur + term.length)
    (i - (cur + term.length)) (by rw [List.length_drop]; omega)
    (by rw [List.drop_drop]
        have : cur + term.length + (i - (cur + term.length)) = i := by omega
        simpa [this] using hm)
    (fun j hj => by
      rw [List.drop_drop]
      have := hmin (cur + term.length + j) (by omega) (by omega)
      simpa using this)
  have hidx : cur + term.length + (i - (cur + term.length)) = i := by omega
  rw [hidx] at hf
  simp only [gtk_text_iter_forward_search, hempty, Bool.false_eq_true, if_false, hp, hf,
    Option.map_some']

theorem gtk_text_iter_forward_search_none (text term : Str) (ci : Bool) (hne : term ≠ [])
    (cur : Nat)
    (hno : ∀ i, cur + term.length ≤ i → matches_at term ci (text.drop i) = false) :
    gtk_text_iter_forward_search text
        (gtk_text_iter_forward_chars text cur term.length) term ci = none := by
  have hempty : term.isEmpty = false := by
    cases term with
    | nil => exact absurd rfl hne
    | cons a as => rfl
  have hf := find_from_none_of term ci
    (text.drop (gtk_text_iter_forward_chars text cur term.length))
    (gtk_text_iter_forward_chars text cur term.length)
    (fun k hk => by
      rw [List.drop_drop]
      rw [List.length_drop] at hk
      apply hno
      unfold gtk_text_iter_forward_chars at hk ⊢
      omega)
  simp only [gtk_text_iter_forward_search, hempty, Bool.false_eq_true, if_false, hf,
    Option.map_none']

/-- The claim of C20 as stated fails: in the buffer `ab ab ab` with the third
`ab` selected and the cursor at its start, no occurrence starts two characters
past the cursor; the dialog "Bottom reached, search from top?" is answered with
yes and the selection moves to the second `ab`, at offsets 3 to 5. -/
theorem editor_search_next_wraps_around :
    (∀ i, 6 + 2 ≤ i → matches_at "ab".toList false ("ab ab ab".toList.drop i) = false) ∧
    (editor_search_next false
        { editor_new "ab ab ab".toList with
          term := some "ab".toList, matchcase := true, insert := 6, selection_bound := 8 }
        [true]).map (fun e => (e.insert, e.selection_bound)) = some (3, 5) := by
  constructor
  · intro i hi
    rw [List.drop_eq_nil_of_le (by simpa using hi)]
    rfl
  · decide

/-- C20, amended. For every buffer, non-empty ASCII `term` and cursor position,
with `wholeword` off and `ec->backwards ^ inverse` false: `editor_search_next`
selects the first occurrence of `term` that starts at or after the position
`length (term)` characters past the cursor, so an occurrence that starts before
that position is skipped; when there is no such occurrence it asks whether to
search from the top, leaves the selection unchanged on the answer no, and on
the answer yes places the cursor at the start of the buffer and searches
again.  Occurrences are compared without case when `matchcase` is off. -/
theorem editor_search_next_forward (ec : GuEditor) (inverse : Bool) (term : Str)
    (responses : List Bool)
    (hterm : ec.term = some term) (hne : term ≠ [])
    (hascii : ∀ c ∈ term, c.utf8Size = 1)
    (hww : ec.wholeword = false) (hdir : xor ec.backwards inverse = false) :
    (∀ i, ec.insert + term.length ≤ i →
      matches_at term (!ec.matchcase) (ec.text.drop i) = true →
      (∀ j, ec.insert + term.length ≤ j → j < i →
        matches_at term (!ec.matchcase) (ec.text.drop j) = false) →
      editor_search_next inverse ec responses
        = some { ec with insert := i, selection_bound := i + term.length }) ∧
    ((∀ i, ec.insert + term.length ≤ i →
        matches_at term (!ec.matchcase) (ec.text.drop i) = false) →
      editor_search_next inverse ec (false :: responses) = some ec ∧
      editor_search_next inverse ec (true :: responses)
        = editor_search_next inverse { ec with insert := 0, selection_bound := 0 }
            responses) := by
  have hlen : strlen term = term.length := strlen_eq_length hascii
  have hloop : editor_search_next_loop ec.text (ec.term.getD []) false
      ec.wholeword ec.matchcase (ec.text.length + 2) ec.insert
      = some (gtk_text_iter_forward_search ec.text
          (gtk_text_iter_forward_chars ec.text ec.insert term.length) term
          (!ec.matchcase)) := by
    rw [hterm, hww, Option.getD_some, editor_search_next_loop_forward, hlen]
  constructor
  · intro i hi hm hmin
    have hs := gtk_text_iter_forward_search_first ec.text term (!ec.matchcase) hne
      ec.insert i hi hm hmin
    rw [hs] at hloop
    rcases responses with _ | ⟨_ | _, rest⟩ <;>
      simp only [editor_search_next, hdir, hloop]
  · intro hno
    have hs := gtk_text_iter_forward_search_none ec.text term (!ec.matchcase) hne
      ec.insert hno
    rw [hs] at hloop
    constructor
    · simp only [editor_search_next, hdir, hloop]
    · rw [editor_search_next]
      simp only [hdir, hloop, Bool.false_eq_true, if_false]

/-- Witness of C20: in the buffer `abab ab` with the first `ab` selected, the
occurrence at offset 2 is the first one that starts two characters past the
cursor and is selected. -/
theorem editor_search_next_forward_witness :
    editor_search_next false
        { editor_new "abab ab".toList with
          term := some "ab".toList, insert := 0, selection_bound := 2 } []
      = some { editor_new "abab ab".toList with
          term := some "ab".toList, insert := 2, selection_bound := 2 + 2 } :=
  (editor_search_next_forward
    { editor_new "abab ab".toList with
      term := some "ab".toList, insert := 0, selection_bound := 2 }
    false "ab".toList [] rfl (by decide) (by decide) rfl rfl).1 2 (by decide) (by decide)
    (fun j h1 h2 => absurd h2 (Nat.not_lt.mpr h1))

/-! ### Replacing the next occurrence -/

end Gummi
